import Mathlib

/-!
# shasta: marker graph compaction, edge lookup and meta marker graph edges

A shallow embedding of `src/MarkerGraph.cpp` (`findEdge`, `findEdgeId`,
`removeVertices` and its three thread functions), of
`src/MetaMarkerGraph.cpp` (`createEdges`) and of the view box computation of
`writeSvg` in `src/writeGraph.hpp`, with the properties the specification
states about them.

Conventions of the embedding.

* Memory mapped containers are lists.  An access outside a container is a
  fatal outcome (`Fatal.outOfBounds`), a failed `SHASTA_ASSERT` is
  `Fatal.assertionFailed`; code that can fail returns `Except Fatal _`.
* Unsigned 64 bit quantities are natural numbers; where the source can wrap
  (`metaOrdinal + 1`) or narrows to 40 bits (`CompressedVertexId`) the
  reduction modulo a power of two is written out.
* A pointer into the edge array is the offset of the edge it points to
  (`&edges[i]` is `i`); the null pointer is `none`.
* The work done by the threads is a sequence of batches of consecutive ids;
  the order in which batches are processed is an explicit argument.
* Positions and radii of the drawing are exact rationals; the two constants
  of `std::numeric_limits<double>` that `writeSvg` uses are the rationals they
  denote.
-/

namespace shasta

/-! ## Fatal outcomes -/

/-- The two ways an operation can end fatally. -/
inductive Fatal where
  /-- A `SHASTA_ASSERT` whose condition is false. -/
  | assertionFailed
  /-- An access to a key or index that the container does not have. -/
  | outOfBounds
  deriving DecidableEq

deriving instance DecidableEq for Except

abbrev MarkerId := Nat
abbrev VertexId := Nat
abbrev EdgeId := Nat
abbrev CompressedVertexId := Nat

/-! ## Identifier widths -/

/-- Modelled from the spec: the declaration of `CompressedVertexId` is in
`MarkerGraph.hpp`, which is absent.  The spec says a vertex id is "compactly
representable in fewer bits"; `findEdge` takes its vertex ids as `Uint40`, so
the width is 40 bits. -/
def compressedVertexIdBits : Nat := 40

/-- Conversion `VertexId -> CompressedVertexId`
(`const CompressedVertexId compressedVertexId = vertexId;`): the low 40 bits. -/
def toCompressedVertexId (v : Nat) : CompressedVertexId :=
  v % 2 ^ compressedVertexIdBits

/-- The constant `MarkerGraph::invalidCompressedVertexId`, initialised from
`std::numeric_limits<uint64_t>::max()`. -/
def invalidCompressedVertexId : CompressedVertexId :=
  toCompressedVertexId (2 ^ 64 - 1)

/-! ## Memory mapped containers -/

namespace MemoryMapped

/-- Modelled from the spec: `MemoryMapped::Vector<T>::operator[]` (header
absent), a point read of a flat array.  Reading a slot that does not exist is
a fatal contract violation. -/
def Vector.get {α : Type} (v : List α) (i : Nat) : Except Fatal α :=
  match v[i]? with
  | some x => .ok x
  | none => .error .outOfBounds

/-- Modelled from the spec: `MemoryMapped::Vector<T>::operator[]` used as a
point write.  Writing a slot that does not exist is a fatal contract
violation. -/
def Vector.put {α : Type} (v : List α) (i : Nat) (x : α) : Except Fatal (List α) :=
  if i < v.length then .ok (v.set i x) else .error .outOfBounds

/-- The call `std::fill(v.begin(), v.end(), x)` on a flat array: every slot
gets the value `x`. -/
def Vector.fill {α : Type} (v : List α) (x : α) : List α :=
  List.replicate v.length x

/-- Modelled from the spec: the Record Store (`MemoryMapped::VectorOfVectors`,
header absent) once durable: per key an ordered sequence of elements.
`operator[](key)` returns the sequence of an existing key; a key that does not
exist is a fatal contract violation. -/
def VectorOfVectors.get {α : Type} (vv : List (List α)) (key : Nat) :
    Except Fatal (List α) :=
  match vv[key]? with
  | some l => .ok l
  | none => .error .outOfBounds

/-- Modelled from the spec: `VectorOfVectors::size(key)`, the number of
elements stored for an existing key. -/
def VectorOfVectors.size {α : Type} (vv : List (List α)) (key : Nat) :
    Except Fatal Nat :=
  match vv[key]? with
  | some l => .ok l.length
  | none => .error .outOfBounds

/-- Modelled from the spec: `createNew` followed by `beginPass1(keyCount)`:
one count per key, all zero. -/
def VectorOfVectors.beginPass1 (keyCount : Nat) : List Nat :=
  List.replicate keyCount 0

/-- Modelled from the spec: `incrementCount(key, n)` accumulates the final
element count of an existing key. -/
def VectorOfVectors.incrementCount (counts : List Nat) (key n : Nat) :
    Except Fatal (List Nat) :=
  match counts[key]? with
  | some c => .ok (counts.set key (c + n))
  | none => .error .outOfBounds

/-- Modelled from the spec: `beginPass2()` allocates for every key a slice of
exactly the accumulated count; the slices are not yet filled (the fresh
backing store reads as zero). -/
def VectorOfVectors.beginPass2 (counts : List Nat) : List (List Nat) :=
  counts.map fun c => List.replicate c 0

/-- Modelled from the spec: `std::copy(first, last, newVertices.begin(key))`:
the source elements overwrite the slice of `key` from its first slot on, in
order.  A key that does not exist, or a source longer than the slice, is an
access outside the container. -/
def VectorOfVectors.copyTo (store : List (List Nat)) (key : Nat) (src : List Nat) :
    Except Fatal (List (List Nat)) :=
  match store[key]? with
  | some slice =>
    if src.length ≤ slice.length then
      .ok (store.set key (src ++ slice.drop src.length))
    else .error .outOfBounds
  | none => .error .outOfBounds

end MemoryMapped

/-! ## Load balancing -/

/-- Modelled from the spec: `setupLoadBalancing(n, batchSize)` together with
`getNextBatch(begin, end)` (`MultithreadedObject`, header absent): the shared
cursor hands out the contiguous, disjoint ranges `[k*batchSize,
min((k+1)*batchSize, n))` in increasing order of `k`. -/
def getBatches (n batchSize : Nat) : List (Nat × Nat) :=
  (List.range ((n + batchSize - 1) / batchSize)).map fun k =>
    (k * batchSize, min ((k + 1) * batchSize) n)

/-- The ids of one batch, `for(id=begin; id!=end; id++)`. -/
def batchIds (b : Nat × Nat) : List Nat :=
  List.range' b.1 (b.2 - b.1)

/-- The constant `batchCount` of `removeVertices`. -/
def batchCount : Nat := 10000

/-! ## The marker graph -/

/-- Modelled from the spec: `MarkerGraph::Edge` (declared in
`MarkerGraph.hpp`, absent) has a source and a target `CompressedVertexId`. -/
structure Edge where
  source : CompressedVertexId
  target : CompressedVertexId
  deriving DecidableEq

/-- The data members of `MarkerGraph` used by the code under study. -/
structure MarkerGraph where
  /-- For every vertex, its ordered list of marker ids. -/
  vertices : List (List MarkerId)
  /-- For every marker id, the vertex that owns it, or the invalid value. -/
  vertexTable : List CompressedVertexId
  /-- The edge array. -/
  edges : List Edge
  /-- For every vertex, the ids of the edges leaving it. -/
  edgesBySource : List (List EdgeId)
  deriving DecidableEq

namespace MarkerGraph

/-- The scan of `MarkerGraph::findEdge` over the edge ids of one source. -/
def findEdgeLoop (edges : List Edge) (target : Nat) :
    List EdgeId → Except Fatal (Option EdgeId)
  | [] => .ok none
  | i :: rest =>
    match MemoryMapped.Vector.get edges i with
    | .error e => .error e
    | .ok edge =>
      if edge.target = target then .ok (some i) else findEdgeLoop edges target rest

/-- `MarkerGraph::findEdge`: a pointer to the first edge listed in
`edgesBySource[source]` whose target is `target`, or the null pointer. -/
def findEdge (mg : MarkerGraph) (source target : Nat) : Except Fatal (Option EdgeId) :=
  match MemoryMapped.VectorOfVectors.get mg.edgesBySource source with
  | .error e => .error e
  | .ok edgesWithThisSource => findEdgeLoop mg.edges target edgesWithThisSource

/-- `MarkerGraph::findEdgeId`: `SHASTA_ASSERT(edgePointer)` and then the offset
of the edge in the edge array. -/
def findEdgeId (mg : MarkerGraph) (source target : Nat) : Except Fatal EdgeId :=
  match findEdge mg source target with
  | .error e => .error e
  | .ok none => .error .assertionFailed
  | .ok (some edgePointer) => .ok edgePointer

/-- The body of the inner loop of `removeVerticesThreadFunction1`. -/
def countVertex (vertices : List (List MarkerId)) (verticesToBeKept : List VertexId)
    (counts : List Nat) (newVertexId : Nat) : Except Fatal (List Nat) := do
  let oldVertexId ← MemoryMapped.Vector.get verticesToBeKept newVertexId
  let n ← MemoryMapped.VectorOfVectors.size vertices oldVertexId
  MemoryMapped.VectorOfVectors.incrementCount counts newVertexId n

/-- `removeVerticesThreadFunction1` over the batches it is handed. -/
def removeVerticesThreadFunction1 (vertices : List (List MarkerId))
    (verticesToBeKept : List VertexId) (batches : List (Nat × Nat))
    (counts : List Nat) : Except Fatal (List Nat) :=
  batches.foldlM
    (fun cs b => (batchIds b).foldlM (countVertex vertices verticesToBeKept) cs) counts

/-- The body of the inner loop of `removeVerticesThreadFunction2`. -/
def copyVertex (vertices : List (List MarkerId)) (verticesToBeKept : List VertexId)
    (newVertices : List (List MarkerId)) (newVertexId : Nat) :
    Except Fatal (List (List MarkerId)) := do
  let oldVertexId ← MemoryMapped.Vector.get verticesToBeKept newVertexId
  let src ← MemoryMapped.VectorOfVectors.get vertices oldVertexId
  MemoryMapped.VectorOfVectors.copyTo newVertices newVertexId src

/-- `removeVerticesThreadFunction2` over the batches it is handed. -/
def removeVerticesThreadFunction2 (vertices : List (List MarkerId))
    (verticesToBeKept : List VertexId) (batches : List (Nat × Nat))
    (newVertices : List (List MarkerId)) : Except Fatal (List (List MarkerId)) :=
  batches.foldlM
    (fun nv b => (batchIds b).foldlM (copyVertex vertices verticesToBeKept) nv) newVertices

/-- The loop over the markers of one vertex in `removeVerticesThreadFunction3`. -/
def writeMarkers (compressedVertexId : CompressedVertexId) :
    List CompressedVertexId → List MarkerId → Except Fatal (List CompressedVertexId)
  | vertexTable, [] => .ok vertexTable
  | vertexTable, markerId :: rest =>
    match MemoryMapped.Vector.put vertexTable markerId compressedVertexId with
    | .error e => .error e
    | .ok vertexTable1 => writeMarkers compressedVertexId vertexTable1 rest

/-- The body of the loop over vertices of `removeVerticesThreadFunction3`. -/
def repairVertex (vertices : List (List MarkerId))
    (vertexTable : List CompressedVertexId) (vertexId : Nat) :
    Except Fatal (List CompressedVertexId) := do
  let compressedVertexId := toCompressedVertexId vertexId
  let vertexMarkerIds ← MemoryMapped.VectorOfVectors.get vertices vertexId
  writeMarkers compressedVertexId vertexTable vertexMarkerIds

/-- `removeVerticesThreadFunction3` over the batches it is handed. -/
def removeVerticesThreadFunction3 (vertices : List (List MarkerId))
    (batches : List (Nat × Nat)) (vertexTable : List CompressedVertexId) :
    Except Fatal (List CompressedVertexId) :=
  batches.foldlM
    (fun t b => (batchIds b).foldlM (repairVertex vertices) t) vertexTable

/-- `MarkerGraph::removeVertices`, with the order in which the batches of each
of the three parallel phases are processed made explicit: `order1`, `order2`
and `order3` rearrange the batches handed out by the load balancer. -/
def removeVerticesWith (order1 order2 order3 : List (Nat × Nat) → List (Nat × Nat))
    (mg : MarkerGraph) (verticesToBeKept : List VertexId) : Except Fatal MarkerGraph := do
  -- Create the new vertices.
  let counts0 := MemoryMapped.VectorOfVectors.beginPass1 verticesToBeKept.length
  let counts ← removeVerticesThreadFunction1 mg.vertices verticesToBeKept
    (order1 (getBatches verticesToBeKept.length batchCount)) counts0
  let newVertices0 := MemoryMapped.VectorOfVectors.beginPass2 counts
  let newVertices ← removeVerticesThreadFunction2 mg.vertices verticesToBeKept
    (order2 (getBatches verticesToBeKept.length batchCount)) newVertices0
  -- Replace the old vertices with the new ones.
  let vertices := newVertices
  -- Update the vertexTable, in place.
  let vertexTable0 := MemoryMapped.Vector.fill mg.vertexTable invalidCompressedVertexId
  let vertexTable ← removeVerticesThreadFunction3 vertices
    (order3 (getBatches vertices.length batchCount)) vertexTable0
  pure { mg with vertices := vertices, vertexTable := vertexTable }

/-- `MarkerGraph::removeVertices` run by one worker: the batches of every phase
are processed in the order in which the load balancer hands them out. -/
def removeVertices (mg : MarkerGraph) (verticesToBeKept : List VertexId) :
    Except Fatal MarkerGraph :=
  removeVerticesWith id id id mg verticesToBeKept

/-! ## Notions used to state the properties of compaction -/

/-- The vertex store that compaction is expected to build: new vertex `i` has
the marker list of old vertex `keep[i]`. -/
def keptVertices (vertices : List (List MarkerId)) (keep : List VertexId) :
    List (List MarkerId) :=
  keep.map fun v => (vertices[v]?).getD []

/-- The value the reverse index holds for marker `m` after the vertices `ids`
have been processed in this order, starting from the value `init`: the last
processed vertex whose list contains `m` wins. -/
def ownerAfter (vs : List (List MarkerId)) (ids : List Nat) (m : MarkerId)
    (init : Option CompressedVertexId) : Option CompressedVertexId :=
  ids.foldl (fun o i => if m ∈ (vs[i]?).getD [] then some (toCompressedVertexId i) else o) init

/-- An admissible way of distributing batches among workers: the batches that
are processed are the batches handed out, in some order. -/
def IsSchedule (order : List (Nat × Nat) → List (Nat × Nat)) : Prop :=
  ∀ l, (order l).Perm l

/-- The vertex ids of a phase over `n` ids in the order in which they are
processed under `order`. -/
def scheduledIds (order : List (Nat × Nat) → List (Nat × Nat)) (n : Nat) : List Nat :=
  (order (getBatches n batchCount)).flatMap batchIds

/-- The precondition of compaction on `keep`: every id in it is the id of an
existing (old) vertex. -/
def ValidKeep (mg : MarkerGraph) (keep : List VertexId) : Prop :=
  ∀ v ∈ keep, v < mg.vertices.length

instance (mg : MarkerGraph) (keep : List VertexId) : Decidable (ValidKeep mg keep) := by
  unfold ValidKeep; infer_instance

/-- Every marker id stored in a vertex list is a slot of the reverse index. -/
def MarkersInRange (mg : MarkerGraph) : Prop :=
  ∀ l ∈ mg.vertices, ∀ m ∈ l, m < mg.vertexTable.length

instance (mg : MarkerGraph) : Decidable (MarkersInRange mg) := by
  unfold MarkersInRange; infer_instance

/-- The marker lists of different keys are pairwise disjoint. -/
def DisjointLists (vs : List (List MarkerId)) : Prop :=
  ∀ u, u < vs.length → ∀ v, v < vs.length → u ≠ v →
    ∀ m ∈ (vs[u]?).getD [], m ∉ (vs[v]?).getD []

instance (vs : List (List MarkerId)) : Decidable (DisjointLists vs) :=
  Nat.decidableBallLT _ _

/-- The partition invariant: every marker (every slot of the reverse index) is
contained in the list of exactly one vertex, and the reverse index at the
marker holds the id of that vertex (as the `CompressedVertexId` it stores). -/
def PartitionInvariant (mg : MarkerGraph) : Prop :=
  ∀ m, m < mg.vertexTable.length →
    ∃ v, v < mg.vertices.length ∧ (m ∈ (mg.vertices[v]?).getD [] ∧
      (∀ u, u < mg.vertices.length → m ∈ (mg.vertices[u]?).getD [] → u = v) ∧
      mg.vertexTable[m]? = some (toCompressedVertexId v))

instance (mg : MarkerGraph) : Decidable (PartitionInvariant mg) := by
  unfold PartitionInvariant; infer_instance

/-- The reverse index is consistent with the vertex store: every marker in a
vertex maps to that vertex, every other marker maps to the invalid value. -/
def ConsistentTable (mg : MarkerGraph) : Prop :=
  ∀ m, m < mg.vertexTable.length →
    (∀ v, v < mg.vertices.length → m ∈ (mg.vertices[v]?).getD [] →
      mg.vertexTable[m]? = some (toCompressedVertexId v)) ∧
    ((∀ v, v < mg.vertices.length → m ∉ (mg.vertices[v]?).getD []) →
      mg.vertexTable[m]? = some invalidCompressedVertexId)

instance (mg : MarkerGraph) : Decidable (ConsistentTable mg) := by
  unfold ConsistentTable; infer_instance

/-- Modelled from the spec: the total number of elements a Record Store holds
over all its keys (`VectorOfVectors::totalSize`, header absent). -/
def totalSize (vs : List (List MarkerId)) : Nat :=
  (vs.map List.length).sum

/-- The graph of the compaction example of the specification: vertices
`v0:[m0,m1]`, `v1:[m2]`, `v2:[m3]`, with a reverse index that agrees. -/
def exampleGraph : MarkerGraph :=
  { vertices := [[0, 1], [2], [3]], vertexTable := [0, 0, 1, 2],
    edges := [⟨0, 1⟩, ⟨0, 2⟩, ⟨1, 2⟩], edgesBySource := [[0, 1], [2], []] }

/-- A graph with `n` vertices in which vertex `i` owns the single marker `i`;
with `n` above 10000 its vertices take more than one batch of the load
balancer. -/
def singletonGraph (n : Nat) : MarkerGraph :=
  { vertices := (List.range n).map fun i => [i],
    vertexTable := List.replicate n invalidCompressedVertexId,
    edges := [], edgesBySource := [] }

/-- All vertices of `singletonGraph n`, in decreasing order of their old ids. -/
def reverseKeep (n : Nat) : List VertexId :=
  (List.range n).reverse

/-! ## Notions used to state the properties of edge lookup -/

/-- The lookup of `source` stays inside the containers: `source` is a key of
`edgesBySource` and the edge ids listed for it exist in the edge array. -/
def EdgeIdsValid (mg : MarkerGraph) (source : Nat) : Prop :=
  source < mg.edgesBySource.length ∧
    ∀ i ∈ (mg.edgesBySource[source]?).getD [], i < mg.edges.length

instance (mg : MarkerGraph) (source : Nat) : Decidable (EdgeIdsValid mg source) := by
  unfold EdgeIdsValid; infer_instance

/-- The edges listed under `source` have `source` as their source. -/
def ListedUnderSource (mg : MarkerGraph) (source : Nat) : Prop :=
  ∀ j ∈ (mg.edgesBySource[source]?).getD [], ∀ e : Edge,
    mg.edges[j]? = some e → e.source = source

/-- The graph has no duplicate (source, target) pairs: two edges with the same
source and the same target are the same edge. -/
def NoDuplicateEdges (mg : MarkerGraph) : Prop :=
  ∀ (i j : Nat) (e1 e2 : Edge), mg.edges[i]? = some e1 → mg.edges[j]? = some e2 →
    e1.source = e2.source → e1.target = e2.target → i = j

end MarkerGraph

/-! ## The meta marker graph -/

abbrev OrientedReadId := Nat

/-- Modelled from the spec: a `vertex_descriptor` of the meta marker graph
(`MetaMarkerGraph.hpp`, absent).  `some v` is the vertex at position `v` in
vertex iteration order, `none` is `null_vertex()`. -/
abbrev VertexDescriptor := Option Nat

/-- Modelled from the spec: `MetaMarkerGraphVertex` (header absent), as the
export functions of `MetaMarkerGraph.cpp` read it: a display id, a segment id,
a marker count, and for every traversal (oriented read) that visits the vertex
the pair (traversal id, ordinal). -/
structure MetaMarkerGraphVertex where
  vertexId : Nat
  segmentId : Nat
  markerCount : Nat
  orientedReads : List (OrientedReadId × Nat)
  deriving DecidableEq

/-- Modelled from the spec: an edge of the meta marker graph with its two end
points and its attribution list (`MetaMarkerGraphEdge::orientedReads`). -/
structure MetaMarkerGraphEdge where
  source : VertexDescriptor
  target : VertexDescriptor
  orientedReads : List (OrientedReadId × Nat)
  deriving DecidableEq

/-- The meta marker graph: its vertices in iteration order and its edges in
order of creation. -/
structure MetaMarkerGraph where
  vertices : List MetaMarkerGraphVertex
  edges : List MetaMarkerGraphEdge
  deriving DecidableEq

namespace MetaMarkerGraph

/-- The pseudo-path of one oriented read: `vector<vertex_descriptor>`. -/
abbrev PseudoPath := List VertexDescriptor

/-- The local `std::map<OrientedReadId, vector<vertex_descriptor>> pseudoPaths`:
the entries in increasing key order. -/
abbrev PseudoPaths := List (OrientedReadId × PseudoPath)

/-- The vector that `pseudoPaths[orientedReadId]` refers to: the one stored
under the key, or the empty vector that `operator[]` creates for a new key. -/
def pathOf : PseudoPaths → OrientedReadId → PseudoPath
  | [], _ => []
  | (r1, p) :: rest, r => if r1 = r then p else pathOf rest r

/-- The map after the vector referred to by `pseudoPaths[orientedReadId]` has
been given the value `p`: the entry is replaced, or inserted at its place in key
order. -/
def setPath : PseudoPaths → OrientedReadId → PseudoPath → PseudoPaths
  | [], r, p => [(r, p)]
  | (r1, p1) :: rest, r, p =>
    if r < r1 then (r, p) :: (r1, p1) :: rest
    else if r = r1 then (r, p) :: rest
    else (r1, p1) :: setPath rest r p

/-- The call `pseudoPath.resize(n, null_vertex())` of `std::vector`. -/
def resize (pseudoPath : PseudoPath) (n : Nat) : PseudoPath :=
  pseudoPath.take n ++ List.replicate (n - pseudoPath.length) none

/-- Lines 29-35 of `createEdges`: make sure there is a slot for `metaOrdinal`
(`metaOrdinal+1` is a 64 bit sum) and store `v` in it. -/
def storeVisit (pseudoPath : PseudoPath) (metaOrdinal : Nat) (v : Nat) :
    Except Fatal PseudoPath :=
  let pseudoPath1 :=
    if pseudoPath.length ≤ metaOrdinal then resize pseudoPath ((metaOrdinal + 1) % 2 ^ 64)
    else pseudoPath
  if metaOrdinal < pseudoPath1.length then .ok (pseudoPath1.set metaOrdinal (some v))
  else .error .outOfBounds

/-- The loop over the oriented reads of vertex `v` (lines 22-36). -/
def scatterVertex (v : Nat) :
    PseudoPaths → List (OrientedReadId × Nat) → Except Fatal PseudoPaths
  | pseudoPaths, [] => .ok pseudoPaths
  | pseudoPaths, (orientedReadId, metaOrdinal) :: rest =>
    match storeVisit (pathOf pseudoPaths orientedReadId) metaOrdinal v with
    | .error e => .error e
    | .ok pseudoPath => scatterVertex v (setPath pseudoPaths orientedReadId pseudoPath) rest

/-- The loop over all vertices (lines 16-37), from the vertex at position `v`
on. -/
def scatterVertices :
    Nat → PseudoPaths → List MetaMarkerGraphVertex → Except Fatal PseudoPaths
  | _, pseudoPaths, [] => .ok pseudoPaths
  | v, pseudoPaths, vertex :: rest =>
    match scatterVertex v pseudoPaths vertex.orientedReads with
    | .error e => .error e
    | .ok pseudoPaths1 => scatterVertices (v + 1) pseudoPaths1 rest

/-- The check of one pseudo-path (lines 43-45):
`SHASTA_ASSERT(v != null_vertex())` for every slot. -/
def checkPseudoPath : PseudoPath → Except Fatal Unit
  | [] => .ok ()
  | v :: rest => if v = none then .error .assertionFailed else checkPseudoPath rest

/-- The check of all pseudo-paths (lines 41-46). -/
def checkPseudoPaths : PseudoPaths → Except Fatal Unit
  | [] => .ok ()
  | (_, pseudoPath) :: rest =>
    match checkPseudoPath pseudoPath with
    | .error e => .error e
    | .ok _ => checkPseudoPaths rest

/-- Lines 64-72: access the edge `v0 -> v1` (the first one found), creating it
if necessary, and append `entry` to its attribution list. -/
def storeOrdinal (v0 v1 : VertexDescriptor) (entry : OrientedReadId × Nat) :
    List MetaMarkerGraphEdge → List MetaMarkerGraphEdge
  | [] => [{ source := v0, target := v1, orientedReads := [entry] }]
  | e :: rest =>
    if e.source = v0 ∧ e.target = v1 then
      { e with orientedReads := e.orientedReads ++ [entry] } :: rest
    else e :: storeOrdinal v0 v1 entry rest

/-- The loop over successive vertices of one pseudo-path (lines 58-73);
`metaOrdinal0` is the ordinal of the first vertex of the remaining path. -/
def createEdgesOfPath (orientedReadId : OrientedReadId) :
    Nat → List MetaMarkerGraphEdge → PseudoPath → List MetaMarkerGraphEdge
  | metaOrdinal0, edges, v0 :: v1 :: rest =>
    createEdgesOfPath orientedReadId (metaOrdinal0 + 1)
      (storeOrdinal v0 v1 (orientedReadId, metaOrdinal0) edges) (v1 :: rest)
  | _, edges, _ => edges

/-- The loop over the pseudo-paths in key order (lines 53-74). -/
def createEdgesOfPaths : List MetaMarkerGraphEdge → PseudoPaths → List MetaMarkerGraphEdge
  | edges, [] => edges
  | edges, (orientedReadId, pseudoPath) :: rest =>
    createEdgesOfPaths (createEdgesOfPath orientedReadId 0 edges pseudoPath) rest

/-- `MetaMarkerGraph::createEdges`. -/
def createEdges (graph : MetaMarkerGraph) : Except Fatal MetaMarkerGraph :=
  match scatterVertices 0 [] graph.vertices with
  | .error e => .error e
  | .ok pseudoPaths =>
    match checkPseudoPaths pseudoPaths with
    | .error e => .error e
    | .ok _ => .ok { graph with edges := createEdgesOfPaths graph.edges pseudoPaths }

/-! ## Notions used to state the properties of `createEdges` -/

/-- The pair (traversal `r`, ordinal `k`) is recorded on some vertex. -/
def Recorded (graph : MetaMarkerGraph) (r : OrientedReadId) (k : Nat) : Prop :=
  ∃ vertex ∈ graph.vertices, (r, k) ∈ vertex.orientedReads

instance (graph : MetaMarkerGraph) (r : OrientedReadId) (k : Nat) :
    Decidable (Recorded graph r k) := by
  unfold Recorded; infer_instance

/-- Some traversal has a gap in ordinal coverage: an ordinal `k` is recorded
for it and a smaller ordinal `j` is not. -/
def HasGap (graph : MetaMarkerGraph) : Prop :=
  ∃ r j k, j < k ∧ Recorded graph r k ∧ ¬ Recorded graph r j

/-- Every recorded ordinal is a 64 bit value below the largest one, so that
`metaOrdinal+1` does not wrap. -/
def OrdinalsInRange (graph : MetaMarkerGraph) : Prop :=
  ∀ vertex ∈ graph.vertices, ∀ p ∈ vertex.orientedReads, p.2 < 2 ^ 64 - 1

instance (graph : MetaMarkerGraph) : Decidable (OrdinalsInRange graph) := by
  unfold OrdinalsInRange; infer_instance

/-- The keys of the map are strictly increasing. -/
def SortedKeys (pseudoPaths : PseudoPaths) : Prop :=
  List.Pairwise (fun a b => a.1 < b.1) pseudoPaths

/-- The visits in the order in which `createEdges` processes them: (vertex,
traversal, ordinal), the vertices numbered from `v` on. -/
def visitsFrom : Nat → List MetaMarkerGraphVertex → List (Nat × OrientedReadId × Nat)
  | _, [] => []
  | v, vertex :: rest =>
    vertex.orientedReads.map (fun p => (v, p.1, p.2)) ++ visitsFrom (v + 1) rest

/-- The vertex stored last for (traversal `r`, ordinal `j`) among `visits`. -/
def slotOf (visits : List (Nat × OrientedReadId × Nat)) (r : OrientedReadId) (j : Nat) :
    VertexDescriptor :=
  visits.foldl (fun o x => if x.2.1 = r ∧ x.2.2 = j then some x.1 else o) none

/-- One more than the largest ordinal of traversal `r` among `visits`, zero if
there is none. -/
def lengthOf (visits : List (Nat × OrientedReadId × Nat)) (r : OrientedReadId) : Nat :=
  visits.foldl (fun n x => if x.2.1 = r then max n (x.2.2 + 1) else n) 0

/-- The map `pseudoPaths` holds exactly what `visits` says: there is a key for
every traversal that has a visit, the path of a traversal has one slot for every
ordinal up to its largest one, and a slot holds the vertex stored there last, or
`null_vertex()` if none was. -/
def PathsOf (pseudoPaths : PseudoPaths) (visits : List (Nat × OrientedReadId × Nat)) : Prop :=
  SortedKeys pseudoPaths ∧
  (∀ r, r ∈ pseudoPaths.map Prod.fst ↔ ∃ v k, (v, r, k) ∈ visits) ∧
  (∀ r, (pathOf pseudoPaths r).length = lengthOf visits r) ∧
  (∀ r j, j < lengthOf visits r → (pathOf pseudoPaths r)[j]? = some (slotOf visits r j))

/-- The pair (traversal `r`, ordinal `k`) is recorded on the vertex at position
`v`. -/
def RecordedOn (graph : MetaMarkerGraph) (v : Nat) (r : OrientedReadId) (k : Nat) : Prop :=
  (r, k) ∈ ((graph.vertices[v]?).map fun vertex => vertex.orientedReads).getD []

instance (graph : MetaMarkerGraph) (v : Nat) (r : OrientedReadId) (k : Nat) :
    Decidable (RecordedOn graph v r k) := by
  unfold RecordedOn; infer_instance

/-- Every (traversal, ordinal) pair is recorded on at most one vertex. -/
def UniquelyRecorded (graph : MetaMarkerGraph) : Prop :=
  ∀ v, v < graph.vertices.length → ∀ w, w < graph.vertices.length →
    ∀ p ∈ ((graph.vertices[v]?).map fun vertex => vertex.orientedReads).getD [],
      p ∈ ((graph.vertices[w]?).map fun vertex => vertex.orientedReads).getD [] → v = w

instance (graph : MetaMarkerGraph) : Decidable (UniquelyRecorded graph) :=
  Nat.decidableBallLT _ _

/-- The steps of one pseudo-path in the order of the loop of lines 58-73: for
every pair of successive slots the two vertices and the entry (traversal,
ordinal of the first slot); `k` is the ordinal of the first slot of the path. -/
def stepsOfPath (r : OrientedReadId) :
    Nat → PseudoPath → List (VertexDescriptor × VertexDescriptor × (OrientedReadId × Nat))
  | k, v0 :: v1 :: rest => (v0, v1, (r, k)) :: stepsOfPath r (k + 1) (v1 :: rest)
  | _, _ => []

/-- The steps of all pseudo-paths, in key order. -/
def stepsOfPaths :
    PseudoPaths → List (VertexDescriptor × VertexDescriptor × (OrientedReadId × Nat))
  | [] => []
  | (r, p) :: rest => stepsOfPath r 0 p ++ stepsOfPaths rest

/-- The edges after a sequence of steps has been stored. -/
def applySteps (edges : List MetaMarkerGraphEdge)
    (steps : List (VertexDescriptor × VertexDescriptor × (OrientedReadId × Nat))) :
    List MetaMarkerGraphEdge :=
  steps.foldl (fun es s => storeOrdinal s.1 s.2.1 s.2.2 es) edges

/-- The ordered vertex pairs of the edges, in edge order. -/
def edgePairs (edges : List MetaMarkerGraphEdge) :
    List (VertexDescriptor × VertexDescriptor) :=
  edges.map fun e => (e.source, e.target)

/-- The attribution list found for the ordered pair `(a, b)`: that of the first
edge `a -> b`, empty if there is no such edge. -/
def attribution (a b : VertexDescriptor) : List MetaMarkerGraphEdge → List (OrientedReadId × Nat)
  | [] => []
  | e :: rest => if e.source = a ∧ e.target = b then e.orientedReads else attribution a b rest

/-- There is at most one edge for every ordered vertex pair. -/
def NoParallelEdges (edges : List MetaMarkerGraphEdge) : Prop :=
  (edgePairs edges).Nodup

instance (edges : List MetaMarkerGraphEdge) : Decidable (NoParallelEdges edges) := by
  unfold NoParallelEdges; infer_instance

/-- The lexicographic order on (traversal id, ordinal). -/
def EntryLt (x y : OrientedReadId × Nat) : Prop :=
  x.1 < y.1 ∨ (x.1 = y.1 ∧ x.2 < y.2)

/-- Edges are only added and attribution lists only grow: every edge of `old`
is at the same place in `new`, with the same end points and an attribution list
that starts with the old one. -/
def EdgesExtend (old new : List MetaMarkerGraphEdge) : Prop :=
  ∀ (i : Nat) (e : MetaMarkerGraphEdge), old[i]? = some e →
    ∃ e1 : MetaMarkerGraphEdge, new[i]? = some e1 ∧ e1.source = e.source ∧
      e1.target = e.target ∧ e.orientedReads <+: e1.orientedReads

/-- Two traversals over three vertices without a gap: traversal 0 visits the
vertices 0, 1, 2 and traversal 1 visits the vertices 1, 0, 2. -/
def pathExample : MetaMarkerGraph :=
  { vertices := [⟨10, 0, 5, [(0, 0), (1, 1)]⟩, ⟨11, 1, 7, [(0, 1), (1, 0)]⟩,
      ⟨12, 2, 9, [(0, 2), (1, 2)]⟩],
    edges := [] }

/-- The same vertices as `pathExample`, but ordinal 1 of traversal 0 is
recorded nowhere. -/
def gapExample : MetaMarkerGraph :=
  { vertices := [⟨10, 0, 5, [(0, 0), (1, 1)]⟩, ⟨11, 1, 7, [(1, 0)]⟩,
      ⟨12, 2, 9, [(0, 2), (1, 2)]⟩],
    edges := [] }

/-- One vertex that records a single visit, of traversal 0 at the largest 64
bit ordinal. -/
def wrapExample : MetaMarkerGraph :=
  { vertices := [⟨10, 0, 5, [(0, 2 ^ 64 - 1)]⟩], edges := [] }

/-- Two traversals that both step from vertex 0 to vertex 1. -/
def aggregationExample : MetaMarkerGraph :=
  { vertices := [⟨10, 0, 5, [(0, 0), (1, 0)]⟩, ⟨11, 1, 7, [(0, 1), (1, 1)]⟩],
    edges := [] }

/-- Ordinal 1 of traversal 0 is recorded on two vertices, at positions 1 and
2; the ordinals 0, 1, 2 of the traversal are all recorded. -/
def conflictExample : MetaMarkerGraph :=
  { vertices := [⟨10, 0, 5, [(0, 0)]⟩, ⟨11, 1, 7, [(0, 1)]⟩, ⟨12, 2, 9, [(0, 1)]⟩,
      ⟨13, 3, 4, [(0, 2)]⟩],
    edges := [] }

end MetaMarkerGraph

/-! ## Writing a graph as svg: the view box -/

namespace WriteGraph

/-- The class `WriteGraph::VertexAttributes`, with its default values. -/
structure VertexAttributes where
  radius : ℚ := 1
  id : String := ""
  color : String := "black"
  tooltip : String := ""
  url : String := ""

/-- The value `std::numeric_limits<double>::max()`: the largest finite
double. -/
def doubleMax : ℚ := 2 ^ 1024 - 2 ^ 971

/-- The value `std::numeric_limits<double>::min()`: the smallest positive
normalized double. -/
def doubleMin : ℚ := 1 / 2 ^ 1022

/-- The call `vertexAttributes.find(v)` on the map from vertex descriptors to
attributes. -/
def findAttributes (vertexAttributes : List (Nat × VertexAttributes)) (v : Nat) :
    Option VertexAttributes :=
  (vertexAttributes.find? fun x => x.1 = v).map fun x => x.2

/-- The loop over the vertices that computes the view box (lines 67-81 of
`writeGraph.hpp`), from the vertex at position `v` on; the state is
`(xMin, xMax, yMin, yMax)`. -/
def viewBoxLoop (vertexAttributes : List (Nat × VertexAttributes)) :
    Nat → List (ℚ × ℚ) → ℚ × ℚ × ℚ × ℚ → ℚ × ℚ × ℚ × ℚ
  | _, [], box => box
  | v, position :: rest, (xMin, xMax, yMin, yMax) =>
    let attributes := (findAttributes vertexAttributes v).getD {}
    let radius := attributes.radius
    viewBoxLoop vertexAttributes (v + 1) rest
      (min xMin (position.1 - radius), max xMax (position.1 + radius),
        min yMin (position.2 - radius), max yMax (position.2 + radius))

/-- The four numbers `writeSvg` emits in `viewbox='...'`: `xMin`, `yMin`,
`xMax-xMin`, `yMax-yMin`, for the graph whose vertices have the positions
`positions`, in vertex iteration order. -/
def writeSvgViewBox (positions : List (ℚ × ℚ))
    (vertexAttributes : List (Nat × VertexAttributes)) : ℚ × ℚ × ℚ × ℚ :=
  match viewBoxLoop vertexAttributes 0 positions (doubleMax, doubleMin, doubleMax, doubleMin) with
  | (xMin, xMax, yMin, yMax) => (xMin, yMin, xMax - xMin, yMax - yMin)

/-- The radius of the vertex at position `v`: that of its attributes entry, or
the default when it has none. -/
def vertexRadius (vertexAttributes : List (Nat × VertexAttributes)) (v : Nat) : ℚ :=
  ((findAttributes vertexAttributes v).getD {}).radius

/-- The disks drawn for the vertices, numbered from `v` on: position and
radius of each. -/
def disks (vertexAttributes : List (Nat × VertexAttributes)) (v : Nat)
    (positions : List (ℚ × ℚ)) : List ((ℚ × ℚ) × ℚ) :=
  ((List.range' v positions.length).zip positions).map
    fun x => (x.2, vertexRadius vertexAttributes x.1)

/-- The bounding box of the drawing, as the specification words it, for a graph
with at least one vertex: `xMin` is the smallest `x - radius`, `yMin` the
smallest `y - radius`, the width is the largest `x + radius` minus `xMin`, the
height the largest `y + radius` minus `yMin`. -/
def boundingBox (positions : List (ℚ × ℚ))
    (vertexAttributes : List (Nat × VertexAttributes)) : Option (ℚ × ℚ × ℚ × ℚ) :=
  match disks vertexAttributes 0 positions with
  | [] => none
  | d :: ds =>
    let xMin := ds.foldl (fun m e => min m (e.1.1 - e.2)) (d.1.1 - d.2)
    let xMax := ds.foldl (fun m e => max m (e.1.1 + e.2)) (d.1.1 + d.2)
    let yMin := ds.foldl (fun m e => min m (e.1.2 - e.2)) (d.1.2 - d.2)
    let yMax := ds.foldl (fun m e => max m (e.1.2 + e.2)) (d.1.2 + d.2)
    some (xMin, yMin, xMax - xMin, yMax - yMin)

end WriteGraph

end shasta

/-! ## Load balancing: the batches cover the ids once, in order -/

namespace shasta
open MemoryMapped

theorem range_flatMap_batch (n b : Nat) (j : Nat) (hj : j ≤ (n + b - 1) / b) (hb : 0 < b) :
    (List.range j).flatMap (fun k => batchIds (k * b, min ((k + 1) * b) n))
      = List.range' 0 (min (j * b) n) := by
  induction j with
  | zero => simp
  | succ j ih =>
    have hlt : j * b < n := by
      have h1 : (j + 1) * b ≤ n + b - 1 := (Nat.le_div_iff_mul_le hb).1 hj
      have h2 : (j + 1) * b = j * b + b := by ring
      omega
    rw [List.range_succ, List.flatMap_append, ih (by omega)]
    simp only [List.flatMap_cons, List.flatMap_nil, List.append_nil, batchIds]
    have h3 : min (j * b) n = j * b := by omega
    rw [h3]
    have h4 := List.range'_append 0 (j * b) (min ((j + 1) * b) n - j * b) 1
    simp only [Nat.zero_add, Nat.one_mul] at h4
    rw [h4]
    congr 1
    have h2 : (j + 1) * b = j * b + b := by ring
    omega

theorem flatMap_batchIds_getBatches (n b : Nat) (hb : 0 < b) :
    (getBatches n b).flatMap batchIds = List.range n := by
  unfold getBatches
  rw [List.flatMap_map]
  have h := range_flatMap_batch n b ((n + b - 1) / b) (le_refl _) hb
  simp only [Function.comp_def] at *
  rw [h, List.range_eq_range']
  congr 1
  have h1 : n + b - 1 < ((n + b - 1) / b + 1) * b := by
    have := Nat.lt_div_mul_add (a := n + b - 1) hb
    have h2 : ((n + b - 1) / b + 1) * b = (n + b - 1) / b * b + b := by ring
    omega
  have h2 : ((n + b - 1) / b + 1) * b = (n + b - 1) / b * b + b := by ring
  omega

theorem foldlM_batches {σ : Type} (f : σ → Nat → Except Fatal σ) (batches : List (Nat × Nat)) (s : σ) :
    batches.foldlM (fun s b => (batchIds b).foldlM f s) s
      = (batches.flatMap batchIds).foldlM f s := by
  induction batches generalizing s with
  | nil => rfl
  | cons b rest ih =>
    simp only [List.foldlM_cons, List.flatMap_cons, List.foldlM_append]
    congr 1
    funext s1
    exact ih s1

namespace MarkerGraph

/-! ## The three phases of compaction -/

theorem keptVertices_length (vertices : List (List MarkerId)) (keep : List VertexId) :
    (keptVertices vertices keep).length = keep.length := by
  simp [keptVertices]

theorem countVertex_ok (vertices : List (List MarkerId)) (keep : List VertexId)
    (hvalid : ∀ v ∈ keep, v < vertices.length) (counts : List Nat) (i : Nat)
    (hi : i < keep.length) (hlen : counts.length = keep.length) :
    countVertex vertices keep counts i
      = .ok (counts.set i ((counts[i]?).getD 0
          + (((keptVertices vertices keep)[i]?).getD []).length)) := by
  have hv : keep[i] < vertices.length := hvalid _ (List.getElem_mem hi)
  have hc : i < counts.length := by omega
  simp [countVertex, Vector.get, VectorOfVectors.size, VectorOfVectors.incrementCount,
    keptVertices, List.getElem?_eq_getElem hi, List.getElem?_eq_getElem hv,
    List.getElem?_eq_getElem hc, bind, Except.bind]

theorem foldlM_countVertex (vertices : List (List MarkerId)) (keep : List VertexId)
    (hvalid : ∀ v ∈ keep, v < vertices.length) :
    ∀ (ids : List Nat) (counts : List Nat), (∀ i ∈ ids, i < keep.length) →
      counts.length = keep.length →
      ∃ cs, ids.foldlM (countVertex vertices keep) counts = .ok cs ∧
        cs.length = keep.length ∧
        ∀ i, i < keep.length → cs[i]? = some ((counts[i]?).getD 0
          + ids.count i * (((keptVertices vertices keep)[i]?).getD []).length) := by
  intro ids
  induction ids with
  | nil =>
    intro counts _ hlen
    refine ⟨counts, rfl, hlen, ?_⟩
    intro i hi
    have hc : i < counts.length := by omega
    simp [List.getElem?_eq_getElem hc]
  | cons a rest ih =>
    intro counts hids hlen
    have ha : a < keep.length := hids a (List.mem_cons_self _ _)
    have hrest : ∀ i ∈ rest, i < keep.length := fun i h => hids i (List.mem_cons_of_mem _ h)
    obtain ⟨cs, hcs, hcl, hget⟩ := ih (counts.set a ((counts[a]?).getD 0
          + (((keptVertices vertices keep)[a]?).getD []).length)) hrest (by simpa using hlen)
    refine ⟨cs, ?_, hcl, ?_⟩
    · rw [List.foldlM_cons, countVertex_ok vertices keep hvalid counts a ha hlen]
      exact hcs
    · intro i hi
      rw [hget i hi]
      have hc : i < counts.length := by omega
      by_cases h : a = i
      · subst h
        simp [List.getElem?_set, hc, List.getElem?_eq_getElem hc]
        ring
      · have h' : ¬ i = a := fun e => h e.symm
        simp [List.getElem?_set, h, List.count_cons, h']

theorem copyVertex_ok (vertices : List (List MarkerId)) (keep : List VertexId)
    (hvalid : ∀ v ∈ keep, v < vertices.length) (store : List (List MarkerId)) (i : Nat)
    (hi : i < keep.length) (hlen : store.length = keep.length)
    (hslice : ((store[i]?).getD []).length
      = (((keptVertices vertices keep)[i]?).getD []).length) :
    copyVertex vertices keep store i
      = .ok (store.set i (((keptVertices vertices keep)[i]?).getD [])) := by
  have hv : keep[i] < vertices.length := hvalid _ (List.getElem_mem hi)
  have hc : i < store.length := by omega
  have hs : store[i].length = vertices[keep[i]].length := by
    simpa [keptVertices, List.getElem?_eq_getElem hi, List.getElem?_eq_getElem hv,
      List.getElem?_eq_getElem hc] using hslice
  have hd : List.drop vertices[keep[i]].length store[i] = [] :=
    List.drop_eq_nil_of_le (by omega)
  simp [copyVertex, Vector.get, VectorOfVectors.get, VectorOfVectors.copyTo, keptVertices,
    List.getElem?_eq_getElem hi, List.getElem?_eq_getElem hv,
    List.getElem?_eq_getElem hc, bind, Except.bind, hs, hd]

theorem foldlM_copyVertex (vertices : List (List MarkerId)) (keep : List VertexId)
    (hvalid : ∀ v ∈ keep, v < vertices.length) :
    ∀ (ids : List Nat) (store : List (List MarkerId)), (∀ i ∈ ids, i < keep.length) →
      store.length = keep.length →
      (∀ i, i < keep.length → ((store[i]?).getD []).length
        = (((keptVertices vertices keep)[i]?).getD []).length) →
      ∃ st, ids.foldlM (copyVertex vertices keep) store = .ok st ∧
        st.length = keep.length ∧
        ∀ i, i < keep.length →
          st[i]? = if i ∈ ids then (keptVertices vertices keep)[i]? else store[i]? := by
  intro ids
  induction ids with
  | nil =>
    intro store _ hlen _
    exact ⟨store, rfl, hlen, fun i _ => by simp⟩
  | cons a rest ih =>
    intro store hids hlen hslice
    have ha : a < keep.length := hids a (List.mem_cons_self _ _)
    have hrest : ∀ i ∈ rest, i < keep.length := fun i h => hids i (List.mem_cons_of_mem _ h)
    have hk : a < (keptVertices vertices keep).length := by
      rw [keptVertices_length]; exact ha
    have hslice' : ∀ i, i < keep.length →
        (((store.set a (((keptVertices vertices keep)[a]?).getD []))[i]?).getD []).length
          = (((keptVertices vertices keep)[i]?).getD []).length := by
      intro i hi
      have hc : i < store.length := by omega
      by_cases h : a = i
      · subst h; simp [List.getElem?_set, hc]
      · simp only [List.getElem?_set, h, if_false]; exact hslice i hi
    obtain ⟨st, hst, hsl, hget⟩ :=
      ih (store.set a (((keptVertices vertices keep)[a]?).getD [])) hrest
        (by simpa using hlen) hslice'
    refine ⟨st, ?_, hsl, ?_⟩
    · rw [List.foldlM_cons, copyVertex_ok vertices keep hvalid store a ha hlen (hslice a ha)]
      exact hst
    · intro i hi
      rw [hget i hi]
      have hc : i < store.length := by omega
      by_cases h : a = i
      · subst h
        by_cases hm : a ∈ rest
        · simp [hm]
        · simp [hm, List.getElem?_set, hc, List.getElem?_eq_getElem hk]
      · have h' : ¬ i = a := fun e => h e.symm
        simp [List.getElem?_set, h, h']

theorem writeMarkers_ok (c : CompressedVertexId) :
    ∀ (ms : List MarkerId) (t : List CompressedVertexId), (∀ m ∈ ms, m < t.length) →
      ∃ t1, writeMarkers c t ms = .ok t1 ∧ t1.length = t.length ∧
        ∀ m, t1[m]? = if m ∈ ms then some c else t[m]? := by
  intro ms
  induction ms with
  | nil =>
    intro t _
    exact ⟨t, rfl, rfl, fun m => by simp⟩
  | cons a rest ih =>
    intro t hms
    have ha : a < t.length := hms a (List.mem_cons_self _ _)
    obtain ⟨t1, ht1, hl, hget⟩ := ih (t.set a c)
      (fun m h => by simpa using hms m (List.mem_cons_of_mem _ h))
    refine ⟨t1, ?_, by simpa using hl, ?_⟩
    · simp only [writeMarkers, Vector.put, ha, if_true]
      exact ht1
    · intro m
      rw [hget m]
      by_cases hm : m ∈ rest
      · simp [hm]
      · by_cases h : a = m
        · subst h; simp [hm, List.getElem?_set, ha]
        · have h' : ¬ m = a := fun e => h e.symm
          simp [hm, List.getElem?_set, h, h']

theorem foldlM_repairVertex (vs : List (List MarkerId)) :
    ∀ (ids : List Nat) (t : List CompressedVertexId), (∀ i ∈ ids, i < vs.length) →
      (∀ i ∈ ids, ∀ m ∈ (vs[i]?).getD [], m < t.length) →
      ∃ t1, ids.foldlM (repairVertex vs) t = .ok t1 ∧ t1.length = t.length ∧
        ∀ m, t1[m]? = ownerAfter vs ids m (t[m]?) := by
  intro ids
  induction ids with
  | nil =>
    intro t _ _
    exact ⟨t, rfl, rfl, fun m => rfl⟩
  | cons a rest ih =>
    intro t hids hrange
    have ha : a < vs.length := hids a (List.mem_cons_self _ _)
    have hra : ∀ m ∈ (vs[a]?).getD [], m < t.length := hrange a (List.mem_cons_self _ _)
    obtain ⟨t0, ht0, hl0, hget0⟩ := writeMarkers_ok (toCompressedVertexId a) _ t hra
    obtain ⟨t1, ht1, hl1, hget1⟩ := ih t0
      (fun i h => hids i (List.mem_cons_of_mem _ h))
      (fun i h m hm => by rw [hl0]; exact hrange i (List.mem_cons_of_mem _ h) m hm)
    refine ⟨t1, ?_, by omega, ?_⟩
    · rw [List.foldlM_cons]
      have : repairVertex vs t a = .ok t0 := by
        simp only [List.getElem?_eq_getElem ha, Option.getD_some] at ht0
        simp [repairVertex, VectorOfVectors.get, List.getElem?_eq_getElem ha, bind,
          Except.bind, ht0]
      rw [this]
      exact ht1
    · intro m
      rw [hget1 m, hget0 m]
      simp [ownerAfter]

theorem scheduledIds_perm (order : List (Nat × Nat) → List (Nat × Nat))
    (h : IsSchedule order) (n : Nat) : (scheduledIds order n).Perm (List.range n) := by
  have h1 := List.Perm.flatMap_right batchIds (h (getBatches n batchCount))
  rw [flatMap_batchIds_getBatches n batchCount (by decide)] at h1
  exact h1

theorem scheduledIds_id (n : Nat) : scheduledIds id n = List.range n :=
  flatMap_batchIds_getBatches n batchCount (by decide)

theorem mem_scheduledIds (order : List (Nat × Nat) → List (Nat × Nat))
    (h : IsSchedule order) (n i : Nat) : i ∈ scheduledIds order n ↔ i < n := by
  rw [(scheduledIds_perm order h n).mem_iff, List.mem_range]

theorem count_scheduledIds (order : List (Nat × Nat) → List (Nat × Nat))
    (h : IsSchedule order) (n i : Nat) (hi : i < n) : (scheduledIds order n).count i = 1 := by
  rw [(scheduledIds_perm order h n).count_eq]
  exact List.count_eq_one_of_mem (List.nodup_range n) (List.mem_range.2 hi)

theorem removeVerticesWith_ok (order1 order2 order3 : List (Nat × Nat) → List (Nat × Nat))
    (h1 : IsSchedule order1) (h2 : IsSchedule order2) (h3 : IsSchedule order3)
    (mg : MarkerGraph) (keep : List VertexId)
    (hvalid : ∀ v ∈ keep, v < mg.vertices.length)
    (hrange : ∀ v ∈ keep, ∀ m ∈ (mg.vertices[v]?).getD [], m < mg.vertexTable.length) :
    ∃ t, removeVerticesWith order1 order2 order3 mg keep
        = .ok { mg with vertices := keptVertices mg.vertices keep, vertexTable := t } ∧
      t.length = mg.vertexTable.length ∧
      ∀ m, m < mg.vertexTable.length →
        t[m]? = ownerAfter (keptVertices mg.vertices keep) (scheduledIds order3 keep.length) m
          (some invalidCompressedVertexId) := by
  -- count phase
  obtain ⟨cs, hcs, hcl, hcget⟩ := foldlM_countVertex mg.vertices keep hvalid
    (scheduledIds order1 keep.length) (VectorOfVectors.beginPass1 keep.length)
    (fun i hi => (mem_scheduledIds order1 h1 _ i).1 hi)
    (by simp [VectorOfVectors.beginPass1])
  -- copy phase
  obtain ⟨st, hst, hsl, hsget⟩ := foldlM_copyVertex mg.vertices keep hvalid
    (scheduledIds order2 keep.length) (VectorOfVectors.beginPass2 cs)
    (fun i hi => (mem_scheduledIds order2 h2 _ i).1 hi)
    (by simp [VectorOfVectors.beginPass2, hcl])
    (by
      intro i hi
      simp [VectorOfVectors.beginPass2, hcget i hi, VectorOfVectors.beginPass1, hi,
        count_scheduledIds order1 h1 _ i hi])
  have hkept : st = keptVertices mg.vertices keep := by
    apply List.ext_getElem?
    intro i
    by_cases hi : i < keep.length
    · rw [hsget i hi, if_pos ((mem_scheduledIds order2 h2 _ i).2 hi)]
    · have e1 : st[i]? = none := List.getElem?_eq_none (by omega)
      have e2 : (keptVertices mg.vertices keep)[i]? = none :=
        List.getElem?_eq_none (by rw [keptVertices_length]; omega)
      rw [e1, e2]
  subst hkept
  -- reverse index repair
  obtain ⟨t, ht, htl, htget⟩ := foldlM_repairVertex (keptVertices mg.vertices keep)
    (scheduledIds order3 (keptVertices mg.vertices keep).length)
    (Vector.fill mg.vertexTable invalidCompressedVertexId)
    (fun i hi => (mem_scheduledIds order3 h3 _ i).1 hi)
    (by
      intro i hi m hm
      have hi' : i < keep.length := by
        have := (mem_scheduledIds order3 h3 _ i).1 hi
        rwa [keptVertices_length] at this
      simp only [Vector.fill, List.length_replicate]
      simp only [keptVertices, List.getElem?_map, List.getElem?_eq_getElem hi',
        Option.map_some', Option.getD_some] at hm
      exact hrange _ (List.getElem_mem hi') m hm)
  refine ⟨t, ?_, by simpa [Vector.fill] using htl, ?_⟩
  · simp only [removeVerticesWith, removeVerticesThreadFunction1,
      removeVerticesThreadFunction2, removeVerticesThreadFunction3, foldlM_batches]
    simp only [scheduledIds] at hcs hst ht
    rw [hcs]
    simp only [bind, Except.bind]
    rw [hst]
    simp only [ht]
    rfl
  · intro m hm
    rw [htget m, keptVertices_length]
    simp [Vector.fill, hm]

/-! ## The reverse index after the repair phase -/

theorem ownerAfter_not_mem (vs : List (List MarkerId)) (m : MarkerId) :
    ∀ (ids : List Nat) (init : Option CompressedVertexId),
      (∀ i ∈ ids, m ∉ (vs[i]?).getD []) → ownerAfter vs ids m init = init := by
  intro ids
  induction ids with
  | nil => intro init _; rfl
  | cons a rest ih =>
    intro init h
    have ha : m ∉ (vs[a]?).getD [] := h a (List.mem_cons_self _ _)
    have hr := ih init (fun i hi => h i (List.mem_cons_of_mem _ hi))
    simpa [ownerAfter, ha] using hr

theorem ownerAfter_unique (vs : List (List MarkerId)) (m : MarkerId) (i : Nat)
    (hm : m ∈ (vs[i]?).getD []) :
    ∀ (ids : List Nat) (init : Option CompressedVertexId), i ∈ ids →
      (∀ j ∈ ids, m ∈ (vs[j]?).getD [] → toCompressedVertexId j = toCompressedVertexId i) →
      ownerAfter vs ids m init = some (toCompressedVertexId i) := by
  intro ids
  induction ids with
  | nil => intro init hi; simp at hi
  | cons a rest ih =>
    intro init hi huniq
    have hrest : ∀ j ∈ rest, m ∈ (vs[j]?).getD [] →
        toCompressedVertexId j = toCompressedVertexId i :=
      fun j hj => huniq j (List.mem_cons_of_mem _ hj)
    have hstep : ownerAfter vs (a :: rest) m init = ownerAfter vs rest m
        (if m ∈ (vs[a]?).getD [] then some (toCompressedVertexId a) else init) := rfl
    rw [hstep]
    by_cases hir : i ∈ rest
    · exact ih _ hir hrest
    · have hia : i = a := by
        rcases List.mem_cons.1 hi with h | h
        · exact h
        · exact absurd h hir
      subst hia
      rw [if_pos hm]
      -- every later vertex holding `m` writes the same value
      clear ih hi hstep huniq hir
      induction rest generalizing i with
      | nil => rfl
      | cons b rest ihr =>
        have hb : ownerAfter vs (b :: rest) m (some (toCompressedVertexId i))
            = ownerAfter vs rest m
              (if m ∈ (vs[b]?).getD [] then some (toCompressedVertexId b)
                else some (toCompressedVertexId i)) := rfl
        rw [hb]
        by_cases hmb : m ∈ (vs[b]?).getD []
        · rw [if_pos hmb, hrest b (List.mem_cons_self _ _) hmb]
          exact ihr i hm (fun j hj => hrest j (List.mem_cons_of_mem _ hj))
        · rw [if_neg hmb]
          exact ihr i hm (fun j hj => hrest j (List.mem_cons_of_mem _ hj))

theorem ownerAfter_concat (vs : List (List MarkerId)) (m : MarkerId) (ids : List Nat) (i : Nat)
    (init : Option CompressedVertexId) (hm : m ∈ (vs[i]?).getD []) :
    ownerAfter vs (ids ++ [i]) m init = some (toCompressedVertexId i) := by
  simp [ownerAfter, List.foldl_append, hm]

theorem isSchedule_id : IsSchedule id := fun l => List.Perm.refl l

theorem kept_getElem? (vertices : List (List MarkerId)) (keep : List VertexId) (i : Nat)
    (hi : i < keep.length) :
    (keptVertices vertices keep)[i]? = some ((vertices[keep[i]]?).getD []) := by
  simp [keptVertices, List.getElem?_eq_getElem hi]

theorem kept_getD (vertices : List (List MarkerId)) (keep : List VertexId) (i : Nat)
    (hi : i < keep.length) :
    ((keptVertices vertices keep)[i]?).getD [] = (vertices[keep[i]]?).getD [] := by
  rw [kept_getElem? vertices keep i hi]; rfl

theorem range_of_markersInRange (mg : MarkerGraph) (h : MarkersInRange mg) :
    ∀ (v : Nat), ∀ m ∈ (mg.vertices[v]?).getD [], m < mg.vertexTable.length := by
  intro v m hm
  by_cases hv : v < mg.vertices.length
  · rw [List.getElem?_eq_getElem hv] at hm
    exact h _ (List.getElem_mem hv) m hm
  · rw [List.getElem?_eq_none (by omega)] at hm
    simp at hm

/-- The outcome of single worker compaction under its precondition. -/
theorem removeVertices_ok (mg : MarkerGraph) (keep : List VertexId)
    (hvalid : ValidKeep mg keep) (hrange : MarkersInRange mg) :
    ∃ t, removeVertices mg keep
        = .ok { mg with vertices := keptVertices mg.vertices keep, vertexTable := t } ∧
      t.length = mg.vertexTable.length ∧
      ∀ m, m < mg.vertexTable.length →
        t[m]? = ownerAfter (keptVertices mg.vertices keep) (List.range keep.length) m
          (some invalidCompressedVertexId) := by
  have h := removeVerticesWith_ok id id id isSchedule_id isSchedule_id isSchedule_id mg keep
    hvalid (fun v _ m hm => range_of_markersInRange mg hrange v m hm)
  rw [scheduledIds_id] at h
  exact h

/-! ## Compaction copies the marker lists (C1) -/

/-- C1. For every marker graph (whose marker ids are slots of the reverse
index) and every sequence `keep` of valid old vertex ids, `removeVertices`
completes, the new vertex store has exactly `keep.length` vertices, and the
marker list of new vertex `i` is the marker list old vertex `keep[i]` had,
element for element and in the same order. -/
theorem removeVertices_vertices (mg : MarkerGraph) (keep : List VertexId)
    (hvalid : ValidKeep mg keep) (hrange : MarkersInRange mg) :
    ∃ mg1, removeVertices mg keep = .ok mg1 ∧
      mg1.vertices.length = keep.length ∧
      ∀ i (hi : i < keep.length),
        ∃ l, mg.vertices[keep[i]]? = some l ∧ mg1.vertices[i]? = some l := by
  obtain ⟨t, ht, _, _⟩ := removeVertices_ok mg keep hvalid hrange
  refine ⟨_, ht, keptVertices_length _ _, ?_⟩
  intro i hi
  have hv : keep[i] < mg.vertices.length := hvalid _ (List.getElem_mem hi)
  refine ⟨mg.vertices[keep[i]], List.getElem?_eq_getElem hv, ?_⟩
  show (keptVertices mg.vertices keep)[i]? = _
  rw [kept_getElem? _ _ i hi, List.getElem?_eq_getElem hv]
  rfl

/-- C1, at the example of the specification: `keep = [v2, v0]` on
`{v0:[m0,m1], v1:[m2], v2:[m3]}` gives vertex 0 = `[m3]`, vertex 1 = `[m0,m1]`. -/
theorem removeVertices_vertices_witness :
    ValidKeep exampleGraph [2, 0] ∧ MarkersInRange exampleGraph ∧
    (∃ mg1, removeVertices exampleGraph [2, 0] = .ok mg1 ∧
      mg1.vertices.length = [2, 0].length ∧
      ∀ i (hi : i < [2, 0].length),
        ∃ l, exampleGraph.vertices[[2, 0][i]]? = some l ∧ mg1.vertices[i]? = some l) ∧
    (removeVertices exampleGraph [2, 0]).map (fun g => g.vertices) = .ok [[3], [0, 1]] :=
  ⟨by decide, by decide,
    removeVertices_vertices exampleGraph [2, 0] (by decide) (by decide), by decide⟩

/-! ## The reverse index after compaction (C2) -/

theorem kept_disjoint (vertices : List (List MarkerId)) (keep : List VertexId)
    (hdisj : DisjointLists vertices) (hvalid : ∀ v ∈ keep, v < vertices.length)
    (hnodup : keep.Nodup) : DisjointLists (keptVertices vertices keep) := by
  intro i hi j hj hij m hm
  rw [keptVertices_length] at hi hj
  rw [kept_getD _ _ i hi] at hm
  rw [kept_getD _ _ j hj]
  have hne : keep[i] ≠ keep[j] := fun e => hij ((hnodup.getElem_inj_iff).1 e)
  exact hdisj _ (hvalid _ (List.getElem_mem hi)) _ (hvalid _ (List.getElem_mem hj)) hne m hm

theorem ownerAfter_of_disjoint (vs : List (List MarkerId)) (hdisj : DisjointLists vs)
    (ids : List Nat) (hids : ∀ j ∈ ids, j < vs.length) (m : MarkerId) (i : Nat)
    (hi : i ∈ ids) (hm : m ∈ (vs[i]?).getD []) (init : Option CompressedVertexId) :
    ownerAfter vs ids m init = some (toCompressedVertexId i) := by
  apply ownerAfter_unique vs m i hm ids init hi
  intro j hj hmj
  by_cases h : j = i
  · rw [h]
  · exact absurd hm (hdisj j (hids j hj) i (hids i hi) h m hmj)

theorem toCompressedVertexId_of_lt (i : Nat) (h : i < 2 ^ compressedVertexIdBits) :
    toCompressedVertexId i = i :=
  Nat.mod_eq_of_lt h

/-- C2. For every marker graph whose old marker lists are pairwise disjoint and
every `keep` of valid, pairwise distinct old vertex ids, after `removeVertices`
the reverse index holds, for every marker `m`: the id `i` when `m` is in the
list of new vertex `i` (the id as the 40 bit `CompressedVertexId` the table
stores, which is `i` itself for `i < 2^40`), and the invalid value when `m` is
in no new vertex's list; in particular every marker of a vertex that is not in
`keep` maps to the invalid value.  The old contents of the table play no
role. -/
theorem removeVertices_vertexTable (mg : MarkerGraph) (keep : List VertexId)
    (hdisj : DisjointLists mg.vertices) (hvalid : ValidKeep mg keep)
    (hnodup : keep.Nodup) (hrange : MarkersInRange mg) :
    ∃ mg1, removeVertices mg keep = .ok mg1 ∧
      mg1.vertexTable.length = mg.vertexTable.length ∧
      ∀ m, m < mg.vertexTable.length →
        (∀ i l, mg1.vertices[i]? = some l → m ∈ l →
          mg1.vertexTable[m]? = some (toCompressedVertexId i) ∧
          (i < 2 ^ compressedVertexIdBits → mg1.vertexTable[m]? = some i)) ∧
        ((∀ l ∈ mg1.vertices, m ∉ l) →
          mg1.vertexTable[m]? = some invalidCompressedVertexId) ∧
        (∀ v l, v ∉ keep → mg.vertices[v]? = some l → m ∈ l →
          mg1.vertexTable[m]? = some invalidCompressedVertexId) := by
  obtain ⟨t, ht, htl, htget⟩ := removeVertices_ok mg keep hvalid hrange
  have hkd := kept_disjoint mg.vertices keep hdisj hvalid hnodup
  have hnone : ∀ m, m < mg.vertexTable.length →
      (∀ i, i < keep.length → m ∉ ((keptVertices mg.vertices keep)[i]?).getD []) →
      t[m]? = some invalidCompressedVertexId := by
    intro m hm h
    rw [htget m hm]
    exact ownerAfter_not_mem _ m _ _ (fun i hi => h i (List.mem_range.1 hi))
  refine ⟨_, ht, htl, ?_⟩
  intro m hm
  refine ⟨?_, ?_, ?_⟩
  · intro i l hil hml
    have hil' : (keptVertices mg.vertices keep)[i]? = some l := hil
    have hi : i < (keptVertices mg.vertices keep).length :=
      (List.getElem?_eq_some.1 hil').1
    have hmem : m ∈ ((keptVertices mg.vertices keep)[i]?).getD [] := by
      rw [hil']; exact hml
    have h1 : t[m]? = some (toCompressedVertexId i) := by
      rw [htget m hm]
      refine ownerAfter_of_disjoint _ hkd _ ?_ m i ?_ hmem _
      · intro j hj
        rw [keptVertices_length]
        exact List.mem_range.1 hj
      · rw [keptVertices_length] at hi
        exact List.mem_range.2 hi
    refine ⟨h1, fun hlt => ?_⟩
    show t[m]? = some i
    rw [h1, toCompressedVertexId_of_lt i hlt]
  · intro h
    apply hnone m hm
    intro i hi hmem
    have hk : i < (keptVertices mg.vertices keep).length := by
      rw [keptVertices_length]; exact hi
    rw [List.getElem?_eq_getElem hk] at hmem
    exact h _ (List.getElem_mem hk) hmem
  · intro v l hv hvl hml
    apply hnone m hm
    intro i hi hmem
    rw [kept_getD _ _ i hi] at hmem
    have hvlt : v < mg.vertices.length := (List.getElem?_eq_some.1 hvl).1
    have hne : keep[i] ≠ v := fun e => hv (e ▸ List.getElem_mem hi)
    have hmv : m ∈ (mg.vertices[v]?).getD [] := by rw [hvl]; exact hml
    exact hdisj _ (hvalid _ (List.getElem_mem hi)) v hvlt hne m hmem hmv

/-- C2, at the example of the specification: the reverse index maps m3 to 0,
m0 and m1 to 1, and m2 (owned by the excluded v1) to the invalid value. -/
theorem removeVertices_vertexTable_witness :
    DisjointLists exampleGraph.vertices ∧ ValidKeep exampleGraph [2, 0] ∧
    [2, 0].Nodup ∧ MarkersInRange exampleGraph ∧
    (∃ mg1, removeVertices exampleGraph [2, 0] = .ok mg1 ∧
      mg1.vertexTable.length = exampleGraph.vertexTable.length ∧
      ∀ m, m < exampleGraph.vertexTable.length →
        (∀ i l, mg1.vertices[i]? = some l → m ∈ l →
          mg1.vertexTable[m]? = some (toCompressedVertexId i) ∧
          (i < 2 ^ compressedVertexIdBits → mg1.vertexTable[m]? = some i)) ∧
        ((∀ l ∈ mg1.vertices, m ∉ l) →
          mg1.vertexTable[m]? = some invalidCompressedVertexId) ∧
        (∀ v l, v ∉ [2, 0] → exampleGraph.vertices[v]? = some l → m ∈ l →
          mg1.vertexTable[m]? = some invalidCompressedVertexId)) ∧
    (removeVertices exampleGraph [2, 0]).map (fun g => g.vertexTable)
      = .ok [1, 1, invalidCompressedVertexId, 0] :=
  ⟨by decide, by decide, by decide, by decide,
    removeVertices_vertexTable exampleGraph [2, 0] (by decide) (by decide) (by decide)
      (by decide), by decide⟩

/-! ## The partition invariant across compaction (C3) -/

theorem disjoint_of_partitionInvariant (mg : MarkerGraph) (hinv : PartitionInvariant mg)
    (hrange : MarkersInRange mg) : DisjointLists mg.vertices := by
  intro u hu v hv huv m hmu hmv
  have hm : m < mg.vertexTable.length := range_of_markersInRange mg hrange u m hmu
  obtain ⟨w, _, _, huniq, _⟩ := hinv m hm
  exact huv ((huniq u hu hmu).trans (huniq v hv hmv).symm)

/-- C3, as stated, fails.  On the example of the specification the invariant
holds before `removeVertices([v2, v0])` and not after it: m2, owned by the
excluded v1, is in no vertex list any more.  With a repeated id,
`keep = [v0, v0]` on the one vertex graph `{v0:[m0]}`, marker m0 ends up in the
lists of two vertices. -/
theorem partitionInvariant_not_preserved :
    (PartitionInvariant exampleGraph ∧ MarkersInRange exampleGraph ∧
      ValidKeep exampleGraph [2, 0] ∧
      ∃ mg1, removeVertices exampleGraph [2, 0] = .ok mg1 ∧
        (∀ l ∈ mg1.vertices, 2 ∉ l) ∧ ¬ PartitionInvariant mg1) ∧
    (PartitionInvariant ⟨[[0]], [0], [], []⟩ ∧ MarkersInRange ⟨[[0]], [0], [], []⟩ ∧
      ValidKeep ⟨[[0]], [0], [], []⟩ [0, 0] ∧
      ∃ mg1, removeVertices ⟨[[0]], [0], [], []⟩ [0, 0] = .ok mg1 ∧
        0 ∈ (mg1.vertices[0]?).getD [] ∧ 0 ∈ (mg1.vertices[1]?).getD [] ∧
        ¬ PartitionInvariant mg1) := by
  refine ⟨⟨by decide, by decide, by decide,
      ⟨[[3], [0, 1]], [1, 1, invalidCompressedVertexId, 0],
        [⟨0, 1⟩, ⟨0, 2⟩, ⟨1, 2⟩], [[0, 1], [2], []]⟩, by decide, by decide, by decide⟩,
    ⟨by decide, by decide, by decide,
      ⟨[[0], [0]], [1], [], []⟩, by decide, by decide, by decide, by decide⟩⟩

/-- C3, amended.  If the partition invariant holds before `removeVertices(keep)`
and `keep` is a sequence of valid, pairwise distinct old vertex ids, then after
the call every marker of a kept vertex is contained in the list of exactly one
new vertex and the reverse index at the marker holds that vertex's new id, and
every other marker is in no vertex list and maps to the invalid value.  When
`keep` moreover contains every old vertex id, the partition invariant holds
after the call. -/
theorem removeVertices_partition (mg : MarkerGraph) (keep : List VertexId)
    (hinv : PartitionInvariant mg) (hrange : MarkersInRange mg)
    (hvalid : ValidKeep mg keep) (hnodup : keep.Nodup) :
    ∃ mg1, removeVertices mg keep = .ok mg1 ∧
      mg1.vertexTable.length = mg.vertexTable.length ∧
      (∀ m, m < mg.vertexTable.length →
        ((∃ v ∈ keep, m ∈ (mg.vertices[v]?).getD []) →
          ∃ i, i < mg1.vertices.length ∧ (m ∈ (mg1.vertices[i]?).getD [] ∧
            (∀ u, u < mg1.vertices.length → m ∈ (mg1.vertices[u]?).getD [] → u = i) ∧
            mg1.vertexTable[m]? = some (toCompressedVertexId i))) ∧
        ((¬ ∃ v ∈ keep, m ∈ (mg.vertices[v]?).getD []) →
          (∀ u : Nat, m ∉ (mg1.vertices[u]?).getD []) ∧
          mg1.vertexTable[m]? = some invalidCompressedVertexId)) ∧
      ((∀ v, v < mg.vertices.length → v ∈ keep) → PartitionInvariant mg1) := by
  obtain ⟨t, ht, htl, htget⟩ := removeVertices_ok mg keep hvalid hrange
  have hdisj := disjoint_of_partitionInvariant mg hinv hrange
  have hkd := kept_disjoint mg.vertices keep hdisj hvalid hnodup
  have hkept : ∀ m, m < mg.vertexTable.length →
      (∃ v ∈ keep, m ∈ (mg.vertices[v]?).getD []) →
      ∃ i, i < (keptVertices mg.vertices keep).length ∧
        (m ∈ ((keptVertices mg.vertices keep)[i]?).getD [] ∧
        (∀ u, u < (keptVertices mg.vertices keep).length →
          m ∈ ((keptVertices mg.vertices keep)[u]?).getD [] → u = i) ∧
        t[m]? = some (toCompressedVertexId i)) := by
    intro m hm hex
    obtain ⟨v, hv, hmv⟩ := hex
    obtain ⟨i, hi, hiv⟩ := List.getElem_of_mem hv
    have hmi : m ∈ ((keptVertices mg.vertices keep)[i]?).getD [] := by
      rw [kept_getD _ _ i hi, hiv]; exact hmv
    have hi' : i < (keptVertices mg.vertices keep).length := by
      rw [keptVertices_length]; exact hi
    refine ⟨i, hi', hmi, ?_, ?_⟩
    · intro u hu hmu
      by_contra hne
      exact hkd u hu i hi' hne m hmu hmi
    · rw [htget m hm]
      refine ownerAfter_of_disjoint _ hkd _ ?_ m i (List.mem_range.2 hi) hmi _
      intro j hj
      rw [keptVertices_length]
      exact List.mem_range.1 hj
  refine ⟨_, ht, htl, ?_, ?_⟩
  · intro m hm
    refine ⟨hkept m hm, ?_⟩
    intro hno
    have hnot : ∀ u : Nat, m ∉ ((keptVertices mg.vertices keep)[u]?).getD [] := by
      intro u hmu
      by_cases hu : u < keep.length
      · rw [kept_getD _ _ u hu] at hmu
        exact hno ⟨keep[u], List.getElem_mem hu, hmu⟩
      · rw [List.getElem?_eq_none (by rw [keptVertices_length]; omega)] at hmu
        simp at hmu
    refine ⟨hnot, ?_⟩
    show t[m]? = _
    rw [htget m hm]
    exact ownerAfter_not_mem _ m _ _ (fun i _ => hnot i)
  · intro hall m hm
    have hm' : m < mg.vertexTable.length := by
      have : m < t.length := hm
      omega
    obtain ⟨v, hv, hmv, _, _⟩ := hinv m hm'
    exact hkept m hm' ⟨v, hall v hv, hmv⟩

/-- C3 amended, at the example graph with `keep = [v2, v0, v1]`. -/
theorem removeVertices_partition_witness :
    PartitionInvariant exampleGraph ∧ MarkersInRange exampleGraph ∧
    ValidKeep exampleGraph [2, 0, 1] ∧ [2, 0, 1].Nodup ∧
    ∃ mg1, removeVertices exampleGraph [2, 0, 1] = .ok mg1 ∧
      mg1.vertexTable.length = exampleGraph.vertexTable.length ∧
      (∀ m, m < exampleGraph.vertexTable.length →
        ((∃ v ∈ [2, 0, 1], m ∈ (exampleGraph.vertices[v]?).getD []) →
          ∃ i, i < mg1.vertices.length ∧ (m ∈ (mg1.vertices[i]?).getD [] ∧
            (∀ u, u < mg1.vertices.length → m ∈ (mg1.vertices[u]?).getD [] → u = i) ∧
            mg1.vertexTable[m]? = some (toCompressedVertexId i))) ∧
        ((¬ ∃ v ∈ [2, 0, 1], m ∈ (exampleGraph.vertices[v]?).getD []) →
          (∀ u : Nat, m ∉ (mg1.vertices[u]?).getD []) ∧
          mg1.vertexTable[m]? = some invalidCompressedVertexId)) ∧
      ((∀ v, v < exampleGraph.vertices.length → v ∈ [2, 0, 1]) → PartitionInvariant mg1) :=
  ⟨by decide, by decide, by decide, by decide,
    removeVertices_partition exampleGraph [2, 0, 1] (by decide) (by decide) (by decide)
      (by decide)⟩

/-! ## Identity compaction (C4) -/

theorem keptVertices_range (vertices : List (List MarkerId)) :
    keptVertices vertices (List.range vertices.length) = vertices := by
  apply List.ext_getElem?
  intro i
  by_cases hi : i < vertices.length
  · have hr : i < (List.range vertices.length).length := by simpa using hi
    rw [kept_getElem? _ _ i hr]
    simp [List.getElem?_eq_getElem hi]
  · rw [List.getElem?_eq_none (by rw [keptVertices_length]; simpa using hi),
      List.getElem?_eq_none (by omega)]

/-- C4. Identity compaction changes nothing: for every `N` vertex marker graph,
`removeVertices` with `keep = [0, 1, ..., N-1]` yields a vertex store equal to
the input's (same lists, same order); and when the reverse index was
consistent before the call, it is unchanged too, so the whole graph is. -/
theorem removeVertices_identity (mg : MarkerGraph) (hrange : MarkersInRange mg) :
    ∃ mg1, removeVertices mg (List.range mg.vertices.length) = .ok mg1 ∧
      mg1.vertices.length = mg.vertices.length ∧
      mg1.vertices = mg.vertices ∧
      (ConsistentTable mg → mg1.vertexTable = mg.vertexTable ∧ mg1 = mg) := by
  have hvalid : ValidKeep mg (List.range mg.vertices.length) :=
    fun v hv => List.mem_range.1 hv
  obtain ⟨t, ht, htl, htget⟩ := removeVertices_ok mg _ hvalid hrange
  rw [keptVertices_range] at ht htget
  simp only [List.length_range] at htget
  refine ⟨_, ht, rfl, rfl, ?_⟩
  intro hcons
  have htab : t = mg.vertexTable := by
    apply List.ext_getElem?
    intro m
    by_cases hm : m < mg.vertexTable.length
    · rw [htget m hm]
      by_cases hex : ∃ v, v < mg.vertices.length ∧ m ∈ (mg.vertices[v]?).getD []
      · obtain ⟨v, hv, hmv⟩ := hex
        rw [(hcons m hm).1 v hv hmv]
        apply ownerAfter_unique _ m v hmv _ _ (List.mem_range.2 hv)
        intro j hj hmj
        have e1 := (hcons m hm).1 j (List.mem_range.1 hj) hmj
        have e2 := (hcons m hm).1 v hv hmv
        rw [e1] at e2
        exact Option.some.inj e2
      · have hno : ∀ v, v < mg.vertices.length → m ∉ (mg.vertices[v]?).getD [] :=
          fun v hv hmv => hex ⟨v, hv, hmv⟩
        rw [(hcons m hm).2 hno]
        exact ownerAfter_not_mem _ m _ _ (fun i hi => hno i (List.mem_range.1 hi))
    · rw [List.getElem?_eq_none (by omega), List.getElem?_eq_none (by omega)]
  refine ⟨htab, ?_⟩
  rw [htab]

/-- C4, at the example graph, whose reverse index is consistent. -/
theorem removeVertices_identity_witness :
    MarkersInRange exampleGraph ∧ ConsistentTable exampleGraph ∧
    ∃ mg1, removeVertices exampleGraph (List.range exampleGraph.vertices.length) = .ok mg1 ∧
      mg1.vertices.length = exampleGraph.vertices.length ∧
      mg1.vertices = exampleGraph.vertices ∧
      (ConsistentTable exampleGraph →
        mg1.vertexTable = exampleGraph.vertexTable ∧ mg1 = exampleGraph) :=
  ⟨by decide, by decide, removeVertices_identity exampleGraph (by decide)⟩

/-! ## The size of the compacted store (C5) -/

/-- C5. For every marker graph and every `keep` of valid old vertex ids, the
total number of markers stored in the vertex store after `removeVertices` is
the sum over `i` of the length of the old marker list of vertex `keep[i]`. -/
theorem removeVertices_totalSize (mg : MarkerGraph) (keep : List VertexId)
    (hvalid : ValidKeep mg keep) (hrange : MarkersInRange mg) :
    ∃ mg1, removeVertices mg keep = .ok mg1 ∧
      totalSize mg1.vertices
        = (keep.map fun v => ((mg.vertices[v]?).getD []).length).sum := by
  obtain ⟨t, ht, _, _⟩ := removeVertices_ok mg keep hvalid hrange
  refine ⟨_, ht, ?_⟩
  show totalSize (keptVertices mg.vertices keep) = _
  simp [totalSize, keptVertices, List.map_map, Function.comp_def]

/-- C5, at the example of the specification: `keep = [v2, v0]` keeps 1 + 2
markers. -/
theorem removeVertices_totalSize_witness :
    ValidKeep exampleGraph [2, 0] ∧ MarkersInRange exampleGraph ∧
    (∃ mg1, removeVertices exampleGraph [2, 0] = .ok mg1 ∧
      totalSize mg1.vertices
        = ([2, 0].map fun v => ((exampleGraph.vertices[v]?).getD []).length).sum) ∧
    (removeVertices exampleGraph [2, 0]).map (fun g => totalSize g.vertices) = .ok 3 :=
  ⟨by decide, by decide,
    removeVertices_totalSize exampleGraph [2, 0] (by decide) (by decide), by decide⟩

/-! ## Independence of the thread schedule (C6) -/

/-- C6, as stated, fails.  On the one vertex graph `{v0:[m0]}` with `keep`
naming `v0` 10001 times (two batches), the single worker run leaves
`vertexTable[m0] = 10000`, while the run that processes the two batches of the
repair phase in the other order leaves `vertexTable[m0] = 9999`. -/
theorem removeVertices_schedule_dependent :
    IsSchedule List.reverse ∧
    ValidKeep ⟨[[0]], [0], [], []⟩ (List.replicate 10001 0) ∧
    MarkersInRange ⟨[[0]], [0], [], []⟩ ∧
    ∃ a b, removeVertices ⟨[[0]], [0], [], []⟩ (List.replicate 10001 0) = .ok a ∧
      removeVerticesWith id id List.reverse ⟨[[0]], [0], [], []⟩ (List.replicate 10001 0)
        = .ok b ∧
      a.vertexTable[0]? = some 10000 ∧ b.vertexTable[0]? = some 9999 ∧ a ≠ b := by
  have hs : IsSchedule List.reverse := fun l => List.reverse_perm l
  have hvalid : ValidKeep ⟨[[0]], [0], [], []⟩ (List.replicate 10001 0) := by
    intro v hv
    rw [List.eq_of_mem_replicate hv]
    decide
  have hrange : MarkersInRange ⟨[[0]], [0], [], []⟩ := by decide
  have hlen : (List.replicate 10001 0).length = 10001 := List.length_replicate _ _
  have hmem : ∀ i, i < 10001 →
      0 ∈ ((keptVertices [[0]] (List.replicate 10001 0))[i]?).getD [] := by
    intro i hi
    rw [kept_getD _ _ i (by rw [hlen]; exact hi), List.getElem_replicate]
    decide
  obtain ⟨ta, hta, _, hga⟩ := removeVertices_ok _ _ hvalid hrange
  obtain ⟨tb, htb, _, hgb⟩ := removeVerticesWith_ok id id List.reverse isSchedule_id
    isSchedule_id hs ⟨[[0]], [0], [], []⟩ (List.replicate 10001 0) hvalid
    (fun v _ m hm => range_of_markersInRange _ hrange v m hm)
  have ha : ta[0]? = some 10000 := by
    rw [hga 0 (by decide), hlen, show (10001 : Nat) = 10000 + 1 from rfl, List.range_succ]
    exact ownerAfter_concat _ 0 _ 10000 _ (hmem 10000 (by decide))
  have hb : tb[0]? = some 9999 := by
    rw [hgb 0 (by decide), hlen]
    have hbat : getBatches 10001 batchCount = [(0, 10000), (10000, 10001)] := by decide
    have hrng : List.range' 0 10000 = List.range' 0 9999 ++ [9999] :=
      List.range'_1_concat 0 9999
    have hsched : scheduledIds List.reverse 10001
        = ([10000] ++ List.range' 0 9999) ++ [9999] := by
      simp only [scheduledIds, hbat, List.reverse_cons, List.reverse_nil, List.nil_append,
        List.singleton_append, List.flatMap_cons, List.flatMap_nil, List.append_nil,
        batchIds]
      rw [show (10001 : Nat) - 10000 = 1 from rfl, show (10000 : Nat) - 0 = 10000 from rfl,
        hrng]
      rfl
    rw [hsched]
    exact ownerAfter_concat _ 0 _ 9999 _ (hmem 9999 (by decide))
  refine ⟨hs, hvalid, hrange, _, _, hta, htb, ha, hb, ?_⟩
  intro hab
  have e : ta = tb := congrArg MarkerGraph.vertexTable hab
  rw [e, hb] at ha
  exact absurd ha (by decide)

/-- C6, amended.  For every marker graph, every `keep` of valid old vertex ids
and every way of ordering the batches of the three phases, the run with many
workers completes like the run with one worker and builds the identical vertex
store; when no marker is contained in the lists of two different new vertices
(as the partition invariant with pairwise distinct ids in `keep` ensures), the
reverse index, and so the whole result, is identical too. -/
theorem removeVerticesWith_eq_removeVertices
    (order1 order2 order3 : List (Nat × Nat) → List (Nat × Nat))
    (h1 : IsSchedule order1) (h2 : IsSchedule order2) (h3 : IsSchedule order3)
    (mg : MarkerGraph) (keep : List VertexId)
    (hvalid : ValidKeep mg keep) (hrange : MarkersInRange mg) :
    ∃ a b, removeVerticesWith order1 order2 order3 mg keep = .ok a ∧
      removeVertices mg keep = .ok b ∧
      a.vertices = b.vertices ∧
      (DisjointLists b.vertices → a.vertexTable = b.vertexTable ∧ a = b) := by
  obtain ⟨tb, htb, hlb, hgb⟩ := removeVertices_ok mg keep hvalid hrange
  obtain ⟨ta, hta, hla, hga⟩ := removeVerticesWith_ok order1 order2 order3 h1 h2 h3 mg keep
    hvalid (fun v _ m hm => range_of_markersInRange mg hrange v m hm)
  refine ⟨_, _, hta, htb, rfl, ?_⟩
  intro hdisj
  have hdisj' : DisjointLists (keptVertices mg.vertices keep) := hdisj
  have htab : ta = tb := by
    apply List.ext_getElem?
    intro m
    by_cases hm : m < mg.vertexTable.length
    · rw [hga m hm, hgb m hm]
      by_cases hex : ∃ i, i < keep.length ∧ m ∈ ((keptVertices mg.vertices keep)[i]?).getD []
      · obtain ⟨i, hi, hmi⟩ := hex
        rw [ownerAfter_of_disjoint _ hdisj' _
            (fun j hj => by
              rw [keptVertices_length]; exact (mem_scheduledIds order3 h3 _ j).1 hj)
            m i ((mem_scheduledIds order3 h3 _ i).2 hi) hmi,
          ownerAfter_of_disjoint _ hdisj' _
            (fun j hj => by rw [keptVertices_length]; exact List.mem_range.1 hj)
            m i (List.mem_range.2 hi) hmi]
      · rw [ownerAfter_not_mem _ m _ _
            (fun i hi hmi => hex ⟨i, (mem_scheduledIds order3 h3 _ i).1 hi, hmi⟩),
          ownerAfter_not_mem _ m _ _
            (fun i hi hmi => hex ⟨i, List.mem_range.1 hi, hmi⟩)]
    · rw [List.getElem?_eq_none (by omega), List.getElem?_eq_none (by omega)]
  refine ⟨htab, ?_⟩
  rw [htab]

theorem singletonGraph_vertices_length (n : Nat) :
    (singletonGraph n).vertices.length = n := by
  simp [singletonGraph]

theorem singletonGraph_vertex (n v : Nat) (hv : v < n) :
    (singletonGraph n).vertices[v]? = some [v] := by
  simp [singletonGraph, List.getElem?_range hv]

theorem reverseKeep_length (n : Nat) : (reverseKeep n).length = n := by
  simp [reverseKeep]

theorem reverseKeep_valid (n : Nat) : ValidKeep (singletonGraph n) (reverseKeep n) := by
  intro v hv
  rw [singletonGraph_vertices_length]
  exact List.mem_range.1 (List.mem_reverse.1 hv)

theorem singletonGraph_markersInRange (n : Nat) : MarkersInRange (singletonGraph n) := by
  intro l hl m hm
  have hlen : (singletonGraph n).vertexTable.length = n := by simp [singletonGraph]
  rw [hlen]
  obtain ⟨i, hi, hil⟩ := List.mem_map.1 hl
  rw [← hil, List.mem_singleton] at hm
  rw [hm]
  exact List.mem_range.1 hi

theorem singletonGraph_disjoint (n : Nat) : DisjointLists (singletonGraph n).vertices := by
  intro u hu v hv huv m hmu hmv
  rw [singletonGraph_vertices_length] at hu hv
  rw [singletonGraph_vertex n u hu] at hmu
  rw [singletonGraph_vertex n v hv] at hmv
  have e1 : m = u := List.mem_singleton.1 hmu
  have e2 : m = v := List.mem_singleton.1 hmv
  exact huv (e1.symm.trans e2)

/-- C6 amended, at a graph of 10001 vertices, which the load balancer hands
out in the two batches `[0, 10000)` and `[10000, 10001)`: every phase takes the
second batch before the first.  The new marker lists are pairwise disjoint, so
the run with the batches reordered and the run of one worker give the same
graph. -/
theorem removeVerticesWith_eq_removeVertices_witness :
    IsSchedule List.reverse ∧ ValidKeep (singletonGraph 10001) (reverseKeep 10001) ∧
    MarkersInRange (singletonGraph 10001) ∧
    getBatches (reverseKeep 10001).length batchCount = [(0, 10000), (10000, 10001)] ∧
    List.reverse (getBatches (reverseKeep 10001).length batchCount)
      = [(10000, 10001), (0, 10000)] ∧
    (∃ a b, removeVerticesWith List.reverse List.reverse List.reverse
        (singletonGraph 10001) (reverseKeep 10001) = .ok a ∧
      removeVertices (singletonGraph 10001) (reverseKeep 10001) = .ok b ∧
      a.vertices = b.vertices ∧
      (DisjointLists b.vertices → a.vertexTable = b.vertexTable ∧ a = b)) ∧
    ∃ a, removeVerticesWith List.reverse List.reverse List.reverse
        (singletonGraph 10001) (reverseKeep 10001) = .ok a ∧
      removeVertices (singletonGraph 10001) (reverseKeep 10001) = .ok a ∧
      DisjointLists a.vertices := by
  have hbat : getBatches (reverseKeep 10001).length batchCount
      = [(0, 10000), (10000, 10001)] := by
    rw [reverseKeep_length]
    decide
  have hthm := removeVerticesWith_eq_removeVertices List.reverse List.reverse List.reverse
    (fun l => List.reverse_perm l) (fun l => List.reverse_perm l)
    (fun l => List.reverse_perm l) (singletonGraph 10001) (reverseKeep 10001)
    (reverseKeep_valid 10001) (singletonGraph_markersInRange 10001)
  refine ⟨fun l => List.reverse_perm l, reverseKeep_valid 10001,
    singletonGraph_markersInRange 10001, hbat, by rw [hbat]; rfl, hthm, ?_⟩
  obtain ⟨a, b, ha, hb, _, hdis⟩ := hthm
  obtain ⟨t, ht, _, _⟩ := removeVertices_ok (singletonGraph 10001) (reverseKeep 10001)
    (reverseKeep_valid 10001) (singletonGraph_markersInRange 10001)
  have hbv : b.vertices
      = keptVertices (singletonGraph 10001).vertices (reverseKeep 10001) := by
    rw [ht] at hb
    rw [← Except.ok.inj hb]
  have hd : DisjointLists b.vertices := by
    rw [hbv]
    exact kept_disjoint _ _ (singletonGraph_disjoint 10001) (reverseKeep_valid 10001)
      (List.nodup_reverse.2 (List.nodup_range 10001))
  have hab := (hdis hd).2
  exact ⟨a, ha, by rw [hab]; exact hb, by rw [hab]; exact hd⟩

/-! ## Ids in `keep` that name no old vertex (C9) -/

theorem countVertex_error (vertices : List (List MarkerId)) (keep : List VertexId)
    (counts : List Nat) (i : Nat) (e : Fatal)
    (h : countVertex vertices keep counts i = .error e) : e = .outOfBounds := by
  unfold countVertex Vector.get VectorOfVectors.size VectorOfVectors.incrementCount at h
  cases hk : keep[i]? with
  | none =>
    rw [hk] at h
    exact (Except.error.inj h).symm
  | some v =>
    rw [hk] at h
    cases hv : vertices[v]? with
    | none =>
      simp only [bind, Except.bind, hv] at h
      exact (Except.error.inj h).symm
    | some l =>
      simp only [bind, Except.bind, hv] at h
      cases hc : counts[i]? with
      | none =>
        rw [hc] at h
        exact (Except.error.inj h).symm
      | some c =>
        rw [hc] at h
        cases h

theorem countVertex_invalid (vertices : List (List MarkerId)) (keep : List VertexId)
    (counts : List Nat) (i : Nat) (hi : i < keep.length) (hbad : vertices.length ≤ keep[i]) :
    countVertex vertices keep counts i = .error .outOfBounds := by
  simp [countVertex, Vector.get, VectorOfVectors.size, List.getElem?_eq_getElem hi,
    List.getElem?_eq_none hbad, bind, Except.bind]

theorem foldlM_countVertex_invalid (vertices : List (List MarkerId)) (keep : List VertexId)
    (i : Nat) (hi : i < keep.length) (hbad : vertices.length ≤ keep[i]) :
    ∀ (ids : List Nat) (counts : List Nat), i ∈ ids →
      ids.foldlM (countVertex vertices keep) counts = .error .outOfBounds := by
  intro ids
  induction ids with
  | nil => intro counts h; simp at h
  | cons a rest ih =>
    intro counts hmem
    rw [List.foldlM_cons]
    cases hstep : countVertex vertices keep counts a with
    | error e =>
      rw [countVertex_error _ _ _ _ _ hstep]
      rfl
    | ok cs =>
      have hne : i ≠ a := by
        intro e
        rw [← e, countVertex_invalid vertices keep counts i hi hbad] at hstep
        cases hstep
      have hrest : i ∈ rest := by
        rcases List.mem_cons.1 hmem with h | h
        · exact absurd h hne
        · exact h
      exact ih cs hrest

/-- C9. For every marker graph and every `keep` in which some id is not the id
of an existing old vertex, `removeVertices(keep)` ends fatally (an access to a
key the vertex store does not have), in the count phase, instead of completing
with a compacted vertex store; this holds for every order in which the batches
are processed. -/
theorem removeVertices_invalid_keep (mg : MarkerGraph) (keep : List VertexId)
    (hbad : ∃ v ∈ keep, mg.vertices.length ≤ v) :
    removeVertices mg keep = .error .outOfBounds ∧
    ∀ order1 order2 order3, IsSchedule order1 →
      removeVerticesWith order1 order2 order3 mg keep = .error .outOfBounds := by
  have hgen : ∀ order1 order2 order3, IsSchedule order1 →
      removeVerticesWith order1 order2 order3 mg keep = .error .outOfBounds := by
    intro order1 order2 order3 h1
    obtain ⟨v, hv, hlen⟩ := hbad
    obtain ⟨i, hi, hiv⟩ := List.getElem_of_mem hv
    have hphase := foldlM_countVertex_invalid mg.vertices keep i hi (by rw [hiv]; exact hlen)
      (scheduledIds order1 keep.length) (VectorOfVectors.beginPass1 keep.length)
      ((mem_scheduledIds order1 h1 _ i).2 hi)
    simp only [scheduledIds] at hphase
    simp only [removeVerticesWith, removeVerticesThreadFunction1, foldlM_batches]
    rw [hphase]
    rfl
  exact ⟨hgen id id id isSchedule_id, hgen⟩

/-- C9, at the example graph with `keep = [v2, v3]`, where `v3` does not
exist. -/
theorem removeVertices_invalid_keep_witness :
    (∃ v ∈ [2, 3], exampleGraph.vertices.length ≤ v) ∧
    (removeVertices exampleGraph [2, 3] = .error .outOfBounds ∧
      ∀ order1 order2 order3, IsSchedule order1 →
        removeVerticesWith order1 order2 order3 exampleGraph [2, 3]
          = .error .outOfBounds) :=
  ⟨by decide, removeVertices_invalid_keep exampleGraph [2, 3] (by decide)⟩

/-! ## Edge lookup (C7, C8) -/

theorem findEdgeLoop_eq (edges : List Edge) (target : Nat) :
    ∀ (ids : List EdgeId), (∀ i ∈ ids, i < edges.length) →
      findEdgeLoop edges target ids
        = .ok (ids.find? fun i => decide (((edges[i]?).map Edge.target) = some target)) := by
  intro ids
  induction ids with
  | nil => intro _; rfl
  | cons a rest ih =>
    intro h
    have ha : a < edges.length := h a (List.mem_cons_self _ _)
    have hr := ih (fun i hi => h i (List.mem_cons_of_mem _ hi))
    by_cases ht : edges[a].target = target
    · simp [findEdgeLoop, Vector.get, List.getElem?_eq_getElem ha, ht]
    · simp [findEdgeLoop, Vector.get, List.getElem?_eq_getElem ha, ht, hr]

theorem findEdgeLoop_some (edges : List Edge) (target : Nat) :
    ∀ (ids : List EdgeId) (i : EdgeId), findEdgeLoop edges target ids = .ok (some i) →
      i ∈ ids ∧ ∃ edge, edges[i]? = some edge ∧ edge.target = target := by
  intro ids
  induction ids with
  | nil => intro i h; cases h
  | cons a rest ih =>
    intro i h
    unfold findEdgeLoop Vector.get at h
    cases ha : edges[a]? with
    | none => rw [ha] at h; cases h
    | some edge =>
      rw [ha] at h
      by_cases ht : edge.target = target
      · simp only [ht, if_true] at h
        have hia : a = i := Option.some.inj (Except.ok.inj h)
        subst hia
        exact ⟨List.mem_cons_self _ _, edge, ha, ht⟩
      · simp only [ht, if_false] at h
        obtain ⟨hm, hedge⟩ := ih i h
        exact ⟨List.mem_cons_of_mem _ hm, hedge⟩

theorem findEdgeLoop_error (edges : List Edge) (target : Nat) :
    ∀ (ids : List EdgeId) (e : Fatal), findEdgeLoop edges target ids = .error e →
      e = .outOfBounds := by
  intro ids
  induction ids with
  | nil => intro e h; cases h
  | cons a rest ih =>
    intro e h
    unfold findEdgeLoop Vector.get at h
    cases ha : edges[a]? with
    | none => rw [ha] at h; exact (Except.error.inj h).symm
    | some edge =>
      rw [ha] at h
      by_cases ht : edge.target = target
      · simp only [ht, if_true] at h
        cases h
      · simp only [ht, if_false] at h
        exact ih e h

theorem findEdge_error (mg : MarkerGraph) (source target : Nat) (e : Fatal)
    (h : findEdge mg source target = .error e) : e = .outOfBounds := by
  unfold findEdge VectorOfVectors.get at h
  cases hs : mg.edgesBySource[source]? with
  | none => rw [hs] at h; exact (Except.error.inj h).symm
  | some ids =>
    rw [hs] at h
    exact findEdgeLoop_error _ _ _ _ h

theorem findEdge_eq_find (mg : MarkerGraph) (source target : Nat)
    (hwf : EdgeIdsValid mg source) :
    findEdge mg source target
      = .ok (((mg.edgesBySource[source]?).getD []).find? fun i =>
          decide (((mg.edges[i]?).map Edge.target) = some target)) := by
  obtain ⟨hs, hids⟩ := hwf
  rw [List.getElem?_eq_getElem hs] at hids ⊢
  simp only [findEdge, VectorOfVectors.get, List.getElem?_eq_getElem hs]
  exact findEdgeLoop_eq _ _ _ hids

/-- C7. For every marker graph and every `(source, target)` whose lookup stays
inside the containers, `findEdge(source, target)` returns a result; it returns
"not found" (null) exactly when no edge id in `edgesBySource[source]` refers to
an edge whose target is `target`; it returns the edge with id `i` exactly when
`i` is the first id in `edgesBySource[source]` order that refers to an edge with
that target; and that edge is the only such edge when the edges listed under
`source` have `source` as their source and the graph has no duplicate
(source, target) pairs. -/
theorem findEdge_spec (mg : MarkerGraph) (source target : Nat)
    (hwf : EdgeIdsValid mg source) :
    (∃ r, findEdge mg source target = .ok r) ∧
    (findEdge mg source target = .ok none ↔
      ∀ i ∈ (mg.edgesBySource[source]?).getD [], ∀ e, mg.edges[i]? = some e →
        e.target ≠ target) ∧
    (∀ i, findEdge mg source target = .ok (some i) ↔
      ∃ pre post, (mg.edgesBySource[source]?).getD [] = pre ++ i :: post ∧
        (∃ e, mg.edges[i]? = some e ∧ e.target = target) ∧
        ∀ j ∈ pre, ∀ e, mg.edges[j]? = some e → e.target ≠ target) ∧
    (ListedUnderSource mg source → NoDuplicateEdges mg →
      ∀ i, findEdge mg source target = .ok (some i) →
        ∀ j ∈ (mg.edgesBySource[source]?).getD [],
          (∃ e, mg.edges[j]? = some e ∧ e.target = target) → j = i) := by
  have heq := findEdge_eq_find mg source target hwf
  refine ⟨⟨_, heq⟩, ?_, ?_, ?_⟩
  · rw [heq]
    constructor
    · intro h i hi e he hte
      have hnone := List.find?_eq_none.1 (Except.ok.inj h) i hi
      simp [he, hte] at hnone
    · intro h
      congr 1
      apply List.find?_eq_none.2
      intro i hi
      cases he : mg.edges[i]? with
      | none => simp
      | some e => simpa using h i hi e he
  · intro i
    rw [heq]
    constructor
    · intro h
      have hfind := Except.ok.inj h
      obtain ⟨hp, pre, post, hsplit, hpre⟩ := List.find?_eq_some.1 hfind
      refine ⟨pre, post, hsplit, ?_, ?_⟩
      · cases he : mg.edges[i]? with
        | none => simp [he] at hp
        | some e => exact ⟨e, rfl, by simpa [he] using hp⟩
      · intro j hj e he hte
        have := hpre j hj
        simp [he, hte] at this
    · rintro ⟨pre, post, hsplit, ⟨e, he, hte⟩, hpre⟩
      congr 1
      apply List.find?_eq_some.2
      refine ⟨by simp [he, hte], pre, post, hsplit, ?_⟩
      intro j hj
      cases hej : mg.edges[j]? with
      | none => simp
      | some ej => simpa using hpre j hj ej hej
  · intro hsrc hnodup i hfound j hj hjt
    obtain ⟨ej, hej, hejt⟩ := hjt
    rw [heq] at hfound
    have hfind := Except.ok.inj hfound
    have hp := List.find?_some hfind
    have hmem := List.mem_of_find?_eq_some hfind
    cases hei : mg.edges[i]? with
    | none => simp [hei] at hp
    | some ei =>
      have heit : ei.target = target := by simpa [hei] using hp
      exact hnodup j i ej ei hej hei
        ((hsrc j hj ej hej).trans (hsrc i hmem ei hei).symm) (hejt.trans heit.symm)

/-- C7, at the example graph: among the edges `0->1`, `0->2` leaving vertex 0
the lookup of target 2 returns edge 1, the lookup of target 0 returns null. -/
theorem findEdge_spec_witness :
    EdgeIdsValid exampleGraph 0 ∧
    ((∃ r, findEdge exampleGraph 0 2 = .ok r) ∧
    (findEdge exampleGraph 0 2 = .ok none ↔
      ∀ i ∈ (exampleGraph.edgesBySource[0]?).getD [], ∀ e, exampleGraph.edges[i]? = some e →
        e.target ≠ 2) ∧
    (∀ i, findEdge exampleGraph 0 2 = .ok (some i) ↔
      ∃ pre post, (exampleGraph.edgesBySource[0]?).getD [] = pre ++ i :: post ∧
        (∃ e, exampleGraph.edges[i]? = some e ∧ e.target = 2) ∧
        ∀ j ∈ pre, ∀ e, exampleGraph.edges[j]? = some e → e.target ≠ 2) ∧
    (ListedUnderSource exampleGraph 0 → NoDuplicateEdges exampleGraph →
      ∀ i, findEdge exampleGraph 0 2 = .ok (some i) →
        ∀ j ∈ (exampleGraph.edgesBySource[0]?).getD [],
          (∃ e, exampleGraph.edges[j]? = some e ∧ e.target = 2) → j = i)) ∧
    findEdge exampleGraph 0 2 = .ok (some 1) ∧ findEdge exampleGraph 0 0 = .ok none :=
  ⟨by decide, findEdge_spec exampleGraph 0 2 (by decide), by decide, by decide⟩

/-- C8. For every marker graph and every `(source, target)`,
`findEdgeId(source, target)` fails its assertion if and only if
`findEdge(source, target)` returns "not found"; otherwise (when `findEdge`
returns an edge) it returns the index `e` of exactly that edge in the edge
array, so `e` is an id listed in `edgesBySource[source]` and
`edges[e].target = target`. -/
theorem findEdgeId_spec (mg : MarkerGraph) (source target : Nat) :
    (findEdgeId mg source target = .error .assertionFailed ↔
      findEdge mg source target = .ok none) ∧
    (∀ e, findEdgeId mg source target = .ok e ↔
      findEdge mg source target = .ok (some e)) ∧
    (∀ e, findEdgeId mg source target = .ok e →
      e ∈ (mg.edgesBySource[source]?).getD [] ∧
      ∃ edge, mg.edges[e]? = some edge ∧ edge.target = target) := by
  have hiff : ∀ e, findEdgeId mg source target = .ok e ↔
      findEdge mg source target = .ok (some e) := by
    intro e
    unfold findEdgeId
    cases hf : findEdge mg source target with
    | error err => simp
    | ok r =>
      cases r with
      | none => simp
      | some p => simp
  refine ⟨?_, hiff, ?_⟩
  · unfold findEdgeId
    cases hf : findEdge mg source target with
    | error err =>
      have := findEdge_error mg source target err hf
      subst this
      simp
    | ok r =>
      cases r with
      | none => simp
      | some p => simp
  · intro e he
    have hf := (hiff e).1 he
    unfold findEdge VectorOfVectors.get at hf
    cases hs : mg.edgesBySource[source]? with
    | none => rw [hs] at hf; cases hf
    | some ids =>
      rw [hs] at hf
      exact findEdgeLoop_some _ _ _ _ hf

/-! ## The phases of compaction, one by one -/

theorem countPhase_ok (order1 : List (Nat × Nat) → List (Nat × Nat)) (h1 : IsSchedule order1)
    (vertices : List (List MarkerId)) (keep : List VertexId)
    (hvalid : ∀ v ∈ keep, v < vertices.length) :
    removeVerticesThreadFunction1 vertices keep (order1 (getBatches keep.length batchCount))
        (VectorOfVectors.beginPass1 keep.length)
      = .ok ((keptVertices vertices keep).map List.length) := by
  obtain ⟨cs, hcs, hcl, hcget⟩ := foldlM_countVertex vertices keep hvalid
    (scheduledIds order1 keep.length) (VectorOfVectors.beginPass1 keep.length)
    (fun i hi => (mem_scheduledIds order1 h1 _ i).1 hi)
    (by simp [VectorOfVectors.beginPass1])
  have hc : cs = (keptVertices vertices keep).map List.length := by
    apply List.ext_getElem?
    intro i
    by_cases hi : i < keep.length
    · rw [hcget i hi, count_scheduledIds order1 h1 _ i hi, List.getElem?_map,
        kept_getElem? _ _ i hi]
      simp [VectorOfVectors.beginPass1, hi, kept_getElem? _ _ i hi]
    · rw [List.getElem?_eq_none (by omega),
        List.getElem?_eq_none (by rw [List.length_map, keptVertices_length]; omega)]
  simp only [removeVerticesThreadFunction1, foldlM_batches]
  simp only [scheduledIds] at hcs
  rw [hcs, hc]

theorem copyPhase_ok (order2 : List (Nat × Nat) → List (Nat × Nat)) (h2 : IsSchedule order2)
    (vertices : List (List MarkerId)) (keep : List VertexId)
    (hvalid : ∀ v ∈ keep, v < vertices.length) :
    removeVerticesThreadFunction2 vertices keep (order2 (getBatches keep.length batchCount))
        (VectorOfVectors.beginPass2 ((keptVertices vertices keep).map List.length))
      = .ok (keptVertices vertices keep) := by
  obtain ⟨st, hst, hsl, hsget⟩ := foldlM_copyVertex vertices keep hvalid
    (scheduledIds order2 keep.length)
    (VectorOfVectors.beginPass2 ((keptVertices vertices keep).map List.length))
    (fun i hi => (mem_scheduledIds order2 h2 _ i).1 hi)
    (by simp [VectorOfVectors.beginPass2, keptVertices_length])
    (by
      intro i hi
      simp [VectorOfVectors.beginPass2, kept_getElem? _ _ i hi])
  have hkept : st = keptVertices vertices keep := by
    apply List.ext_getElem?
    intro i
    by_cases hi : i < keep.length
    · rw [hsget i hi, if_pos ((mem_scheduledIds order2 h2 _ i).2 hi)]
    · rw [List.getElem?_eq_none (by omega),
        List.getElem?_eq_none (by rw [keptVertices_length]; omega)]
  simp only [removeVerticesThreadFunction2, foldlM_batches]
  simp only [scheduledIds] at hst
  rw [hst, hkept]

theorem repairPhase_ok (order3 : List (Nat × Nat) → List (Nat × Nat)) (h3 : IsSchedule order3)
    (vs : List (List MarkerId)) (table : List CompressedVertexId)
    (hrange : ∀ l ∈ vs, ∀ m ∈ l, m < table.length) :
    ∃ t, removeVerticesThreadFunction3 vs (order3 (getBatches vs.length batchCount))
        (Vector.fill table invalidCompressedVertexId) = .ok t ∧
      t.length = table.length ∧
      ∀ m, m < table.length →
        t[m]? = ownerAfter vs (scheduledIds order3 vs.length) m
          (some invalidCompressedVertexId) := by
  obtain ⟨t, ht, htl, htget⟩ := foldlM_repairVertex vs (scheduledIds order3 vs.length)
    (Vector.fill table invalidCompressedVertexId)
    (fun i hi => (mem_scheduledIds order3 h3 _ i).1 hi)
    (by
      intro i hi m hm
      have hi' : i < vs.length := (mem_scheduledIds order3 h3 _ i).1 hi
      rw [List.getElem?_eq_getElem hi'] at hm
      simp only [Vector.fill, List.length_replicate]
      exact hrange _ (List.getElem_mem hi') m hm)
  refine ⟨t, ?_, by simpa [Vector.fill] using htl, ?_⟩
  · simp only [removeVerticesThreadFunction3, foldlM_batches]
    simp only [scheduledIds] at ht
    exact ht
  · intro m hm
    rw [htget m]
    simp [Vector.fill, hm]

theorem kept_markersInRange (mg : MarkerGraph) (keep : List VertexId)
    (hrange : MarkersInRange mg) :
    ∀ l ∈ keptVertices mg.vertices keep, ∀ m ∈ l, m < mg.vertexTable.length := by
  intro l hl m hm
  obtain ⟨v, _, hv⟩ := List.mem_map.1 hl
  rw [← hv] at hm
  exact range_of_markersInRange mg hrange v m hm

/-! ## Disjoint write sets of the repair phase (C14) -/

/-- C14, as stated, fails.  The one vertex graph `{v0:[m0]}` satisfies the
partition invariant, `keep = [v0, v0]` holds only valid ids, and after
compaction marker m0 is in the lists of both new vertices, which therefore
write the same slot of the reverse index. -/
theorem removeVertices_write_sets_overlap :
    PartitionInvariant ⟨[[0]], [0], [], []⟩ ∧ MarkersInRange ⟨[[0]], [0], [], []⟩ ∧
    ValidKeep ⟨[[0]], [0], [], []⟩ [0, 0] ∧
    removeVerticesThreadFunction2 [[0]] [0, 0] (getBatches 2 batchCount)
      (VectorOfVectors.beginPass2 [1, 1]) = .ok [[0], [0]] ∧
    ∃ mg1, removeVertices ⟨[[0]], [0], [], []⟩ [0, 0] = .ok mg1 ∧
      mg1.vertices = [[0], [0]] ∧ ¬ DisjointLists mg1.vertices := by
  refine ⟨by decide, by decide, by decide, by decide,
    ⟨[[0], [0]], [1], [], []⟩, by decide, rfl, by decide⟩

/-- C14, amended.  For every old marker graph satisfying the partition
invariant and every `keep` of valid, pairwise distinct old vertex ids, the
count and copy phases complete, and after the copy phase no marker is contained
in the marker lists of two different new vertex ids; this is the vertex store
the repair phase works on, so no two new vertex ids write the same slot of the
reverse index. -/
theorem removeVertices_write_sets_disjoint (mg : MarkerGraph) (keep : List VertexId)
    (hinv : PartitionInvariant mg) (hrange : MarkersInRange mg)
    (hvalid : ValidKeep mg keep) (hnodup : keep.Nodup) :
    ∃ counts newVertices,
      removeVerticesThreadFunction1 mg.vertices keep (getBatches keep.length batchCount)
        (VectorOfVectors.beginPass1 keep.length) = .ok counts ∧
      removeVerticesThreadFunction2 mg.vertices keep (getBatches keep.length batchCount)
        (VectorOfVectors.beginPass2 counts) = .ok newVertices ∧
      DisjointLists newVertices ∧
      ∃ mg1, removeVertices mg keep = .ok mg1 ∧ mg1.vertices = newVertices := by
  obtain ⟨t, ht, _, _⟩ := removeVertices_ok mg keep hvalid hrange
  exact ⟨_, _, countPhase_ok id isSchedule_id mg.vertices keep hvalid,
    copyPhase_ok id isSchedule_id mg.vertices keep hvalid,
    kept_disjoint mg.vertices keep (disjoint_of_partitionInvariant mg hinv hrange) hvalid hnodup,
    _, ht, rfl⟩

/-- C14 amended, at the example of the specification with `keep = [v2, v0]`. -/
theorem removeVertices_write_sets_disjoint_witness :
    PartitionInvariant exampleGraph ∧ MarkersInRange exampleGraph ∧
    ValidKeep exampleGraph [2, 0] ∧ [2, 0].Nodup ∧
    ∃ counts newVertices,
      removeVerticesThreadFunction1 exampleGraph.vertices [2, 0]
        (getBatches [2, 0].length batchCount)
        (VectorOfVectors.beginPass1 [2, 0].length) = .ok counts ∧
      removeVerticesThreadFunction2 exampleGraph.vertices [2, 0]
        (getBatches [2, 0].length batchCount)
        (VectorOfVectors.beginPass2 counts) = .ok newVertices ∧
      DisjointLists newVertices ∧
      ∃ mg1, removeVertices exampleGraph [2, 0] = .ok mg1 ∧ mg1.vertices = newVertices :=
  ⟨by decide, by decide, by decide, by decide,
    removeVertices_write_sets_disjoint exampleGraph [2, 0] (by decide) (by decide)
      (by decide) (by decide)⟩

/-! ## Compactions compose (C16) -/

theorem keptVertices_keptVertices (vertices : List (List MarkerId)) (keep1 keep2 : List Nat)
    (hvalid2 : ∀ j ∈ keep2, j < keep1.length) :
    keptVertices (keptVertices vertices keep1) keep2
      = keptVertices vertices (keep2.map fun j => (keep1[j]?).getD 0) := by
  unfold keptVertices
  rw [List.map_map]
  apply List.map_congr_left
  intro j hj
  have hj1 : j < keep1.length := hvalid2 j hj
  simp [List.getElem?_eq_getElem hj1]

/-- C16. Compactions compose: for every marker graph, every `keep1` of valid
old vertex ids and every `keep2` of valid ids into the result of the first
compaction, `removeVertices(keep1)` followed by `removeVertices(keep2)`
completes and leaves the same vertex store and the same reverse index (the same
graph) as the single `removeVertices(keep)` on the original graph with
`keep[i] = keep1[keep2[i]]`. -/
theorem removeVertices_compose (mg : MarkerGraph) (keep1 keep2 : List VertexId)
    (hrange : MarkersInRange mg) (hvalid1 : ValidKeep mg keep1)
    (hvalid2 : ∀ j ∈ keep2, j < keep1.length) :
    ∃ mg1 mg2 mg3, removeVertices mg keep1 = .ok mg1 ∧
      removeVertices mg1 keep2 = .ok mg2 ∧
      removeVertices mg (keep2.map fun j => (keep1[j]?).getD 0) = .ok mg3 ∧
      mg2.vertices = mg3.vertices ∧ mg2.vertexTable = mg3.vertexTable ∧ mg2 = mg3 := by
  obtain ⟨t1, ht1, hl1, _⟩ := removeVertices_ok mg keep1 hvalid1 hrange
  have hrange1 : MarkersInRange
      { mg with vertices := keptVertices mg.vertices keep1, vertexTable := t1 } := by
    intro l hl m hm
    show m < t1.length
    rw [hl1]
    exact kept_markersInRange mg keep1 hrange l hl m hm
  have hvalid12 : ValidKeep
      { mg with vertices := keptVertices mg.vertices keep1, vertexTable := t1 } keep2 := by
    intro j hj
    show j < (keptVertices mg.vertices keep1).length
    rw [keptVertices_length]
    exact hvalid2 j hj
  obtain ⟨t2, ht2, hl2, hg2⟩ := removeVertices_ok _ keep2 hvalid12 hrange1
  have hvalid3 : ValidKeep mg (keep2.map fun j => (keep1[j]?).getD 0) := by
    intro v hv
    obtain ⟨j, hj, hjv⟩ := List.mem_map.1 hv
    have hj1 : j < keep1.length := hvalid2 j hj
    rw [← hjv, List.getElem?_eq_getElem hj1]
    exact hvalid1 _ (List.getElem_mem hj1)
  obtain ⟨t3, ht3, hl3, hg3⟩ := removeVertices_ok mg _ hvalid3 hrange
  have hvs := keptVertices_keptVertices mg.vertices keep1 keep2 hvalid2
  have htab : t2 = t3 := by
    apply List.ext_getElem?
    intro m
    have hl2' : t2.length = mg.vertexTable.length := by
      rw [← hl1]; exact hl2
    by_cases hm : m < mg.vertexTable.length
    · have h2 := hg2 m (show m < t1.length by rw [hl1]; exact hm)
      have h3 := hg3 m hm
      simp only [List.length_map] at h3
      rw [h2, h3]
      show ownerAfter (keptVertices (keptVertices mg.vertices keep1) keep2) _ _ _ = _
      rw [hvs]
    · rw [List.getElem?_eq_none (by omega), List.getElem?_eq_none (by omega)]
  refine ⟨_, _, _, ht1, ht2, ht3, hvs, htab, ?_⟩
  dsimp only
  rw [hvs, htab]

/-- C16, at the example of the specification: keeping `[v2, v0, v1]` and then
the new vertices `[1, 0]` is keeping `[v0, v2]`. -/
theorem removeVertices_compose_witness :
    MarkersInRange exampleGraph ∧ ValidKeep exampleGraph [2, 0, 1] ∧
    (∀ j ∈ [1, 0], j < [2, 0, 1].length) ∧
    (∃ mg1 mg2 mg3, removeVertices exampleGraph [2, 0, 1] = .ok mg1 ∧
      removeVertices mg1 [1, 0] = .ok mg2 ∧
      removeVertices exampleGraph ([1, 0].map fun j => ([2, 0, 1][j]?).getD 0) = .ok mg3 ∧
      mg2.vertices = mg3.vertices ∧ mg2.vertexTable = mg3.vertexTable ∧ mg2 = mg3) ∧
    ([1, 0].map fun j => (([2, 0, 1] : List Nat)[j]?).getD 0) = [0, 2] :=
  ⟨by decide, by decide, by decide,
    removeVertices_compose exampleGraph [2, 0, 1] [1, 0] (by decide) (by decide) (by decide),
    by decide⟩

/-! ## What compaction leaves alone (C17) -/

theorem writeMarkers_length (c : CompressedVertexId) :
    ∀ (ms : List MarkerId) (t t1 : List CompressedVertexId),
      writeMarkers c t ms = .ok t1 → t1.length = t.length := by
  intro ms
  induction ms with
  | nil =>
    intro t t1 h
    cases h
    rfl
  | cons a rest ih =>
    intro t t1 h
    unfold writeMarkers Vector.put at h
    by_cases ha : a < t.length
    · simp only [ha, if_true] at h
      have := ih _ _ h
      simpa using this
    · simp only [ha, if_false] at h
      cases h

theorem repairVertex_length (vs : List (List MarkerId)) (t t1 : List CompressedVertexId)
    (i : Nat) (h : repairVertex vs t i = .ok t1) : t1.length = t.length := by
  unfold repairVertex VectorOfVectors.get at h
  cases hv : vs[i]? with
  | none =>
    rw [hv] at h
    cases h
  | some l =>
    rw [hv] at h
    exact writeMarkers_length _ l t t1 h

theorem foldlM_repairVertex_length (vs : List (List MarkerId)) :
    ∀ (ids : List Nat) (t t1 : List CompressedVertexId),
      ids.foldlM (repairVertex vs) t = .ok t1 → t1.length = t.length := by
  intro ids
  induction ids with
  | nil =>
    intro t t1 h
    cases h
    rfl
  | cons a rest ih =>
    intro t t1 h
    rw [List.foldlM_cons] at h
    cases hstep : repairVertex vs t a with
    | error e =>
      rw [hstep] at h
      cases h
    | ok t0 =>
      rw [hstep] at h
      rw [ih t0 t1 h, repairVertex_length vs t t0 a hstep]

theorem removeVerticesWith_frame (order1 order2 order3 : List (Nat × Nat) → List (Nat × Nat))
    (mg mg1 : MarkerGraph) (keep : List VertexId)
    (h : removeVerticesWith order1 order2 order3 mg keep = .ok mg1) :
    mg1.edges = mg.edges ∧ mg1.edgesBySource = mg.edgesBySource ∧
      mg1.vertexTable.length = mg.vertexTable.length := by
  simp only [removeVerticesWith] at h
  cases h1 : removeVerticesThreadFunction1 mg.vertices keep
      (order1 (getBatches keep.length batchCount))
      (VectorOfVectors.beginPass1 keep.length) with
  | error e =>
    rw [h1] at h
    cases h
  | ok counts =>
    rw [h1] at h
    simp only [bind, Except.bind] at h
    cases h2 : removeVerticesThreadFunction2 mg.vertices keep
        (order2 (getBatches keep.length batchCount))
        (VectorOfVectors.beginPass2 counts) with
    | error e =>
      rw [h2] at h
      cases h
    | ok newVertices =>
      rw [h2] at h
      simp only [] at h
      cases h3 : removeVerticesThreadFunction3 newVertices
          (order3 (getBatches newVertices.length batchCount))
          (Vector.fill mg.vertexTable invalidCompressedVertexId) with
      | error e =>
        rw [h3] at h
        cases h
      | ok t =>
        rw [h3] at h
        have hmg : mg1 = { mg with vertices := newVertices, vertexTable := t } :=
          (Except.ok.inj h).symm
        subst hmg
        refine ⟨rfl, rfl, ?_⟩
        simp only [removeVerticesThreadFunction3, foldlM_batches] at h3
        have := foldlM_repairVertex_length newVertices _ _ _ h3
        simpa [Vector.fill] using this

theorem findEdge_congr (mg mg1 : MarkerGraph) (he : mg1.edges = mg.edges)
    (hs : mg1.edgesBySource = mg.edgesBySource) (source target : Nat) :
    findEdge mg1 source target = findEdge mg source target := by
  unfold findEdge
  rw [he, hs]

/-- C17. `removeVertices` rewrites only `vertices` and `vertexTable`: for every
marker graph and every valid `keep` it completes, and in its result the edge
array and `edgesBySource` are exactly what they were (so they still hold old
vertex ids), `vertexTable` has its old length, and `findEdge(s, t)` and
`findEdgeId(s, t)` return what they returned before, for every `(s, t)`. -/
theorem removeVertices_frame (mg : MarkerGraph) (keep : List VertexId)
    (hvalid : ValidKeep mg keep) (hrange : MarkersInRange mg) :
    (∃ mg1, removeVertices mg keep = .ok mg1) ∧
    ∀ mg1, removeVertices mg keep = .ok mg1 →
      mg1.edges = mg.edges ∧ mg1.edgesBySource = mg.edgesBySource ∧
      mg1.vertexTable.length = mg.vertexTable.length ∧
      (∀ s t, findEdge mg1 s t = findEdge mg s t) ∧
      (∀ s t, findEdgeId mg1 s t = findEdgeId mg s t) := by
  obtain ⟨t, ht, _, _⟩ := removeVertices_ok mg keep hvalid hrange
  refine ⟨⟨_, ht⟩, ?_⟩
  intro mg1 h
  obtain ⟨he, hs, hl⟩ := removeVerticesWith_frame id id id mg mg1 keep h
  refine ⟨he, hs, hl, fun s t => findEdge_congr mg mg1 he hs s t, ?_⟩
  intro s t
  unfold findEdgeId
  rw [findEdge_congr mg mg1 he hs s t]

/-- C17, at the example of the specification: after `keep = [v2, v0]` the
edge `0->2` is still found under the old ids. -/
theorem removeVertices_frame_witness :
    ValidKeep exampleGraph [2, 0] ∧ MarkersInRange exampleGraph ∧
    ((∃ mg1, removeVertices exampleGraph [2, 0] = .ok mg1) ∧
    ∀ mg1, removeVertices exampleGraph [2, 0] = .ok mg1 →
      mg1.edges = exampleGraph.edges ∧ mg1.edgesBySource = exampleGraph.edgesBySource ∧
      mg1.vertexTable.length = exampleGraph.vertexTable.length ∧
      (∀ s t, findEdge mg1 s t = findEdge exampleGraph s t) ∧
      (∀ s t, findEdgeId mg1 s t = findEdgeId exampleGraph s t)) ∧
    (removeVertices exampleGraph [2, 0]).map (fun g => findEdge g 0 2) = .ok (.ok (some 1)) :=
  ⟨by decide, by decide, removeVertices_frame exampleGraph [2, 0] (by decide) (by decide),
    by decide⟩

/-! ## No access outside the containers (C18) -/

/-- C18. Under the precondition of `removeVertices` (every marker id stored in
a vertex list is a slot of `vertexTable`, every id in `keep` is the id of an old
vertex) no phase takes an error branch, in whatever order the batches are
processed: the count phase completes and records for new id `i` exactly the
length of the list of old vertex `keep[i]`, which is the length of the slice
allocated for `i`; the copy phase completes; the repair phase completes; and so
does `removeVertices`. -/
theorem removeVertices_in_bounds (order1 order2 order3 : List (Nat × Nat) → List (Nat × Nat))
    (h1 : IsSchedule order1) (h2 : IsSchedule order2) (h3 : IsSchedule order3)
    (mg : MarkerGraph) (keep : List VertexId)
    (hrange : MarkersInRange mg) (hvalid : ValidKeep mg keep) :
    ∃ counts newVertices vertexTable,
      removeVerticesThreadFunction1 mg.vertices keep
        (order1 (getBatches keep.length batchCount))
        (VectorOfVectors.beginPass1 keep.length) = .ok counts ∧
      (∀ i (hi : i < keep.length), ∃ l, mg.vertices[keep[i]]? = some l ∧
        counts[i]? = some l.length ∧
        ((VectorOfVectors.beginPass2 counts)[i]?).map List.length = some l.length) ∧
      removeVerticesThreadFunction2 mg.vertices keep
        (order2 (getBatches keep.length batchCount))
        (VectorOfVectors.beginPass2 counts) = .ok newVertices ∧
      removeVerticesThreadFunction3 newVertices
        (order3 (getBatches newVertices.length batchCount))
        (Vector.fill mg.vertexTable invalidCompressedVertexId) = .ok vertexTable ∧
      removeVerticesWith order1 order2 order3 mg keep
        = .ok { mg with vertices := newVertices, vertexTable := vertexTable } ∧
      ∃ mg1, removeVertices mg keep = .ok mg1 := by
  have hp1 := countPhase_ok order1 h1 mg.vertices keep hvalid
  have hp2 := copyPhase_ok order2 h2 mg.vertices keep hvalid
  obtain ⟨t, hp3, _, _⟩ := repairPhase_ok order3 h3 (keptVertices mg.vertices keep)
    mg.vertexTable (kept_markersInRange mg keep hrange)
  have hall : removeVerticesWith order1 order2 order3 mg keep
      = .ok { mg with vertices := keptVertices mg.vertices keep, vertexTable := t } := by
    simp only [removeVerticesWith, hp1, bind, Except.bind, hp2, hp3]
    rfl
  obtain ⟨t0, ht0, _, _⟩ := removeVertices_ok mg keep hvalid hrange
  refine ⟨_, _, t, hp1, ?_, hp2, hp3, hall, _, ht0⟩
  · intro i hi
    have hv : keep[i] < mg.vertices.length := hvalid _ (List.getElem_mem hi)
    refine ⟨mg.vertices[keep[i]], List.getElem?_eq_getElem hv, ?_, ?_⟩
    · simp [kept_getElem? _ _ i hi, List.getElem?_eq_getElem hv]
    · simp [VectorOfVectors.beginPass2, kept_getElem? _ _ i hi, List.getElem?_eq_getElem hv]

/-- C18, at the example of the specification with every phase taking its
batches in reverse order. -/
theorem removeVertices_in_bounds_witness :
    IsSchedule List.reverse ∧ MarkersInRange exampleGraph ∧ ValidKeep exampleGraph [2, 0] ∧
    ∃ counts newVertices vertexTable,
      removeVerticesThreadFunction1 exampleGraph.vertices [2, 0]
        (List.reverse (getBatches [2, 0].length batchCount))
        (VectorOfVectors.beginPass1 [2, 0].length) = .ok counts ∧
      (∀ i (hi : i < [2, 0].length), ∃ l, exampleGraph.vertices[[2, 0][i]]? = some l ∧
        counts[i]? = some l.length ∧
        ((VectorOfVectors.beginPass2 counts)[i]?).map List.length = some l.length) ∧
      removeVerticesThreadFunction2 exampleGraph.vertices [2, 0]
        (List.reverse (getBatches [2, 0].length batchCount))
        (VectorOfVectors.beginPass2 counts) = .ok newVertices ∧
      removeVerticesThreadFunction3 newVertices
        (List.reverse (getBatches newVertices.length batchCount))
        (Vector.fill exampleGraph.vertexTable invalidCompressedVertexId) = .ok vertexTable ∧
      removeVerticesWith List.reverse List.reverse List.reverse exampleGraph [2, 0]
        = .ok { exampleGraph with vertices := newVertices, vertexTable := vertexTable } ∧
      ∃ mg1, removeVertices exampleGraph [2, 0] = .ok mg1 :=
  ⟨fun l => List.reverse_perm l, by decide, by decide,
    removeVertices_in_bounds List.reverse List.reverse List.reverse
      (fun l => List.reverse_perm l) (fun l => List.reverse_perm l)
      (fun l => List.reverse_perm l) exampleGraph [2, 0] (by decide) (by decide)⟩

end MarkerGraph

namespace MetaMarkerGraph

/-! ## The map of pseudo-paths -/

theorem pathOf_setPath_same (r : OrientedReadId) (p : PseudoPath) :
    ∀ ps : PseudoPaths, pathOf (setPath ps r p) r = p := by
  intro ps
  induction ps with
  | nil => simp [setPath, pathOf]
  | cons x rest ih =>
    obtain ⟨r1, p1⟩ := x
    unfold setPath
    by_cases h1 : r < r1
    · simp [h1, pathOf]
    · by_cases h2 : r = r1
      · simp [h2, pathOf]
      · have h3 : ¬ r1 = r := fun e => h2 e.symm
        simp [h1, h2, pathOf, h3, ih]

theorem pathOf_setPath_other (r r2 : OrientedReadId) (p : PseudoPath) (hne : r2 ≠ r) :
    ∀ ps : PseudoPaths, pathOf (setPath ps r p) r2 = pathOf ps r2 := by
  intro ps
  have hne' : ¬ r = r2 := fun e => hne e.symm
  induction ps with
  | nil => simp [setPath, pathOf, hne']
  | cons x rest ih =>
    obtain ⟨r1, p1⟩ := x
    unfold setPath
    by_cases h1 : r < r1
    · simp [h1, pathOf, hne']
    · by_cases h2 : r = r1
      · subst h2
        simp [pathOf, hne']
      · simp only [h1, h2, if_false, pathOf, ih]

theorem mem_keys_setPath (r r2 : OrientedReadId) (p : PseudoPath) :
    ∀ ps : PseudoPaths,
      r2 ∈ (setPath ps r p).map Prod.fst ↔ r2 = r ∨ r2 ∈ ps.map Prod.fst := by
  intro ps
  induction ps with
  | nil => simp [setPath]
  | cons x rest ih =>
    obtain ⟨r1, p1⟩ := x
    unfold setPath
    by_cases h1 : r < r1
    · simp [h1]
    · by_cases h2 : r = r1
      · subst h2
        simp
      · simp only [h1, h2, if_false, List.map_cons, List.mem_cons, ih]
        tauto

theorem sortedKeys_setPath (r : OrientedReadId) (p : PseudoPath) :
    ∀ ps : PseudoPaths, SortedKeys ps → SortedKeys (setPath ps r p) := by
  intro ps
  induction ps with
  | nil => intro _; simp [setPath, SortedKeys]
  | cons x rest ih =>
    obtain ⟨r1, p1⟩ := x
    intro hs
    have hs' := List.pairwise_cons.1 hs
    unfold setPath
    by_cases h1 : r < r1
    · simp only [h1, if_true]
      refine List.pairwise_cons.2 ⟨?_, hs⟩
      intro y hy
      rcases List.mem_cons.1 hy with e | hy'
      · rw [e]; exact h1
      · exact lt_trans h1 (hs'.1 y hy')
    · by_cases h2 : r = r1
      · subst h2
        simp only [lt_irrefl, if_false, if_true]
        exact List.pairwise_cons.2 ⟨hs'.1, hs'.2⟩
      · simp only [h1, h2, if_false]
        refine List.pairwise_cons.2 ⟨?_, ih hs'.2⟩
        intro y hy
        have hk : y.1 ∈ (setPath rest r p).map Prod.fst := List.mem_map_of_mem _ hy
        rcases (mem_keys_setPath r y.1 p rest).1 hk with e | hk'
        · rw [e]
          exact Nat.lt_of_le_of_ne (Nat.le_of_not_lt h1) (fun e => h2 e.symm)
        · obtain ⟨z, hz, hzy⟩ := List.mem_map.1 hk'
          rw [← hzy]
          exact hs'.1 z hz

theorem pathOf_of_mem :
    ∀ ps : PseudoPaths, SortedKeys ps → ∀ r p, (r, p) ∈ ps → pathOf ps r = p := by
  intro ps
  induction ps with
  | nil => intro _ r p h; simp at h
  | cons x rest ih =>
    obtain ⟨r1, p1⟩ := x
    intro hs r p hmem
    have hs' := List.pairwise_cons.1 hs
    rcases List.mem_cons.1 hmem with e | hm
    · cases e
      simp [pathOf]
    · have hlt : r1 < r := hs'.1 (r, p) hm
      have hne : ¬ r1 = r := Nat.ne_of_lt hlt
      simp only [pathOf, hne, if_false]
      exact ih hs'.2 r p hm

theorem mem_of_mem_keys :
    ∀ (ps : PseudoPaths) r, r ∈ ps.map Prod.fst → (r, pathOf ps r) ∈ ps := by
  intro ps
  induction ps with
  | nil => intro r h; simp at h
  | cons x rest ih =>
    obtain ⟨r1, p1⟩ := x
    intro r h
    by_cases e : r1 = r
    · subst e
      simp [pathOf]
    · have h' : r ∈ rest.map Prod.fst := by
        rcases List.mem_cons.1 h with e1 | h1
        · exact absurd e1.symm e
        · exact h1
      simp only [pathOf, e, if_false]
      exact List.mem_cons_of_mem _ (ih r h')

/-! ## Storing one visit -/

theorem storeVisit_ok (path : PseudoPath) (k v : Nat) (hk : k < 2 ^ 64 - 1) :
    ∃ p, storeVisit path k v = .ok p ∧ p.length = max path.length (k + 1) ∧
      ∀ j, p[j]? = if j = k then some (some v)
        else if j < path.length then path[j]?
        else if j ≤ k then some none else none := by
  have hmod : (k + 1) % 2 ^ 64 = k + 1 := Nat.mod_eq_of_lt (by omega)
  by_cases hle : path.length ≤ k
  · have hlen : (resize path (k + 1)).length = k + 1 := by
      simp [resize]; omega
    refine ⟨(resize path (k + 1)).set k (some v), ?_, ?_, ?_⟩
    · simp only [storeVisit, hle, if_true, hmod]
      simp [hlen]
    · simp [hlen]; omega
    · intro j
      rw [List.getElem?_set]
      by_cases hj : j = k
      · subst hj
        simp [hlen]
      · have hj' : ¬ k = j := fun e => hj e.symm
        simp only [hj, hj', if_false]
        have htake : List.take (k + 1) path = path := List.take_of_length_le (by omega)
        by_cases hjl : j < path.length
        · simp [resize, htake, hjl, List.getElem?_append_left hjl]
        · have hge : path.length ≤ j := by omega
          simp only [resize, htake, hjl, if_false]
          rw [List.getElem?_append_right hge, List.getElem?_replicate]
          by_cases hjk : j ≤ k
          · have : j - path.length < k + 1 - path.length := by omega
            simp [hjk, this]
          · have : ¬ j - path.length < k + 1 - path.length := by omega
            simp [hjk, this]
  · have hlt : k < path.length := by omega
    refine ⟨path.set k (some v), ?_, ?_, ?_⟩
    · simp [storeVisit, hle, hlt]
    · simp; omega
    · intro j
      rw [List.getElem?_set]
      by_cases hj : j = k
      · subst hj
        simp [hlt]
      · have hj' : ¬ k = j := fun e => hj e.symm
        simp only [hj, hj', if_false]
        by_cases hjl : j < path.length
        · simp [hjl]
        · have : ¬ j ≤ k := by omega
          simp [hjl, this, List.getElem?_eq_none (show path.length ≤ j by omega)]

/-! ## The pseudo-paths after the scatter loop -/

theorem lengthOf_concat (visits : List (Nat × OrientedReadId × Nat)) (v r k r2 : Nat) :
    lengthOf (visits ++ [(v, r, k)]) r2
      = if r = r2 then max (lengthOf visits r2) (k + 1) else lengthOf visits r2 := by
  simp [lengthOf, List.foldl_append]

theorem slotOf_concat (visits : List (Nat × OrientedReadId × Nat)) (v r k r2 j : Nat) :
    slotOf (visits ++ [(v, r, k)]) r2 j
      = if r = r2 ∧ k = j then some v else slotOf visits r2 j := by
  simp [slotOf, List.foldl_append]

theorem lt_lengthOf_iff (r j : Nat) :
    ∀ visits : List (Nat × OrientedReadId × Nat),
      j < lengthOf visits r ↔ ∃ v k, (v, r, k) ∈ visits ∧ j ≤ k := by
  intro visits
  induction visits using List.reverseRecOn with
  | nil => simp [lengthOf]
  | append_singleton visits x ih =>
    obtain ⟨v1, r1, k1⟩ := x
    rw [lengthOf_concat]
    by_cases h : r1 = r
    · subst h
      rw [if_pos rfl, lt_max_iff, ih]
      constructor
      · rintro (⟨v, k, hm, hjk⟩ | hlt)
        · exact ⟨v, k, List.mem_append_left _ hm, hjk⟩
        · exact ⟨v1, k1, List.mem_append_right _ (List.mem_singleton.2 rfl), by omega⟩
      · rintro ⟨v, k, hm, hjk⟩
        rcases List.mem_append.1 hm with hm1 | hm2
        · exact Or.inl ⟨v, k, hm1, hjk⟩
        · have e := List.mem_singleton.1 hm2
          have ek : k = k1 := (Prod.mk.inj (Prod.mk.inj e).2).2
          right; omega
    · rw [if_neg h, ih]
      constructor
      · rintro ⟨v, k, hm, hjk⟩
        exact ⟨v, k, List.mem_append_left _ hm, hjk⟩
      · rintro ⟨v, k, hm, hjk⟩
        rcases List.mem_append.1 hm with hm1 | hm2
        · exact ⟨v, k, hm1, hjk⟩
        · have e := List.mem_singleton.1 hm2
          have er : r = r1 := (Prod.mk.inj (Prod.mk.inj e).2).1
          exact absurd er.symm h

theorem slotOf_eq_none_iff (r j : Nat) :
    ∀ visits : List (Nat × OrientedReadId × Nat),
      slotOf visits r j = none ↔ ∀ v, (v, r, j) ∉ visits := by
  intro visits
  induction visits using List.reverseRecOn with
  | nil => simp [slotOf]
  | append_singleton visits x ih =>
    obtain ⟨v1, r1, k1⟩ := x
    rw [slotOf_concat]
    by_cases h : r1 = r ∧ k1 = j
    · obtain ⟨h1, h2⟩ := h
      subst h1; subst h2
      rw [if_pos ⟨rfl, rfl⟩]
      constructor
      · intro hc; cases hc
      · intro hall
        exact absurd (List.mem_append_right _ (List.mem_singleton.2 rfl)) (hall v1)
    · rw [if_neg h, ih]
      constructor
      · intro hall v hm
        rcases List.mem_append.1 hm with hm1 | hm2
        · exact hall v hm1
        · have e := List.mem_singleton.1 hm2
          have er : r = r1 := (Prod.mk.inj (Prod.mk.inj e).2).1
          have ek : j = k1 := (Prod.mk.inj (Prod.mk.inj e).2).2
          exact h ⟨er.symm, ek.symm⟩
      · intro hall v hm
        exact hall v (List.mem_append_left _ hm)

theorem slotOf_of_lengthOf_le (visits : List (Nat × OrientedReadId × Nat)) (r j : Nat)
    (h : lengthOf visits r ≤ j) : slotOf visits r j = none := by
  rw [slotOf_eq_none_iff]
  intro v hm
  have : j < lengthOf visits r := (lt_lengthOf_iff r j visits).2 ⟨v, j, hm, le_refl j⟩
  omega

theorem pathsOf_nil : PathsOf [] [] := by
  refine ⟨List.Pairwise.nil, ?_, ?_, ?_⟩
  · intro r; simp
  · intro r; simp [pathOf, lengthOf]
  · intro r j h; simp [lengthOf] at h

theorem pathsOf_step (ps : PseudoPaths) (visits : List (Nat × OrientedReadId × Nat))
    (h : PathsOf ps visits) (v r k : Nat) (hk : k < 2 ^ 64 - 1) :
    ∃ p, storeVisit (pathOf ps r) k v = .ok p ∧
      PathsOf (setPath ps r p) (visits ++ [(v, r, k)]) := by
  obtain ⟨hsorted, hkeys, hlen, hslot⟩ := h
  obtain ⟨p, hp, hpl, hpget⟩ := storeVisit_ok (pathOf ps r) k v hk
  refine ⟨p, hp, sortedKeys_setPath r p ps hsorted, ?_, ?_, ?_⟩
  · intro r2
    rw [mem_keys_setPath, hkeys]
    simp only [List.mem_append, List.mem_singleton, Prod.mk.injEq]
    constructor
    · rintro (e | ⟨v2, k2, hm⟩)
      · exact ⟨v, k, Or.inr ⟨rfl, e, rfl⟩⟩
      · exact ⟨v2, k2, Or.inl hm⟩
    · rintro ⟨v2, k2, hm | ⟨_, hr, _⟩⟩
      · exact Or.inr ⟨v2, k2, hm⟩
      · exact Or.inl hr
  · intro r2
    rw [lengthOf_concat]
    by_cases e : r = r2
    · subst e
      rw [pathOf_setPath_same, hpl, hlen, if_pos rfl]
    · rw [pathOf_setPath_other r r2 p (fun e2 => e e2.symm), hlen, if_neg e]
  · intro r2 j hj
    rw [lengthOf_concat] at hj
    rw [slotOf_concat]
    by_cases e : r = r2
    · subst e
      rw [if_pos rfl] at hj
      rw [pathOf_setPath_same, hpget j]
      by_cases hjk : j = k
      · subst hjk
        simp
      · have hkj : ¬ k = j := fun e => hjk e.symm
        simp only [hjk, hkj, and_false, if_false, true_and]
        by_cases hjl : j < (pathOf ps r).length
        · rw [if_pos hjl]
          exact hslot r j (by rw [← hlen]; exact hjl)
        · have hle : j ≤ k := by
            rw [hlen] at hjl
            rcases lt_max_iff.1 hj with h1 | h1
            · exact absurd h1 hjl
            · omega
          rw [if_neg hjl, if_pos hle, slotOf_of_lengthOf_le visits r j (by rw [← hlen]; omega)]
    · rw [if_neg e] at hj
      have e' : ¬ (r = r2 ∧ k = j) := fun h => e h.1
      rw [pathOf_setPath_other r r2 p (fun e2 => e e2.symm), if_neg e']
      exact hslot r2 j hj

theorem scatterVertex_ok (v : Nat) :
    ∀ (reads : List (OrientedReadId × Nat)) (ps : PseudoPaths)
      (visits : List (Nat × OrientedReadId × Nat)),
      PathsOf ps visits → (∀ p ∈ reads, p.2 < 2 ^ 64 - 1) →
      ∃ ps1, scatterVertex v ps reads = .ok ps1 ∧
        PathsOf ps1 (visits ++ reads.map (fun p => (v, p.1, p.2))) := by
  intro reads
  induction reads with
  | nil =>
    intro ps visits h _
    exact ⟨ps, rfl, by simpa using h⟩
  | cons x rest ih =>
    obtain ⟨r, k⟩ := x
    intro ps visits h hord
    obtain ⟨p, hp, hpaths⟩ := pathsOf_step ps visits h v r k (hord (r, k) (List.mem_cons_self _ _))
    obtain ⟨ps1, hps1, hfinal⟩ := ih (setPath ps r p) (visits ++ [(v, r, k)]) hpaths
      (fun q hq => hord q (List.mem_cons_of_mem _ hq))
    refine ⟨ps1, ?_, ?_⟩
    · simp only [scatterVertex, hp]
      exact hps1
    · simpa [List.append_assoc] using hfinal

theorem scatterVertices_ok :
    ∀ (vertices : List MetaMarkerGraphVertex) (v : Nat) (ps : PseudoPaths)
      (visits : List (Nat × OrientedReadId × Nat)),
      PathsOf ps visits →
      (∀ vertex ∈ vertices, ∀ p ∈ vertex.orientedReads, p.2 < 2 ^ 64 - 1) →
      ∃ ps1, scatterVertices v ps vertices = .ok ps1 ∧
        PathsOf ps1 (visits ++ visitsFrom v vertices) := by
  intro vertices
  induction vertices with
  | nil =>
    intro v ps visits h _
    exact ⟨ps, rfl, by simpa [visitsFrom] using h⟩
  | cons vertex rest ih =>
    intro v ps visits h hord
    obtain ⟨ps0, hps0, hpaths⟩ := scatterVertex_ok v vertex.orientedReads ps visits h
      (hord vertex (List.mem_cons_self _ _))
    obtain ⟨ps1, hps1, hfinal⟩ := ih (v + 1) ps0 _ hpaths
      (fun w hw => hord w (List.mem_cons_of_mem _ hw))
    refine ⟨ps1, ?_, ?_⟩
    · simp only [scatterVertices, hps0]
      exact hps1
    · simpa [visitsFrom, List.append_assoc] using hfinal

/-! ## The check of the pseudo-paths -/

theorem checkPseudoPath_cases :
    ∀ p : PseudoPath, (checkPseudoPath p = .ok () ∧ none ∉ p) ∨
      (checkPseudoPath p = .error .assertionFailed ∧ none ∈ p) := by
  intro p
  induction p with
  | nil => left; exact ⟨rfl, by simp⟩
  | cons x rest ih =>
    by_cases hx : x = none
    · right
      subst hx
      exact ⟨by simp [checkPseudoPath], List.mem_cons_self _ _⟩
    · rcases ih with ⟨h1, h2⟩ | ⟨h1, h2⟩
      · left
        refine ⟨by simp [checkPseudoPath, hx, h1], ?_⟩
        intro hm
        rcases List.mem_cons.1 hm with e | hm'
        · exact hx e.symm
        · exact h2 hm'
      · right
        exact ⟨by simp [checkPseudoPath, hx, h1], List.mem_cons_of_mem _ h2⟩

theorem checkPseudoPaths_cases :
    ∀ ps : PseudoPaths, (checkPseudoPaths ps = .ok () ∧ ∀ x ∈ ps, none ∉ x.2) ∨
      (checkPseudoPaths ps = .error .assertionFailed ∧ ∃ x ∈ ps, none ∈ x.2) := by
  intro ps
  induction ps with
  | nil => left; exact ⟨rfl, by simp⟩
  | cons x rest ih =>
    obtain ⟨r, p⟩ := x
    rcases checkPseudoPath_cases p with ⟨hp, hnone⟩ | ⟨hp, hnone⟩
    · rcases ih with ⟨h1, h2⟩ | ⟨h1, h2⟩
      · left
        refine ⟨by simp [checkPseudoPaths, hp, h1], ?_⟩
        intro y hy
        rcases List.mem_cons.1 hy with e | hy'
        · rw [e]; exact hnone
        · exact h2 y hy'
      · right
        obtain ⟨y, hy, hyn⟩ := h2
        exact ⟨by simp [checkPseudoPaths, hp, h1], y, List.mem_cons_of_mem _ hy, hyn⟩
    · right
      exact ⟨by simp [checkPseudoPaths, hp], (r, p), List.mem_cons_self _ _, hnone⟩

theorem mem_visitsFrom (r k : Nat) :
    ∀ (vertices : List MetaMarkerGraphVertex) (v0 : Nat),
      (∃ v, (v, r, k) ∈ visitsFrom v0 vertices) ↔
        ∃ vertex ∈ vertices, (r, k) ∈ vertex.orientedReads := by
  intro vertices
  induction vertices with
  | nil => intro v0; simp [visitsFrom]
  | cons vertex rest ih =>
    intro v0
    constructor
    · rintro ⟨v, hm⟩
      rcases List.mem_append.1 hm with h1 | h2
      · obtain ⟨q, hq, hqe⟩ := List.mem_map.1 h1
        have e2 := (Prod.mk.inj hqe).2
        have e : q = (r, k) := Prod.ext (Prod.mk.inj e2).1 (Prod.mk.inj e2).2
        rw [e] at hq
        exact ⟨vertex, List.mem_cons_self _ _, hq⟩
      · obtain ⟨w, hw, hwr⟩ := (ih (v0 + 1)).1 ⟨v, h2⟩
        exact ⟨w, List.mem_cons_of_mem _ hw, hwr⟩
    · rintro ⟨w, hw, hwr⟩
      rcases List.mem_cons.1 hw with e | hw'
      · subst e
        exact ⟨v0, List.mem_append_left _ (List.mem_map.2 ⟨(r, k), hwr, rfl⟩)⟩
      · obtain ⟨v, hv⟩ := (ih (v0 + 1)).2 ⟨w, hw', hwr⟩
        exact ⟨v, List.mem_append_right _ hv⟩

theorem null_slot_iff_gap (graph : MetaMarkerGraph) (ps : PseudoPaths)
    (h : PathsOf ps (visitsFrom 0 graph.vertices)) :
    (∃ x ∈ ps, none ∈ x.2) ↔ HasGap graph := by
  obtain ⟨hsorted, hkeys, hlen, hslot⟩ := h
  constructor
  · rintro ⟨⟨r, p⟩, hmem, hnone⟩
    have hp : pathOf ps r = p := pathOf_of_mem ps hsorted r p hmem
    obtain ⟨j, hj⟩ := List.mem_iff_getElem?.1 hnone
    have hjl : j < p.length := (List.getElem?_eq_some.1 hj).1
    have hjlen : j < lengthOf (visitsFrom 0 graph.vertices) r := by
      rw [← hlen, hp]; exact hjl
    have hs := hslot r j hjlen
    rw [hp] at hs
    simp only [] at hj
    rw [hj] at hs
    have hsn : slotOf (visitsFrom 0 graph.vertices) r j = none := (Option.some.inj hs).symm
    have hnot := (slotOf_eq_none_iff r j _).1 hsn
    obtain ⟨v, k, hvk, hjk⟩ := (lt_lengthOf_iff r j _).1 hjlen
    have hne : j ≠ k := by
      intro e
      subst e
      exact hnot v hvk
    refine ⟨r, j, k, by omega, (mem_visitsFrom r k _ 0).1 ⟨v, hvk⟩, ?_⟩
    intro hrec
    obtain ⟨w, hw⟩ := (mem_visitsFrom r j _ 0).2 hrec
    exact hnot w hw
  · rintro ⟨r, j, k, hjk, hrk, hnrj⟩
    obtain ⟨v, hv⟩ := (mem_visitsFrom r k _ 0).2 hrk
    have hkey : r ∈ ps.map Prod.fst := (hkeys r).2 ⟨v, k, hv⟩
    have hjlen : j < lengthOf (visitsFrom 0 graph.vertices) r :=
      (lt_lengthOf_iff r j _).2 ⟨v, k, hv, by omega⟩
    have hsn : slotOf (visitsFrom 0 graph.vertices) r j = none := by
      rw [slotOf_eq_none_iff]
      intro w hw
      exact hnrj ((mem_visitsFrom r j _ 0).1 ⟨w, hw⟩)
    have hs := hslot r j hjlen
    rw [hsn] at hs
    exact ⟨(r, pathOf ps r), mem_of_mem_keys ps r hkey, List.mem_iff_getElem?.2 ⟨j, hs⟩⟩

/-! ## Abort on a gap in ordinal coverage (C10) -/

/-- C10 at the largest 64 bit ordinal.  In `wrapExample` traversal 0 is
recorded at ordinal `2^64-1` and at no smaller ordinal, so its coverage has a
gap and the assertion of lines 41-46 should fail.  The sum `metaOrdinal+1` of
line 31 wraps to 0, the pseudo-path is resized to no slot at all, and line 35
stores the vertex outside the vector: `createEdges` ends in the scatter loop
with an access outside a container and never reaches the assertion. -/
theorem createEdges_largest_ordinal :
    HasGap wrapExample ∧
    (2 ^ 64 - 1 + 1) % 2 ^ 64 = 0 ∧
    resize [] ((2 ^ 64 - 1 + 1) % 2 ^ 64) = [] ∧
    storeVisit [] (2 ^ 64 - 1) 0 = .error .outOfBounds ∧
    scatterVertices 0 [] wrapExample.vertices = .error .outOfBounds ∧
    createEdges wrapExample = .error .outOfBounds ∧
    createEdges wrapExample ≠ .error .assertionFailed := by
  refine ⟨⟨0, 0, 2 ^ 64 - 1, by decide, by decide, by decide⟩, by decide, by decide,
    by decide, by decide, by decide, by decide⟩

/-- Where `createEdges` does what C10 states: for every input whose ordinals
are below the largest 64 bit value (so that `metaOrdinal+1` does not wrap),
`createEdges` aborts with a failed assertion if and only if some traversal has
a gap in ordinal coverage; on a gap the pseudo-paths are built and it is their
check, which precedes the creation of edges, that fails; without a gap
`createEdges` completes and produces the graph, on the same vertices. -/
theorem createEdges_abort_iff_gap (graph : MetaMarkerGraph) (hord : OrdinalsInRange graph) :
    (createEdges graph = .error .assertionFailed ↔ HasGap graph) ∧
    (HasGap graph → ∃ pseudoPaths, scatterVertices 0 [] graph.vertices = .ok pseudoPaths ∧
      checkPseudoPaths pseudoPaths = .error .assertionFailed) ∧
    (¬ HasGap graph → ∃ graph1, createEdges graph = .ok graph1 ∧
      graph1.vertices = graph.vertices) := by
  obtain ⟨ps, hps, hpaths⟩ := scatterVertices_ok graph.vertices 0 [] [] pathsOf_nil hord
  rw [List.nil_append] at hpaths
  have hgap := null_slot_iff_gap graph ps hpaths
  rcases checkPseudoPaths_cases ps with ⟨hcheck, hnone⟩ | ⟨hcheck, hsome⟩
  · have hno : ¬ HasGap graph := by
      intro hg
      obtain ⟨x, hx, hxn⟩ := hgap.2 hg
      exact hnone x hx hxn
    have hok : createEdges graph
        = .ok { graph with edges := createEdgesOfPaths graph.edges ps } := by
      simp [createEdges, hps, hcheck]
    refine ⟨?_, fun hg => absurd hg hno, fun _ => ⟨_, hok, rfl⟩⟩
    rw [hok]
    constructor
    · intro h; cases h
    · intro hg; exact absurd hg hno
  · have hg : HasGap graph := hgap.1 hsome
    have herr : createEdges graph = .error .assertionFailed := by
      simp [createEdges, hps, hcheck]
    exact ⟨⟨fun _ => hg, fun _ => herr⟩, fun _ => ⟨ps, hps, hcheck⟩, fun hn => absurd hg hn⟩

/-- The abort on a gap at an input with a gap (ordinal 1 of traversal 0 is
recorded nowhere, ordinal 2 is): `createEdges` fails its assertion; and at the
same input with the gap filled it completes. -/
theorem createEdges_abort_iff_gap_witness :
    OrdinalsInRange gapExample ∧
    ((createEdges gapExample = .error .assertionFailed ↔ HasGap gapExample) ∧
    (HasGap gapExample → ∃ pseudoPaths,
      scatterVertices 0 [] gapExample.vertices = .ok pseudoPaths ∧
      checkPseudoPaths pseudoPaths = .error .assertionFailed) ∧
    (¬ HasGap gapExample → ∃ graph1, createEdges gapExample = .ok graph1 ∧
      graph1.vertices = gapExample.vertices)) ∧
    HasGap gapExample ∧ createEdges gapExample = .error .assertionFailed ∧
    (createEdges pathExample).map (fun g => g.edges.length) = .ok 4 :=
  ⟨by decide, createEdges_abort_iff_gap gapExample (by decide),
    ⟨0, 1, 2, by decide, by decide, by decide⟩, by decide, by decide⟩

end MetaMarkerGraph

namespace MetaMarkerGraph

/-! ## Storing an ordinal in an edge -/

theorem edgePairs_storeOrdinal (v0 v1 : VertexDescriptor) (x : OrientedReadId × Nat) :
    ∀ es : List MetaMarkerGraphEdge,
      edgePairs (storeOrdinal v0 v1 x es)
        = if (v0, v1) ∈ edgePairs es then edgePairs es else edgePairs es ++ [(v0, v1)] := by
  intro es
  induction es with
  | nil => simp [storeOrdinal, edgePairs]
  | cons e rest ih =>
    by_cases h : e.source = v0 ∧ e.target = v1
    · have hmem : (v0, v1) ∈ edgePairs (e :: rest) := by
        simp [edgePairs, h.1, h.2]
      rw [if_pos hmem]
      simp [storeOrdinal, h, edgePairs]
    · have hne : ¬ (v0, v1) = (e.source, e.target) := by
        intro heq
        exact h ⟨(Prod.mk.inj heq).1.symm, (Prod.mk.inj heq).2.symm⟩
      have hstep : storeOrdinal v0 v1 x (e :: rest) = e :: storeOrdinal v0 v1 x rest := by
        simp [storeOrdinal, h]
      rw [hstep]
      show (e.source, e.target) :: edgePairs (storeOrdinal v0 v1 x rest) = _
      rw [ih]
      by_cases hr : (v0, v1) ∈ edgePairs rest
      · have hmem : (v0, v1) ∈ edgePairs (e :: rest) := List.mem_cons_of_mem _ hr
        rw [if_pos hr, if_pos hmem]
        rfl
      · have hnmem : (v0, v1) ∉ edgePairs (e :: rest) := by
          intro hm
          rcases List.mem_cons.1 hm with h1 | h1
          · exact hne h1
          · exact hr h1
        rw [if_neg hr, if_neg hnmem]
        rfl

theorem attribution_storeOrdinal (v0 v1 : VertexDescriptor) (x : OrientedReadId × Nat)
    (a b : VertexDescriptor) :
    ∀ es : List MetaMarkerGraphEdge,
      attribution a b (storeOrdinal v0 v1 x es)
        = if a = v0 ∧ b = v1 then attribution a b es ++ [x] else attribution a b es := by
  intro es
  induction es with
  | nil =>
    by_cases h : a = v0 ∧ b = v1
    · simp [storeOrdinal, attribution, h.1, h.2]
    · have h' : ¬ (v0 = a ∧ v1 = b) := fun hh => h ⟨hh.1.symm, hh.2.symm⟩
      simp [storeOrdinal, attribution, h, h']
  | cons e rest ih =>
    by_cases h : e.source = v0 ∧ e.target = v1
    · have hstep : storeOrdinal v0 v1 x (e :: rest)
          = { e with orientedReads := e.orientedReads ++ [x] } :: rest := by
        simp [storeOrdinal, h]
      rw [hstep]
      by_cases hab : a = v0 ∧ b = v1
      · have hm : e.source = a ∧ e.target = b := ⟨h.1.trans hab.1.symm, h.2.trans hab.2.symm⟩
        simp [attribution, hm, hab]
      · have hm : ¬ (e.source = a ∧ e.target = b) :=
          fun hh => hab ⟨hh.1.symm.trans h.1, hh.2.symm.trans h.2⟩
        simp [attribution, hm, hab]
    · have hstep : storeOrdinal v0 v1 x (e :: rest) = e :: storeOrdinal v0 v1 x rest := by
        simp [storeOrdinal, h]
      rw [hstep]
      by_cases hm : e.source = a ∧ e.target = b
      · have hab : ¬ (a = v0 ∧ b = v1) :=
          fun hh => h ⟨hm.1.trans hh.1, hm.2.trans hh.2⟩
        simp [attribution, hm, hab]
      · simp only [attribution, hm, if_false, ih]

theorem attribution_of_mem :
    ∀ es : List MetaMarkerGraphEdge, NoParallelEdges es → ∀ e ∈ es,
      attribution e.source e.target es = e.orientedReads := by
  intro es
  induction es with
  | nil => intro _ e he; simp at he
  | cons e0 rest ih =>
    intro hnd e he
    have hnd' : (e0.source, e0.target) ∉ edgePairs rest ∧ (edgePairs rest).Nodup :=
      List.nodup_cons.1 hnd
    rcases List.mem_cons.1 he with h | h
    · subst h
      simp [attribution]
    · have hne : ¬ (e0.source = e.source ∧ e0.target = e.target) := by
        intro hh
        apply hnd'.1
        have : (e.source, e.target) ∈ edgePairs rest :=
          List.mem_map.2 ⟨e, h, rfl⟩
        rw [hh.1, hh.2]
        exact this
      simp only [attribution, hne, if_false]
      exact ih hnd'.2 e h

theorem edgesExtend_refl (es : List MetaMarkerGraphEdge) : EdgesExtend es es :=
  fun _ e h => ⟨e, h, rfl, rfl, List.prefix_refl _⟩

theorem edgesExtend_trans (es1 es2 es3 : List MetaMarkerGraphEdge)
    (h12 : EdgesExtend es1 es2) (h23 : EdgesExtend es2 es3) : EdgesExtend es1 es3 := by
  intro i e he
  obtain ⟨e2, he2, hs2, ht2, hp2⟩ := h12 i e he
  obtain ⟨e3, he3, hs3, ht3, hp3⟩ := h23 i e2 he2
  exact ⟨e3, he3, hs3.trans hs2, ht3.trans ht2, List.IsPrefix.trans hp2 hp3⟩

theorem edgesExtend_storeOrdinal (v0 v1 : VertexDescriptor) (x : OrientedReadId × Nat) :
    ∀ es : List MetaMarkerGraphEdge, EdgesExtend es (storeOrdinal v0 v1 x es) := by
  intro es
  induction es with
  | nil => intro i e he; simp at he
  | cons e0 rest ih =>
    intro i e he
    by_cases h : e0.source = v0 ∧ e0.target = v1
    · have hstep : storeOrdinal v0 v1 x (e0 :: rest)
          = { e0 with orientedReads := e0.orientedReads ++ [x] } :: rest := by
        simp [storeOrdinal, h]
      rw [hstep]
      cases i with
      | zero =>
        have : e0 = e := by simpa using he
        subst this
        exact ⟨{ e0 with orientedReads := e0.orientedReads ++ [x] }, by simp, rfl, rfl,
          List.prefix_append _ _⟩
      | succ j =>
        exact ⟨e, by simpa using he, rfl, rfl, List.prefix_refl _⟩
    · have hstep : storeOrdinal v0 v1 x (e0 :: rest) = e0 :: storeOrdinal v0 v1 x rest := by
        simp [storeOrdinal, h]
      rw [hstep]
      cases i with
      | zero =>
        have : e0 = e := by simpa using he
        subst this
        exact ⟨e0, by simp, rfl, rfl, List.prefix_refl _⟩
      | succ j =>
        have he' : rest[j]? = some e := by simpa using he
        obtain ⟨e1, he1, hs, ht, hp⟩ := ih j e he'
        exact ⟨e1, by simpa using he1, hs, ht, hp⟩

/-! ## Storing a sequence of steps -/

theorem applySteps_cons (es : List MetaMarkerGraphEdge)
    (s : VertexDescriptor × VertexDescriptor × (OrientedReadId × Nat))
    (steps : List (VertexDescriptor × VertexDescriptor × (OrientedReadId × Nat))) :
    applySteps es (s :: steps) = applySteps (storeOrdinal s.1 s.2.1 s.2.2 es) steps := rfl

theorem applySteps_append (es : List MetaMarkerGraphEdge)
    (s1 s2 : List (VertexDescriptor × VertexDescriptor × (OrientedReadId × Nat))) :
    applySteps es (s1 ++ s2) = applySteps (applySteps es s1) s2 := by
  simp [applySteps, List.foldl_append]

theorem createEdgesOfPath_eq (r : OrientedReadId) :
    ∀ (p : PseudoPath) (k : Nat) (es : List MetaMarkerGraphEdge),
      createEdgesOfPath r k es p = applySteps es (stepsOfPath r k p) := by
  intro p
  induction p with
  | nil => intro k es; rfl
  | cons v0 rest ih =>
    intro k es
    cases rest with
    | nil => rfl
    | cons v1 rest1 =>
      simp only [createEdgesOfPath, stepsOfPath, applySteps_cons]
      exact ih (k + 1) _

theorem createEdgesOfPaths_eq :
    ∀ (ps : PseudoPaths) (es : List MetaMarkerGraphEdge),
      createEdgesOfPaths es ps = applySteps es (stepsOfPaths ps) := by
  intro ps
  induction ps with
  | nil => intro es; rfl
  | cons x rest ih =>
    obtain ⟨r, p⟩ := x
    intro es
    simp only [createEdgesOfPaths, stepsOfPaths, applySteps_append, createEdgesOfPath_eq]
    exact ih _

theorem noParallelEdges_applySteps :
    ∀ (steps : List (VertexDescriptor × VertexDescriptor × (OrientedReadId × Nat)))
      (es : List MetaMarkerGraphEdge),
      NoParallelEdges es → NoParallelEdges (applySteps es steps) := by
  intro steps
  induction steps with
  | nil => intro es h; exact h
  | cons s rest ih =>
    intro es h
    rw [applySteps_cons]
    apply ih
    unfold NoParallelEdges at h ⊢
    rw [edgePairs_storeOrdinal]
    by_cases hm : (s.1, s.2.1) ∈ edgePairs es
    · rw [if_pos hm]; exact h
    · rw [if_neg hm]
      exact List.Nodup.append h (List.nodup_singleton _)
        (by
          intro p hp hp1
          rw [List.mem_singleton.1 hp1] at hp
          exact hm hp)

theorem mem_edgePairs_applySteps (q : VertexDescriptor × VertexDescriptor) :
    ∀ (steps : List (VertexDescriptor × VertexDescriptor × (OrientedReadId × Nat)))
      (es : List MetaMarkerGraphEdge),
      q ∈ edgePairs (applySteps es steps) ↔
        q ∈ edgePairs es ∨ q ∈ steps.map (fun s => (s.1, s.2.1)) := by
  intro steps
  induction steps with
  | nil => intro es; simp [applySteps]
  | cons s rest ih =>
    intro es
    rw [applySteps_cons, ih, edgePairs_storeOrdinal]
    by_cases hm : (s.1, s.2.1) ∈ edgePairs es
    · rw [if_pos hm]
      simp only [List.map_cons, List.mem_cons]
      constructor
      · rintro (h | h)
        · exact Or.inl h
        · exact Or.inr (Or.inr h)
      · rintro (h | h | h)
        · exact Or.inl h
        · left; rw [h]; exact hm
        · exact Or.inr h
    · rw [if_neg hm]
      simp only [List.map_cons, List.mem_cons, List.mem_append, List.mem_singleton]
      tauto

theorem attribution_applySteps (a b : VertexDescriptor) :
    ∀ (steps : List (VertexDescriptor × VertexDescriptor × (OrientedReadId × Nat)))
      (es : List MetaMarkerGraphEdge),
      attribution a b (applySteps es steps)
        = attribution a b es
          ++ (steps.filter fun s => decide (s.1 = a ∧ s.2.1 = b)).map (fun s => s.2.2) := by
  intro steps
  induction steps with
  | nil => intro es; simp [applySteps]
  | cons s rest ih =>
    intro es
    rw [applySteps_cons, ih, attribution_storeOrdinal]
    by_cases h : s.1 = a ∧ s.2.1 = b
    · have h' : a = s.1 ∧ b = s.2.1 := ⟨h.1.symm, h.2.symm⟩
      rw [if_pos h']
      simp [List.filter_cons, h]
    · have h' : ¬ (a = s.1 ∧ b = s.2.1) := fun hh => h ⟨hh.1.symm, hh.2.symm⟩
      rw [if_neg h']
      simp [List.filter_cons, h]

theorem edgesExtend_applySteps :
    ∀ (steps : List (VertexDescriptor × VertexDescriptor × (OrientedReadId × Nat)))
      (es : List MetaMarkerGraphEdge), EdgesExtend es (applySteps es steps) := by
  intro steps
  induction steps with
  | nil => intro es; exact edgesExtend_refl es
  | cons s rest ih =>
    intro es
    rw [applySteps_cons]
    exact edgesExtend_trans _ _ _ (edgesExtend_storeOrdinal _ _ _ es) (ih _)

/-! ## The run of `createEdges` -/

theorem createEdges_ok_inv (graph graph1 : MetaMarkerGraph)
    (h : createEdges graph = .ok graph1) :
    ∃ ps, scatterVertices 0 [] graph.vertices = .ok ps ∧ checkPseudoPaths ps = .ok () ∧
      graph1 = { graph with edges := applySteps graph.edges (stepsOfPaths ps) } := by
  unfold createEdges at h
  cases hs : scatterVertices 0 [] graph.vertices with
  | error e =>
    rw [hs] at h
    cases h
  | ok ps =>
    rw [hs] at h
    dsimp only at h
    cases hc : checkPseudoPaths ps with
    | error e =>
      rw [hc] at h
      cases h
    | ok u =>
      rw [hc] at h
      refine ⟨ps, rfl, hc, ?_⟩
      rw [← createEdgesOfPaths_eq]
      exact (Except.ok.inj h).symm

theorem createEdges_of_no_gap (graph : MetaMarkerGraph) (hord : OrdinalsInRange graph)
    (hgap : ¬ HasGap graph) :
    ∃ ps, scatterVertices 0 [] graph.vertices = .ok ps ∧
      PathsOf ps (visitsFrom 0 graph.vertices) ∧ (∀ x ∈ ps, none ∉ x.2) ∧
      createEdges graph
        = .ok { graph with edges := applySteps graph.edges (stepsOfPaths ps) } := by
  obtain ⟨ps, hps, hpaths⟩ := scatterVertices_ok graph.vertices 0 [] [] pathsOf_nil hord
  rw [List.nil_append] at hpaths
  have hiff := null_slot_iff_gap graph ps hpaths
  rcases checkPseudoPaths_cases ps with ⟨hcheck, hnone⟩ | ⟨_, hsome⟩
  · refine ⟨ps, hps, hpaths, hnone, ?_⟩
    rw [← createEdgesOfPaths_eq]
    simp [createEdges, hps, hcheck]
  · exact absurd (hiff.1 hsome) hgap

theorem hasGap_iff_bounded (graph : MetaMarkerGraph) :
    HasGap graph ↔
      ∃ vertex ∈ graph.vertices, ∃ p ∈ vertex.orientedReads, ∃ j, j < p.2 ∧
        ¬ Recorded graph p.1 j := by
  constructor
  · rintro ⟨r, j, k, hjk, ⟨vertex, hv, hp⟩, hnot⟩
    exact ⟨vertex, hv, (r, k), hp, j, hjk, hnot⟩
  · rintro ⟨vertex, hv, ⟨r, k⟩, hp, j, hjk, hnot⟩
    exact ⟨r, j, k, hjk, ⟨vertex, hv, hp⟩, hnot⟩

/-! ## The vertices are left alone (C13) -/

/-- C13. `createEdges` leaves the vertex set untouched: for every input on
which it completes, the graph after the call has exactly the vertices it had
before, in the same order and each with unchanged `vertexId`, `segmentId`,
`markerCount` and `orientedReads`; edges are only added and attribution lists
only grow. -/
theorem createEdges_vertices (graph graph1 : MetaMarkerGraph)
    (h : createEdges graph = .ok graph1) :
    graph1.vertices = graph.vertices ∧
    (∀ (v : Nat) (vertex : MetaMarkerGraphVertex), graph.vertices[v]? = some vertex →
      ∃ vertex1, graph1.vertices[v]? = some vertex1 ∧
        vertex1.vertexId = vertex.vertexId ∧ vertex1.segmentId = vertex.segmentId ∧
        vertex1.markerCount = vertex.markerCount ∧
        vertex1.orientedReads = vertex.orientedReads) ∧
    EdgesExtend graph.edges graph1.edges := by
  obtain ⟨ps, _, _, hg⟩ := createEdges_ok_inv graph graph1 h
  subst hg
  exact ⟨rfl, fun v vertex hv => ⟨vertex, hv, rfl, rfl, rfl, rfl⟩,
    edgesExtend_applySteps _ _⟩

/-- C13, at two traversals that both step from vertex 0 to vertex 1. -/
theorem createEdges_vertices_witness :
    createEdges aggregationExample
      = .ok ⟨aggregationExample.vertices, [⟨some 0, some 1, [(0, 0), (1, 0)]⟩]⟩ ∧
    ((⟨aggregationExample.vertices, [⟨some 0, some 1, [(0, 0), (1, 0)]⟩]⟩ :
        MetaMarkerGraph).vertices = aggregationExample.vertices ∧
    (∀ (v : Nat) (vertex : MetaMarkerGraphVertex),
      aggregationExample.vertices[v]? = some vertex →
      ∃ vertex1, (⟨aggregationExample.vertices, [⟨some 0, some 1, [(0, 0), (1, 0)]⟩]⟩ :
          MetaMarkerGraph).vertices[v]? = some vertex1 ∧
        vertex1.vertexId = vertex.vertexId ∧ vertex1.segmentId = vertex.segmentId ∧
        vertex1.markerCount = vertex.markerCount ∧
        vertex1.orientedReads = vertex.orientedReads) ∧
    EdgesExtend aggregationExample.edges
      (⟨aggregationExample.vertices, [⟨some 0, some 1, [(0, 0), (1, 0)]⟩]⟩ :
        MetaMarkerGraph).edges) :=
  ⟨by decide, createEdges_vertices aggregationExample _ (by decide)⟩

/-! ## No duplicate parallel edges (C12) -/

theorem noParallelEdges_index (es : List MetaMarkerGraphEdge) (h : NoParallelEdges es)
    (i j : Nat) (e1 e2 : MetaMarkerGraphEdge) (h1 : es[i]? = some e1) (h2 : es[j]? = some e2)
    (hs : e1.source = e2.source) (ht : e1.target = e2.target) : i = j := by
  obtain ⟨hi, hei⟩ := List.getElem?_eq_some.1 h1
  obtain ⟨hj, hej⟩ := List.getElem?_eq_some.1 h2
  have hi' : i < (edgePairs es).length := by simpa [edgePairs] using hi
  have hj' : j < (edgePairs es).length := by simpa [edgePairs] using hj
  have heq : (edgePairs es)[i] = (edgePairs es)[j] := by
    simp only [edgePairs, List.getElem_map, hei, hej, hs, ht]
  exact (List.Nodup.getElem_inj_iff h).1 heq

/-- C12. `createEdges` never creates duplicate parallel edges: for every
gap-free input on a graph that has at most one edge per ordered vertex pair
before the call (in particular no edges), `createEdges` completes and there is
at most one edge for every ordered vertex pair `(a, b)`, `a = b` included. -/
theorem createEdges_no_parallel_edges (graph : MetaMarkerGraph)
    (hord : OrdinalsInRange graph) (hgap : ¬ HasGap graph)
    (hbefore : NoParallelEdges graph.edges) :
    ∃ graph1, createEdges graph = .ok graph1 ∧ NoParallelEdges graph1.edges ∧
      ∀ (i j : Nat) (e1 e2 : MetaMarkerGraphEdge), graph1.edges[i]? = some e1 →
        graph1.edges[j]? = some e2 → e1.source = e2.source → e1.target = e2.target →
        i = j := by
  obtain ⟨ps, _, _, _, hok⟩ := createEdges_of_no_gap graph hord hgap
  have hnd : NoParallelEdges (applySteps graph.edges (stepsOfPaths ps)) :=
    noParallelEdges_applySteps _ _ hbefore
  exact ⟨_, hok, hnd, noParallelEdges_index _ hnd⟩

/-- C12, at two traversals that both step from vertex 0 to vertex 1: one edge
`0 -> 1` results. -/
theorem createEdges_no_parallel_edges_witness :
    OrdinalsInRange aggregationExample ∧ ¬ HasGap aggregationExample ∧
    NoParallelEdges aggregationExample.edges ∧
    (∃ graph1, createEdges aggregationExample = .ok graph1 ∧
      NoParallelEdges graph1.edges ∧
      ∀ (i j : Nat) (e1 e2 : MetaMarkerGraphEdge), graph1.edges[i]? = some e1 →
        graph1.edges[j]? = some e2 → e1.source = e2.source → e1.target = e2.target →
        i = j) ∧
    (createEdges aggregationExample).map (fun g => edgePairs g.edges)
      = .ok [(some 0, some 1)] :=
  ⟨by decide, (hasGap_iff_bounded _).not.2 (by decide), by decide,
    createEdges_no_parallel_edges aggregationExample (by decide)
      ((hasGap_iff_bounded _).not.2 (by decide)) (by decide), by decide⟩

/-! ## Conflicting ordinals (C20) -/

/-- C20. Conflicting ordinals are not detected.  In `conflictExample` the pair
(traversal 0, ordinal 1) is recorded on the vertices at positions 1 and 2 and
the coverage of the ordinals has no gap; `createEdges` does not abort; slot 1
of the reconstructed path holds vertex 2, the later one in vertex iteration
order; the edges are `0 -> 2` and `2 -> 3`, so vertex 1 is an end point of no
edge although it records the visit. -/
theorem createEdges_conflict_undetected :
    RecordedOn conflictExample 1 0 1 ∧ RecordedOn conflictExample 2 0 1 ∧
    ¬ HasGap conflictExample ∧ OrdinalsInRange conflictExample ∧
    scatterVertices 0 [] conflictExample.vertices = .ok [(0, [some 0, some 2, some 3])] ∧
    createEdges conflictExample
      = .ok ⟨conflictExample.vertices,
          [⟨some 0, some 2, [(0, 0)]⟩, ⟨some 2, some 3, [(0, 1)]⟩]⟩ ∧
    ∀ graph1, createEdges conflictExample = .ok graph1 →
      ∀ e ∈ graph1.edges, e.source ≠ some 1 ∧ e.target ≠ some 1 := by
  refine ⟨by decide, by decide, (hasGap_iff_bounded _).not.2 (by decide), by decide,
    by decide, by decide, ?_⟩
  intro graph1 h
  have hval : createEdges conflictExample
      = .ok ⟨conflictExample.vertices,
          [⟨some 0, some 2, [(0, 0)]⟩, ⟨some 2, some 3, [(0, 1)]⟩]⟩ := by decide
  rw [hval] at h
  have hg := (Except.ok.inj h).symm
  subst hg
  decide

/-! ## The steps of the pseudo-paths -/

theorem mem_stepsOfPath (r : OrientedReadId)
    (s : VertexDescriptor × VertexDescriptor × (OrientedReadId × Nat)) :
    ∀ (p : PseudoPath) (k0 : Nat),
      s ∈ stepsOfPath r k0 p ↔
        ∃ i, p[i]? = some s.1 ∧ p[i + 1]? = some s.2.1 ∧ s.2.2 = (r, k0 + i) := by
  intro p
  induction p with
  | nil =>
    intro k0
    simp [stepsOfPath]
  | cons v0 rest ih =>
    intro k0
    cases rest with
    | nil =>
      simp [stepsOfPath]
    | cons v1 rest1 =>
      have hstep : stepsOfPath r k0 (v0 :: v1 :: rest1)
          = (v0, v1, (r, k0)) :: stepsOfPath r (k0 + 1) (v1 :: rest1) := rfl
      rw [hstep, List.mem_cons, ih (k0 + 1)]
      constructor
      · rintro (h | ⟨i, h1, h2, h3⟩)
        · subst h
          exact ⟨0, by simp, by simp, rfl⟩
        · refine ⟨i + 1, ?_, ?_, ?_⟩
          · simpa using h1
          · simpa using h2
          · rw [h3]
            congr 1
            omega
      · rintro ⟨i, h1, h2, h3⟩
        cases i with
        | zero =>
          left
          have e1 : v0 = s.1 := by simpa using h1
          have e2 : v1 = s.2.1 := by simpa using h2
          have e3 : s.2.2 = (r, k0) := by simpa using h3
          obtain ⟨a, b, c⟩ := s
          simp only at e1 e2 e3
          rw [e1, e2, e3]
        | succ j =>
          right
          refine ⟨j, ?_, ?_, ?_⟩
          · simpa using h1
          · simpa using h2
          · rw [h3]
            congr 1
            omega

theorem mem_stepsOfPaths (s : VertexDescriptor × VertexDescriptor × (OrientedReadId × Nat)) :
    ∀ ps : PseudoPaths,
      s ∈ stepsOfPaths ps ↔
        ∃ r p i, (r, p) ∈ ps ∧ p[i]? = some s.1 ∧ p[i + 1]? = some s.2.1 ∧
          s.2.2 = (r, i) := by
  intro ps
  induction ps with
  | nil => simp [stepsOfPaths]
  | cons x rest ih =>
    obtain ⟨r0, p0⟩ := x
    rw [stepsOfPaths, List.mem_append, mem_stepsOfPath, ih]
    constructor
    · rintro (⟨i, h1, h2, h3⟩ | ⟨r, p, i, hm, h1, h2, h3⟩)
      · exact ⟨r0, p0, i, List.mem_cons_self _ _, h1, h2, by simpa using h3⟩
      · exact ⟨r, p, i, List.mem_cons_of_mem _ hm, h1, h2, h3⟩
    · rintro ⟨r, p, i, hm, h1, h2, h3⟩
      rcases List.mem_cons.1 hm with e | hm'
      · cases e
        exact Or.inl ⟨i, h1, h2, by simpa using h3⟩
      · exact Or.inr ⟨r, p, i, hm', h1, h2, h3⟩

theorem pairwise_stepsOfPath (r : OrientedReadId) :
    ∀ (p : PseudoPath) (k0 : Nat),
      List.Pairwise (fun s t => EntryLt s.2.2 t.2.2) (stepsOfPath r k0 p) := by
  intro p
  induction p with
  | nil => intro k0; exact List.Pairwise.nil
  | cons v0 rest ih =>
    intro k0
    cases rest with
    | nil => exact List.Pairwise.nil
    | cons v1 rest1 =>
      have hstep : stepsOfPath r k0 (v0 :: v1 :: rest1)
          = (v0, v1, (r, k0)) :: stepsOfPath r (k0 + 1) (v1 :: rest1) := rfl
      rw [hstep]
      refine List.Pairwise.cons ?_ (ih (k0 + 1))
      intro t ht
      obtain ⟨i, _, _, h3⟩ := (mem_stepsOfPath r t _ _).1 ht
      right
      rw [h3]
      exact ⟨rfl, by show k0 < k0 + 1 + i; omega⟩

theorem pairwise_stepsOfPaths :
    ∀ ps : PseudoPaths, SortedKeys ps →
      List.Pairwise (fun s t => EntryLt s.2.2 t.2.2) (stepsOfPaths ps) := by
  intro ps
  induction ps with
  | nil => intro _; exact List.Pairwise.nil
  | cons x rest ih =>
    obtain ⟨r0, p0⟩ := x
    intro hs
    have hs' := List.pairwise_cons.1 hs
    rw [stepsOfPaths]
    refine List.pairwise_append.2 ⟨pairwise_stepsOfPath r0 p0 0, ih hs'.2, ?_⟩
    intro s hsm t htm
    obtain ⟨i, _, _, h3⟩ := (mem_stepsOfPath r0 s _ _).1 hsm
    obtain ⟨r, p, j, hm, _, _, h4⟩ := (mem_stepsOfPaths t rest).1 htm
    left
    rw [h3, h4]
    exact hs'.1 (r, p) hm

theorem entryLt_ne (x y : OrientedReadId × Nat) (h : EntryLt x y) : x ≠ y := by
  intro e
  subst e
  rcases h with h | ⟨_, h⟩
  · exact Nat.lt_irrefl _ h
  · exact Nat.lt_irrefl _ h

theorem pairwise_attribution_steps (ps : PseudoPaths) (hs : SortedKeys ps)
    (a b : VertexDescriptor) :
    List.Pairwise EntryLt
      (((stepsOfPaths ps).filter fun s => decide (s.1 = a ∧ s.2.1 = b)).map fun s => s.2.2) := by
  rw [List.pairwise_map]
  exact List.Pairwise.filter _ (pairwise_stepsOfPaths ps hs)

theorem pathOf_of_not_mem_keys :
    ∀ (ps : PseudoPaths) (r : OrientedReadId), r ∉ ps.map Prod.fst → pathOf ps r = [] := by
  intro ps
  induction ps with
  | nil => intro r _; rfl
  | cons x rest ih =>
    obtain ⟨r1, p1⟩ := x
    intro r h
    have h1 : ¬ r1 = r := fun e => h (by simp [e])
    have h2 : r ∉ rest.map Prod.fst := fun hm => h (List.mem_cons_of_mem _ hm)
    simp only [pathOf, h1, if_false]
    exact ih r h2

/-- Under sorted keys, a step of the pseudo-paths is a pair of successive slots
of the path found under its traversal id. -/
theorem mem_stepsOfPaths_iff (ps : PseudoPaths) (hs : SortedKeys ps)
    (a b : VertexDescriptor) (r : OrientedReadId) (k : Nat) :
    (a, b, (r, k)) ∈ stepsOfPaths ps ↔
      (pathOf ps r)[k]? = some a ∧ (pathOf ps r)[k + 1]? = some b := by
  rw [mem_stepsOfPaths]
  constructor
  · rintro ⟨r1, p, i, hm, h1, h2, h3⟩
    have e := Prod.mk.inj h3
    simp only at e
    obtain ⟨er, ek⟩ := e
    subst er; subst ek
    rw [pathOf_of_mem ps hs r p hm]
    exact ⟨h1, h2⟩
  · rintro ⟨h1, h2⟩
    by_cases hk : r ∈ ps.map Prod.fst
    · exact ⟨r, pathOf ps r, k, mem_of_mem_keys ps r hk, h1, h2, rfl⟩
    · rw [pathOf_of_not_mem_keys ps r hk] at h1
      simp at h1

/-! ## The slots and the visits recorded on the vertices -/

theorem mem_of_slotOf_eq_some (r j v : Nat) :
    ∀ visits : List (Nat × OrientedReadId × Nat),
      slotOf visits r j = some v → (v, r, j) ∈ visits := by
  intro visits
  induction visits using List.reverseRecOn with
  | nil => intro h; simp [slotOf] at h
  | append_singleton visits x ih =>
    obtain ⟨v1, r1, k1⟩ := x
    rw [slotOf_concat]
    by_cases h : r1 = r ∧ k1 = j
    · rw [if_pos h]
      intro hv
      have e : v1 = v := Option.some.inj hv
      rw [← e, ← h.1, ← h.2]
      exact List.mem_append_right _ (List.mem_singleton.2 rfl)
    · rw [if_neg h]
      intro hv
      exact List.mem_append_left _ (ih hv)

theorem slotOf_of_unique (visits : List (Nat × OrientedReadId × Nat)) (r j v : Nat)
    (huniq : ∀ w, (w, r, j) ∈ visits → w = v) (hm : (v, r, j) ∈ visits) :
    slotOf visits r j = some v := by
  cases hs : slotOf visits r j with
  | none => exact absurd hm ((slotOf_eq_none_iff r j visits).1 hs v)
  | some w => rw [huniq w (mem_of_slotOf_eq_some r j w visits hs)]

theorem mem_visitsFrom_iff (r k : Nat) :
    ∀ (vertices : List MetaMarkerGraphVertex) (v0 v : Nat),
      (v, r, k) ∈ visitsFrom v0 vertices ↔
        v0 ≤ v ∧ (r, k) ∈ ((vertices[v - v0]?).map fun vertex => vertex.orientedReads).getD [] := by
  intro vertices
  induction vertices with
  | nil => intro v0 v; simp [visitsFrom]
  | cons vertex rest ih =>
    intro v0 v
    rw [visitsFrom, List.mem_append, ih (v0 + 1) v]
    constructor
    · rintro (h | ⟨hle, h⟩)
      · obtain ⟨q, hq, hqe⟩ := List.mem_map.1 h
        have e1 : v0 = v := (Prod.mk.inj hqe).1
        have e2 := (Prod.mk.inj hqe).2
        have e : q = (r, k) := Prod.ext (Prod.mk.inj e2).1 (Prod.mk.inj e2).2
        subst e1
        rw [e] at hq
        refine ⟨le_refl _, ?_⟩
        simpa using hq
      · refine ⟨by omega, ?_⟩
        have hidx : v - v0 = (v - (v0 + 1)) + 1 := by omega
        rw [hidx]
        simpa using h
    · rintro ⟨hle, h⟩
      by_cases hv : v = v0
      · subst hv
        left
        have hq : (r, k) ∈ vertex.orientedReads := by simpa using h
        exact List.mem_map.2 ⟨(r, k), hq, rfl⟩
      · right
        refine ⟨by omega, ?_⟩
        have hidx : v - v0 = (v - (v0 + 1)) + 1 := by omega
        rw [hidx] at h
        simpa using h

theorem mem_visits_iff_recordedOn (graph : MetaMarkerGraph) (v r k : Nat) :
    (v, r, k) ∈ visitsFrom 0 graph.vertices ↔ RecordedOn graph v r k := by
  rw [mem_visitsFrom_iff]
  simp [RecordedOn]

theorem lt_length_of_recordedOn (graph : MetaMarkerGraph) (v r k : Nat)
    (h : RecordedOn graph v r k) : v < graph.vertices.length := by
  unfold RecordedOn at h
  by_contra hv
  rw [List.getElem?_eq_none (by omega)] at h
  simp at h

theorem visits_unique (graph : MetaMarkerGraph) (huniq : UniquelyRecorded graph)
    (v w r k : Nat) (hv : (v, r, k) ∈ visitsFrom 0 graph.vertices)
    (hw : (w, r, k) ∈ visitsFrom 0 graph.vertices) : w = v := by
  have hv' := (mem_visits_iff_recordedOn graph v r k).1 hv
  have hw' := (mem_visits_iff_recordedOn graph w r k).1 hw
  exact huniq w (lt_length_of_recordedOn graph w r k hw') v
    (lt_length_of_recordedOn graph v r k hv') (r, k) hw' hv'

theorem pathOf_getElem_iff (ps : PseudoPaths) (visits : List (Nat × OrientedReadId × Nat))
    (h : PathsOf ps visits) (r k : Nat) (a : VertexDescriptor) :
    (pathOf ps r)[k]? = some a ↔ k < lengthOf visits r ∧ a = slotOf visits r k := by
  obtain ⟨_, _, hlen, hslot⟩ := h
  constructor
  · intro hk
    have hlt : k < lengthOf visits r := by
      rw [← hlen]
      exact (List.getElem?_eq_some.1 hk).1
    have := hslot r k hlt
    rw [hk] at this
    exact ⟨hlt, Option.some.inj this⟩
  · rintro ⟨hlt, ha⟩
    rw [ha]
    exact hslot r k hlt

theorem step_iff_recorded (graph : MetaMarkerGraph) (ps : PseudoPaths)
    (hpaths : PathsOf ps (visitsFrom 0 graph.vertices)) (huniq : UniquelyRecorded graph)
    (A B r k : Nat) :
    (some A, some B, (r, k)) ∈ stepsOfPaths ps ↔
      RecordedOn graph A r k ∧ RecordedOn graph B r (k + 1) := by
  rw [mem_stepsOfPaths_iff ps hpaths.1, pathOf_getElem_iff ps _ hpaths,
    pathOf_getElem_iff ps _ hpaths]
  constructor
  · rintro ⟨⟨_, h1⟩, ⟨_, h2⟩⟩
    exact ⟨(mem_visits_iff_recordedOn graph A r k).1 (mem_of_slotOf_eq_some r k A _ h1.symm),
      (mem_visits_iff_recordedOn graph B r (k + 1)).1
        (mem_of_slotOf_eq_some r (k + 1) B _ h2.symm)⟩
  · rintro ⟨h1, h2⟩
    have m1 := (mem_visits_iff_recordedOn graph A r k).2 h1
    have m2 := (mem_visits_iff_recordedOn graph B r (k + 1)).2 h2
    refine ⟨⟨(lt_lengthOf_iff r k _).2 ⟨A, k, m1, le_refl _⟩, ?_⟩,
      ⟨(lt_lengthOf_iff r (k + 1) _).2 ⟨B, k + 1, m2, le_refl _⟩, ?_⟩⟩
    · exact (slotOf_of_unique _ r k A
        (fun w hw => visits_unique graph huniq A w r k m1 hw) m1).symm
    · exact (slotOf_of_unique _ r (k + 1) B
        (fun w hw => visits_unique graph huniq B w r (k + 1) m2 hw) m2).symm

theorem orientedReads_of_mem_applySteps
    (steps : List (VertexDescriptor × VertexDescriptor × (OrientedReadId × Nat)))
    (e : MetaMarkerGraphEdge) (he : e ∈ applySteps [] steps) :
    e.orientedReads
      = (steps.filter fun s => decide (s.1 = e.source ∧ s.2.1 = e.target)).map
          (fun s => s.2.2) := by
  have hnd : NoParallelEdges (applySteps [] steps) :=
    noParallelEdges_applySteps steps [] List.nodup_nil
  rw [← attribution_of_mem _ hnd e he, attribution_applySteps]
  rfl

theorem mem_orientedReads_iff
    (steps : List (VertexDescriptor × VertexDescriptor × (OrientedReadId × Nat)))
    (e : MetaMarkerGraphEdge) (he : e ∈ applySteps [] steps) (x : OrientedReadId × Nat) :
    x ∈ e.orientedReads ↔ (e.source, e.target, x) ∈ steps := by
  rw [orientedReads_of_mem_applySteps steps e he, List.mem_map]
  constructor
  · rintro ⟨s, hs, hx⟩
    obtain ⟨hmem, hp⟩ := List.mem_filter.1 hs
    have hp' : s.1 = e.source ∧ s.2.1 = e.target := by simpa using hp
    obtain ⟨a, b, c⟩ := s
    simp only at hp' hx
    rw [← hp'.1, ← hp'.2, ← hx]
    exact hmem
  · intro hm
    exact ⟨(e.source, e.target, x), List.mem_filter.2 ⟨hm, by simp⟩, rfl⟩

theorem step_of_mem_applySteps
    (steps : List (VertexDescriptor × VertexDescriptor × (OrientedReadId × Nat)))
    (e : MetaMarkerGraphEdge) (he : e ∈ applySteps [] steps) :
    ∃ x, (e.source, e.target, x) ∈ steps := by
  have hp : (e.source, e.target) ∈ edgePairs (applySteps [] steps) :=
    List.mem_map.2 ⟨e, he, rfl⟩
  rcases (mem_edgePairs_applySteps _ steps []).1 hp with h | h
  · simp [edgePairs] at h
  · obtain ⟨s, hs, hse⟩ := List.mem_map.1 h
    obtain ⟨a, b, c⟩ := s
    have e1 := (Prod.mk.inj hse).1
    have e2 := (Prod.mk.inj hse).2
    simp only at e1 e2
    exact ⟨c, by rw [← e1, ← e2]; exact hs⟩

/-! ## The attribution lists are sorted (C19) -/

/-- C19. For every gap-free input on a graph that starts with no edges,
`createEdges` completes and the attribution list of every edge is strictly
increasing in the lexicographic order on (traversal id, ordinal), so no entry
occurs twice on an edge; and every entry `(r, k)` on an edge has the source of
the edge in slot `k` and the target of the edge in slot `k+1` of the
reconstructed path of traversal `r`, with `k+1` less than the length of that
path. -/
theorem createEdges_attribution_sorted (graph : MetaMarkerGraph)
    (hord : OrdinalsInRange graph) (hgap : ¬ HasGap graph) (hempty : graph.edges = []) :
    ∃ pseudoPaths graph1, scatterVertices 0 [] graph.vertices = .ok pseudoPaths ∧
      createEdges graph = .ok graph1 ∧
      ∀ e ∈ graph1.edges,
        List.Pairwise EntryLt e.orientedReads ∧ e.orientedReads.Nodup ∧
        ∀ r k, (r, k) ∈ e.orientedReads →
          (pathOf pseudoPaths r)[k]? = some e.source ∧
          (pathOf pseudoPaths r)[k + 1]? = some e.target ∧
          k + 1 < (pathOf pseudoPaths r).length := by
  obtain ⟨ps, hps, hpaths, _, hok⟩ := createEdges_of_no_gap graph hord hgap
  rw [hempty] at hok
  refine ⟨ps, _, hps, hok, ?_⟩
  intro e he
  have he' : e ∈ applySteps [] (stepsOfPaths ps) := he
  have hsorted : List.Pairwise EntryLt e.orientedReads := by
    rw [orientedReads_of_mem_applySteps _ e he']
    exact pairwise_attribution_steps ps hpaths.1 _ _
  refine ⟨hsorted, List.Pairwise.imp (fun h => entryLt_ne _ _ h) hsorted, ?_⟩
  intro r k hrk
  have hstep := (mem_orientedReads_iff _ e he' (r, k)).1 hrk
  obtain ⟨h1, h2⟩ := (mem_stepsOfPaths_iff ps hpaths.1 _ _ r k).1 hstep
  exact ⟨h1, h2, (List.getElem?_eq_some.1 h2).1⟩

/-- C19, at two traversals that both step from vertex 0 to vertex 1: the edge
`0 -> 1` lists traversal 0 before traversal 1. -/
theorem createEdges_attribution_sorted_witness :
    OrdinalsInRange aggregationExample ∧ ¬ HasGap aggregationExample ∧
    aggregationExample.edges = [] ∧
    (∃ pseudoPaths graph1, scatterVertices 0 [] aggregationExample.vertices = .ok pseudoPaths ∧
      createEdges aggregationExample = .ok graph1 ∧
      ∀ e ∈ graph1.edges,
        List.Pairwise EntryLt e.orientedReads ∧ e.orientedReads.Nodup ∧
        ∀ r k, (r, k) ∈ e.orientedReads →
          (pathOf pseudoPaths r)[k]? = some e.source ∧
          (pathOf pseudoPaths r)[k + 1]? = some e.target ∧
          k + 1 < (pathOf pseudoPaths r).length) ∧
    (createEdges aggregationExample).map (fun g => g.edges.map fun e => e.orientedReads)
      = .ok [[(0, 0), (1, 0)]] :=
  ⟨by decide, (hasGap_iff_bounded _).not.2 (by decide), rfl,
    createEdges_attribution_sorted aggregationExample (by decide)
      ((hasGap_iff_bounded _).not.2 (by decide)) rfl, by decide⟩

/-! ## The edges and their attribution lists (C11) -/

/-- C11. For every gap-free input in which each (traversal, ordinal) pair is
recorded on one vertex only and the graph starts with no edges, `createEdges`
completes; an edge `A -> B` exists if and only if some traversal visits `A` at
some ordinal `k` and `B` at ordinal `k+1`; every edge joins two vertices, and
its attribution list contains the entry `(r, k)` exactly when traversal `r`
visits its source at ordinal `k` and its target at ordinal `k+1`, each such
entry once; and there is one edge per ordered pair. -/
theorem createEdges_edges (graph : MetaMarkerGraph)
    (hord : OrdinalsInRange graph) (hgap : ¬ HasGap graph)
    (huniq : UniquelyRecorded graph) (hempty : graph.edges = []) :
    ∃ graph1, createEdges graph = .ok graph1 ∧
      (∀ A B, (∃ e ∈ graph1.edges, e.source = some A ∧ e.target = some B) ↔
        ∃ r k, RecordedOn graph A r k ∧ RecordedOn graph B r (k + 1)) ∧
      (∀ e ∈ graph1.edges, ∃ A B, e.source = some A ∧ e.target = some B ∧
        e.orientedReads.Nodup ∧
        ∀ r k, (r, k) ∈ e.orientedReads ↔
          RecordedOn graph A r k ∧ RecordedOn graph B r (k + 1)) ∧
      NoParallelEdges graph1.edges := by
  obtain ⟨ps, hps, hpaths, hnone, hok⟩ := createEdges_of_no_gap graph hord hgap
  rw [hempty] at hok
  have hnd : NoParallelEdges (applySteps [] (stepsOfPaths ps)) :=
    noParallelEdges_applySteps _ [] List.nodup_nil
  refine ⟨_, hok, ?_, ?_, hnd⟩
  · intro A B
    constructor
    · rintro ⟨e, he, hs, ht⟩
      have he' : e ∈ applySteps [] (stepsOfPaths ps) := he
      obtain ⟨⟨r, k⟩, hx⟩ := step_of_mem_applySteps _ e he'
      rw [hs, ht] at hx
      exact ⟨r, k, (step_iff_recorded graph ps hpaths huniq A B r k).1 hx⟩
    · rintro ⟨r, k, hrec⟩
      have hstep := (step_iff_recorded graph ps hpaths huniq A B r k).2 hrec
      have hp : (some A, some B) ∈ edgePairs (applySteps [] (stepsOfPaths ps)) :=
        (mem_edgePairs_applySteps _ _ []).2
          (Or.inr (List.mem_map.2 ⟨(some A, some B, (r, k)), hstep, rfl⟩))
      obtain ⟨e, he, hpe⟩ := List.mem_map.1 hp
      exact ⟨e, he, (Prod.mk.inj hpe).1, (Prod.mk.inj hpe).2⟩
  · intro e he
    have he' : e ∈ applySteps [] (stepsOfPaths ps) := he
    obtain ⟨x, hx⟩ := step_of_mem_applySteps _ e he'
    obtain ⟨r0, p0, i0, hm0, h1, h2, _⟩ := (mem_stepsOfPaths _ ps).1 hx
    have hs : ∃ A, e.source = some A := by
      cases hsrc : e.source with
      | none =>
        simp only [hsrc] at h1
        exact absurd (List.mem_iff_getElem?.2 ⟨i0, h1⟩) (hnone (r0, p0) hm0)
      | some A => exact ⟨A, rfl⟩
    have ht : ∃ B, e.target = some B := by
      cases htgt : e.target with
      | none =>
        simp only [htgt] at h2
        exact absurd (List.mem_iff_getElem?.2 ⟨i0 + 1, h2⟩) (hnone (r0, p0) hm0)
      | some B => exact ⟨B, rfl⟩
    obtain ⟨A, hA⟩ := hs
    obtain ⟨B, hB⟩ := ht
    refine ⟨A, B, hA, hB, ?_, ?_⟩
    · have hsorted : List.Pairwise EntryLt e.orientedReads := by
        rw [orientedReads_of_mem_applySteps _ e he']
        exact pairwise_attribution_steps ps hpaths.1 _ _
      exact List.Pairwise.imp (fun h => entryLt_ne _ _ h) hsorted
    · intro r k
      rw [mem_orientedReads_iff _ e he' (r, k), hA, hB]
      exact step_iff_recorded graph ps hpaths huniq A B r k

/-- C11, at two traversals that both step from vertex 0 to vertex 1 once: one
edge `0 -> 1` results and its attribution list has the two entries. -/
theorem createEdges_edges_witness :
    OrdinalsInRange aggregationExample ∧ ¬ HasGap aggregationExample ∧
    UniquelyRecorded aggregationExample ∧ aggregationExample.edges = [] ∧
    (∃ graph1, createEdges aggregationExample = .ok graph1 ∧
      (∀ A B, (∃ e ∈ graph1.edges, e.source = some A ∧ e.target = some B) ↔
        ∃ r k, RecordedOn aggregationExample A r k ∧
          RecordedOn aggregationExample B r (k + 1)) ∧
      (∀ e ∈ graph1.edges, ∃ A B, e.source = some A ∧ e.target = some B ∧
        e.orientedReads.Nodup ∧
        ∀ r k, (r, k) ∈ e.orientedReads ↔
          RecordedOn aggregationExample A r k ∧
            RecordedOn aggregationExample B r (k + 1)) ∧
      NoParallelEdges graph1.edges) ∧
    (createEdges aggregationExample).map (fun g => g.edges)
      = .ok [⟨some 0, some 1, [(0, 0), (1, 0)]⟩] :=
  ⟨by decide, (hasGap_iff_bounded _).not.2 (by decide), by decide, rfl,
    createEdges_edges aggregationExample (by decide)
      ((hasGap_iff_bounded _).not.2 (by decide)) (by decide) rfl, by decide⟩

end MetaMarkerGraph

namespace WriteGraph

/-! ## The view box of `writeSvg` (C15) -/

theorem disks_cons (vertexAttributes : List (Nat × VertexAttributes)) (v : Nat)
    (position : ℚ × ℚ) (rest : List (ℚ × ℚ)) :
    disks vertexAttributes v (position :: rest)
      = (position, vertexRadius vertexAttributes v) :: disks vertexAttributes (v + 1) rest := by
  simp [disks, List.range'_succ]

theorem viewBoxLoop_eq (vertexAttributes : List (Nat × VertexAttributes)) :
    ∀ (positions : List (ℚ × ℚ)) (v : Nat) (xMin xMax yMin yMax : ℚ),
      viewBoxLoop vertexAttributes v positions (xMin, xMax, yMin, yMax)
        = ((disks vertexAttributes v positions).foldl (fun m e => min m (e.1.1 - e.2)) xMin,
           (disks vertexAttributes v positions).foldl (fun m e => max m (e.1.1 + e.2)) xMax,
           (disks vertexAttributes v positions).foldl (fun m e => min m (e.1.2 - e.2)) yMin,
           (disks vertexAttributes v positions).foldl (fun m e => max m (e.1.2 + e.2)) yMax) := by
  intro positions
  induction positions with
  | nil => intro v xMin xMax yMin yMax; simp [viewBoxLoop, disks]
  | cons position rest ih =>
    intro v xMin xMax yMin yMax
    rw [disks_cons]
    simp only [viewBoxLoop, List.foldl_cons]
    exact ih (v + 1) _ _ _ _

theorem foldl_min_init {α : Type} (f : α → ℚ) :
    ∀ (l : List α) (a b : ℚ),
      l.foldl (fun m e => min m (f e)) (min a b) = min a (l.foldl (fun m e => min m (f e)) b) := by
  intro l
  induction l with
  | nil => intro a b; rfl
  | cons x rest ih =>
    intro a b
    simp only [List.foldl_cons]
    rw [min_assoc, ih]

theorem foldl_max_init {α : Type} (f : α → ℚ) :
    ∀ (l : List α) (a b : ℚ),
      l.foldl (fun m e => max m (f e)) (max a b) = max a (l.foldl (fun m e => max m (f e)) b) := by
  intro l
  induction l with
  | nil => intro a b; rfl
  | cons x rest ih =>
    intro a b
    simp only [List.foldl_cons]
    rw [max_assoc, ih]

theorem foldl_min_le_init {α : Type} (f : α → ℚ) :
    ∀ (l : List α) (b : ℚ), l.foldl (fun m e => min m (f e)) b ≤ b := by
  intro l
  induction l with
  | nil => intro b; exact le_refl b
  | cons x rest ih =>
    intro b
    simp only [List.foldl_cons]
    exact le_trans (ih _) (min_le_left _ _)

theorem le_foldl_max {α : Type} (f : α → ℚ) :
    ∀ (l : List α) (b : ℚ),
      b ≤ l.foldl (fun m e => max m (f e)) b ∧
      ∀ x ∈ l, f x ≤ l.foldl (fun m e => max m (f e)) b := by
  intro l
  induction l with
  | nil => intro b; exact ⟨le_refl b, by simp⟩
  | cons y rest ih =>
    intro b
    simp only [List.foldl_cons]
    obtain ⟨h1, h2⟩ := ih (max b (f y))
    refine ⟨le_trans (le_max_left _ _) h1, ?_⟩
    intro x hx
    rcases List.mem_cons.1 hx with e | hx'
    · rw [e]; exact le_trans (le_max_right _ _) h1
    · exact h2 x hx'

/-- Where `writeSvg` does compute the bounding box: when the first vertex has
`x - radius` and `y - radius` no larger than the largest double, and the
largest `x + radius` and the largest `y + radius` are at least the smallest
positive normalized double. -/
theorem writeSvgViewBox_eq_boundingBox (positions : List (ℚ × ℚ))
    (vertexAttributes : List (Nat × VertexAttributes))
    (hlow : ∀ d ∈ (disks vertexAttributes 0 positions).head?,
      d.1.1 - d.2 ≤ doubleMax ∧ d.1.2 - d.2 ≤ doubleMax)
    (hx : ∃ d ∈ disks vertexAttributes 0 positions, doubleMin ≤ d.1.1 + d.2)
    (hy : ∃ d ∈ disks vertexAttributes 0 positions, doubleMin ≤ d.1.2 + d.2) :
    boundingBox positions vertexAttributes
      = some (writeSvgViewBox positions vertexAttributes) := by
  unfold boundingBox writeSvgViewBox
  rw [viewBoxLoop_eq]
  cases hd : disks vertexAttributes 0 positions with
  | nil =>
    rw [hd] at hx
    obtain ⟨d, hdm, _⟩ := hx
    simp at hdm
  | cons d ds =>
    rw [hd] at hx hy hlow
    obtain ⟨hlx, hly⟩ := hlow d (by simp)
    have hxmin : (d :: ds).foldl (fun m e => min m (e.1.1 - e.2)) doubleMax
        = ds.foldl (fun m e => min m (e.1.1 - e.2)) (d.1.1 - d.2) := by
      rw [List.foldl_cons, min_eq_right hlx]
    have hymin : (d :: ds).foldl (fun m e => min m (e.1.2 - e.2)) doubleMax
        = ds.foldl (fun m e => min m (e.1.2 - e.2)) (d.1.2 - d.2) := by
      rw [List.foldl_cons, min_eq_right hly]
    have hxmax : (d :: ds).foldl (fun m e => max m (e.1.1 + e.2)) doubleMin
        = ds.foldl (fun m e => max m (e.1.1 + e.2)) (d.1.1 + d.2) := by
      rw [List.foldl_cons, foldl_max_init]
      apply max_eq_right
      obtain ⟨x, hxm, hxd⟩ := hx
      obtain ⟨h1, h2⟩ := le_foldl_max (fun e : (ℚ × ℚ) × ℚ => e.1.1 + e.2) ds (d.1.1 + d.2)
      rcases List.mem_cons.1 hxm with e | hm
      · rw [e] at hxd; exact le_trans hxd h1
      · exact le_trans hxd (h2 x hm)
    have hymax : (d :: ds).foldl (fun m e => max m (e.1.2 + e.2)) doubleMin
        = ds.foldl (fun m e => max m (e.1.2 + e.2)) (d.1.2 + d.2) := by
      rw [List.foldl_cons, foldl_max_init]
      apply max_eq_right
      obtain ⟨x, hxm, hxd⟩ := hy
      obtain ⟨h1, h2⟩ := le_foldl_max (fun e : (ℚ × ℚ) × ℚ => e.1.2 + e.2) ds (d.1.2 + d.2)
      rcases List.mem_cons.1 hxm with e | hm
      · rw [e] at hxd; exact le_trans hxd h1
      · exact le_trans hxd (h2 x hm)
    simp only [hxmin, hymin, hxmax, hymax]

/-- C15 at a graph with negative coordinates: one vertex at `(-5, -5)` with the
default radius 1.  Its bounding box is `xMin = -6`, `yMin = -6`, width 2,
height 2.  `writeSvg` starts `xMax` and `yMax` at
`std::numeric_limits<double>::min()`, which is positive, so they stay there and
the view box it emits has width and height `6 + 2^(-1022)`. -/
theorem writeSvgViewBox_negative :
    boundingBox [(-5, -5)] [] = some (-6, -6, 2, 2) ∧
    writeSvgViewBox [(-5, -5)] [] = (-6, -6, doubleMin + 6, doubleMin + 6) ∧
    some (writeSvgViewBox [(-5, -5)] []) ≠ boundingBox [(-5, -5)] [] := by
  have hmin : (0 : ℚ) < doubleMin := by unfold doubleMin; positivity
  have hmax : (-6 : ℚ) ≤ doubleMax := by unfold doubleMax; norm_num
  have hb : boundingBox [(-5, -5)] [] = some (-6, -6, 2, 2) := by
    simp [boundingBox, disks, vertexRadius, findAttributes]
    norm_num
  have hw : writeSvgViewBox [(-5, -5)] [] = (-6, -6, doubleMin + 6, doubleMin + 6) := by
    have h1 : min doubleMax (-5 - 1 : ℚ) = -6 := by
      rw [min_eq_right (by linarith)]; norm_num
    have h2 : max doubleMin (-5 + 1 : ℚ) = doubleMin := by
      rw [max_eq_left (by linarith)]
    simp only [writeSvgViewBox, viewBoxLoop, findAttributes, List.find?_nil, Option.map_none',
      Option.getD_none, h1, h2]
    norm_num
  refine ⟨hb, hw, ?_⟩
  rw [hb, hw]
  intro h
  have h3 : doubleMin + 6 = 2 :=
    (Prod.mk.inj (Prod.mk.inj (Prod.mk.inj (Option.some.inj h)).2).2).1
  linarith

end WriteGraph

end shasta
